import Mathlib

/-! # GPU Ocelot, LLVM back end: memory layout allocator and CTA scheduler

A shallow embedding of

* `ocelot/executive/implementation/LLVMExecutableKernel.cpp`
  (`_pad`, `_allocateParameterMemory`, `_allocateSharedMemory`,
  `_allocateLocalMemory`, `_allocateConstantMemory`, `_allocateTextureMemory`,
  `_allocateMemory`), and
* `branches/ocelot-ptx-2.1/ocelot/executive/implementation/LLVMCooperativeThreadArray.cpp`
  (`setup`, `executeCta` and its helpers).

Modelling conventions.

* Byte sizes and offsets (`size_t`, `unsigned int`) are natural numbers; a layout
  is assumed to fit the address space, so the sums of the allocation loops do
  not wrap around.  An operand offset (`int`) is an integer, and the operand
  loops of the allocation maps add into it in the arithmetic of `int`
  (`wrapInt`).
* The functions whose arguments reach the bounds of a machine word directly
  (`_pad`, `threads`, `threadId`, `setKernelShape`, `_launchCtaNoBarriers`) are
  embedded with the arithmetic of machine words in the namespace
  `LLVMExecutableKernel.Machine`: a `size_t` is taken modulo `2 ^ 64`, an
  `unsigned int` modulo `2 ^ 32`.
* A run that the C++ program does not survive (integer division by zero, a
  failed `assert`, an access outside a vector) is an `Except.error`.
* Containers are lists in iteration order.  `std::unordered_map::insert` keeps
  an existing entry; `find` returns the entry of a key.
* Values computed by classes whose source is not part of the development
  (`ir::Parameter::getSize`, `ir::PTXStatement::bytes`,
  `ir::PTXOperand::bytes(type)`, ...) are fields of the records below.
-/

/-- The ways in which a run of the modelled code stops without a result. -/
inductive Abort where
  /-- An unsigned `%` with divisor zero. -/
  | divideByZero
  /-- The condition of an `assert` / `assertM` is false. -/
  | assertion
  /-- An element access outside the bounds of a `std::vector`. -/
  | outOfBounds
  /-- A call through a null function pointer. -/
  | nullFunction
  /-- The module manager cannot produce the requested native function. -/
  | noNativeCode
  /-- The call stack reports a fatal error. -/
  | stackFault
  deriving DecidableEq

namespace ir

/-- The opcodes of `ir::PTXInstruction` that the allocator distinguishes;
every other opcode is `Other`. -/
inductive Opcode where
  | Mov
  | Ld
  | St
  | Tex
  | Other (code : Nat)
  deriving DecidableEq

/-- The address modes of `ir::PTXOperand`. -/
inductive AddressMode where
  | Register
  | Indirect
  | Immediate
  | Address
  | Label
  | Special
  | Invalid
  deriving DecidableEq

/-- The address spaces of `ir::PTXInstruction`. -/
inductive AddressSpace where
  | AddressSpace_Invalid
  | Const
  | Global
  | Local
  | Param
  | Shared
  | Texture
  deriving DecidableEq

/-- The directives of `ir::PTXStatement` read by the allocator. -/
inductive Directive where
  | Shared
  | Const
  | Global
  | OtherDirective
  deriving DecidableEq

/-- The attributes of `ir::PTXStatement`. -/
inductive Attribute where
  | NoAttribute
  | Extern
  | Visible
  deriving DecidableEq

/-- The fields of `ir::PTXOperand` read or written by the allocator. -/
structure PTXOperand where
  addressMode : AddressMode
  identifier : String
  offset : Int
  reg : Nat
  deriving DecidableEq

/-- The fields of `ir::PTXInstruction` read or written by the allocator. -/
structure PTXInstruction where
  opcode : Opcode
  addressSpace : AddressSpace
  d : PTXOperand
  a : PTXOperand
  b : PTXOperand
  c : PTXOperand
  deriving DecidableEq

/-- One `ir::Parameter`: `size` is `getSize()`, `alignment` is
`getAlignment()`. -/
structure Parameter where
  name : String
  size : Nat
  alignment : Nat
  offset : Nat
  deriving DecidableEq

/-- One entry of `_ptx->locals` (`ir::Local`): `size` is `getSize()`,
`typeBytes` is `ir::PTXOperand::bytes(type)`. -/
structure Local where
  space : AddressSpace
  attribute_ : Attribute
  name : String
  alignment : Nat
  typeBytes : Nat
  size : Nat
  deriving DecidableEq

/-- The `statement` of one entry of `module->globals` (`ir::PTXStatement`):
`bytes` is `bytes()`, `typeBytes` is `ir::PTXOperand::bytes(type)`. -/
structure PTXStatement where
  directive : Directive
  attribute_ : Attribute
  name : String
  alignment : Nat
  typeBytes : Nat
  bytes : Nat
  deriving DecidableEq

end ir

open ir

/-- The `AllocationMap` of `LLVMExecutableKernel`: variable name to offset. -/
abbrev AllocationMap := List (String × Nat)

/-- The `find` of the allocation map: the offset stored under `key`. -/
def AllocationMap.find : AllocationMap → String → Option Nat
  | [], _ => none
  | (k, v) :: rest, key => if key = k then some v else AllocationMap.find rest key

/-- The `insert` of the allocation map: an existing entry of `key` is kept. -/
def AllocationMap.insert (m : AllocationMap) (key : String) (value : Nat) : AllocationMap :=
  match AllocationMap.find m key with
  | some _ => m
  | none => m ++ [(key, value)]

namespace LLVMExecutableKernel

/-- `LLVMExecutableKernel::_pad` on natural numbers, the arithmetic in which
the layouts of the allocators are stated: the result is the updated `size` and
the returned padding.  It is what `Machine._pad` computes as long as the
updated size is below `2 ^ 64`. -/
def _pad (size alignment : Nat) : Except Abort (Nat × Nat) :=
  if alignment = 0 then .error .divideByZero
  else
    let padding := alignment - size % alignment
    let padding := if alignment = padding then 0 else padding
    .ok (size + padding, padding)

/-- `LLVMExecutableKernel::_pad` on machine words: `size` is a `size_t`,
`alignment` and `padding` are `unsigned int`s, and `size += padding` wraps
around at `2 ^ 64`.  The result is the updated `size` and the returned
padding. -/
def Machine._pad (size alignment : Nat) : Except Abort (Nat × Nat) :=
  if alignment = 0 then .error .divideByZero
  else
    let padding := (alignment - size % alignment) % 2 ^ 32
    let padding := if alignment = padding then 0 else padding
    .ok ((size + padding) % 2 ^ 64, padding)

/-- One variable as the allocator placed it: the value returned by `_pad`, the
offset recorded for the variable, and the size and alignment it was declared
with. -/
structure Placement where
  name : String
  offset : Nat
  size : Nat
  alignment : Nat
  padding : Nat
  deriving DecidableEq

/-- The running state of one address space while its variables are placed:
the running size (`_context.parameterSize`, `sharedSize`, `localSize`,
`constantSize`), the allocation map, and the log of the placements made. -/
structure Space where
  size : Nat
  map : AllocationMap
  placed : List Placement
  deriving DecidableEq

/-- The state before the first variable: size zero, empty map. -/
def Space.empty : Space := { size := 0, map := [], placed := [] }

/-- The bookkeeping every allocation loop does for one variable once `_pad`
has returned `padding` and left the running size at `padded`:
`map.insert(make_pair(name, size))` and `size += bytes`. -/
def Space.record (sp : Space) (name : String) (alignment bytes padded padding : Nat) : Space :=
  { size := padded + bytes
    map := AllocationMap.insert sp.map name padded
    placed := sp.placed ++
      [{ name := name, offset := padded, size := bytes, alignment := alignment, padding := padding }] }

/-- The three statements every allocation loop runs for one variable:
`_pad(size, alignment)`, `map.insert(make_pair(name, size))`,
`size += bytes`. -/
def Space.place (sp : Space) (name : String) (alignment bytes : Nat) : Except Abort Space :=
  match _pad sp.size alignment with
  | .error e => .error e
  | .ok (padded, padding) => .ok (sp.record name alignment bytes padded padding)

/-- The operand array `{ &instruction->d, &instruction->a, &instruction->b,
&instruction->c }`, read. -/
def operandAt (i : PTXInstruction) : Fin 4 → PTXOperand
  | 0 => i.d
  | 1 => i.a
  | 2 => i.b
  | 3 => i.c

/-- The operand array, written through the pointer of one slot. -/
def setOperandAt (i : PTXInstruction) : Fin 4 → PTXOperand → PTXInstruction
  | 0, op => { i with d := op }
  | 1, op => { i with a := op }
  | 2, op => { i with b := op }
  | 3, op => { i with c := op }

/-- The opcode test that guards every operand loop of the allocator. -/
def isMovLdSt (i : PTXInstruction) : Bool :=
  i.opcode = Opcode.Mov || i.opcode = Opcode.Ld || i.opcode = Opcode.St

/-- The value an `int` holds when `n` is stored into it: the number from
`-2 ^ 31` to `2 ^ 31 - 1` that differs from `n` by a multiple of `2 ^ 32`. -/
def wrapInt (n : Int) : Int := (n + 2147483648) % 4294967296 - 2147483648

/-- The body of the operand loop of `_allocateParameterMemory`,
`_allocateLocalMemory` and `_allocateConstantMemory` for the operand in
`slot`.  `space` is the address space the loop stores into
`instruction->addressSpace` (the parameter loop stores none).  The statement
`operands[ i ]->offset += mapping->second` adds into the `int` field
`offset`. -/
def mapOperand (space : Option AddressSpace) (map : AllocationMap) (i : PTXInstruction)
    (slot : Fin 4) : PTXInstruction :=
  let op := operandAt i slot
  if op.addressMode = AddressMode.Address then
    match AllocationMap.find map op.identifier with
    | some offset =>
      let i1 : PTXInstruction :=
        match space with
        | some sp => { i with addressSpace := sp }
        | none => i
      setOperandAt i1 slot { op with offset := wrapInt (op.offset + (offset : Int)) }
    | none => i
  else i

/-- The body of the instruction loop of `_allocateParameterMemory`,
`_allocateLocalMemory` and `_allocateConstantMemory` for one instruction. -/
def mapInstruction (space : Option AddressSpace) (map : AllocationMap) (i : PTXInstruction) :
    PTXInstruction :=
  if isMovLdSt i then
    mapOperand space map (mapOperand space map (mapOperand space map (mapOperand space map i 0) 1) 2) 3
  else i

/-- The declaration loop of `_allocateParameterMemory`, started in `sp`. -/
def placeParameters : Space → List Parameter → Except Abort (Space × List Parameter)
  | sp, [] => .ok (sp, [])
  | sp, p :: ps =>
    match _pad sp.size p.alignment with
    | .error e => .error e
    | .ok (padded, padding) =>
      match placeParameters (sp.record p.name p.alignment p.size padded padding) ps with
      | .error e => .error e
      | .ok (sp1, ps1) => .ok (sp1, { p with offset := padded } :: ps1)

/-- `LLVMExecutableKernel::_allocateParameterMemory`: the parameter space, the
parameters with their offsets, and the rewritten instructions. -/
def _allocateParameterMemory (parameters : List Parameter) (instructions : List PTXInstruction) :
    Except Abort (Space × List Parameter × List PTXInstruction) :=
  match placeParameters Space.empty parameters with
  | .error e => .error e
  | .ok (sp, ps) => .ok (sp, ps, instructions.map (mapInstruction none sp.map))

/-- The declaration loop of `_allocateLocalMemory`, started in `sp`. -/
def placeLocals : Space → List Local → Except Abort Space
  | sp, [] => .ok sp
  | sp, l :: ls =>
    if l.space = AddressSpace.Local then
      match sp.place l.name l.alignment l.size with
      | .error e => .error e
      | .ok sp1 => placeLocals sp1 ls
    else placeLocals sp ls

/-- `LLVMExecutableKernel::_allocateLocalMemory`: the local space, the
rewritten instructions, and `_resumePointOffset` (written only with barrier
support, `previous` otherwise). -/
def _allocateLocalMemory (locals : List Local) (instructions : List PTXInstruction)
    (barrierSupport : Bool) (resumePoint : String) (previous : Nat) :
    Except Abort (Space × List PTXInstruction × Nat) :=
  match placeLocals Space.empty locals with
  | .error e => .error e
  | .ok sp =>
    let rewritten := instructions.map (mapInstruction (some AddressSpace.Local) sp.map)
    if barrierSupport then
      match AllocationMap.find sp.map resumePoint with
      | none => .error .assertion
      | some offset => .ok (sp, rewritten, offset)
    else .ok (sp, rewritten, previous)

/-- The declaration loop of `_allocateConstantMemory`, started in `sp`. -/
def placeConstants : Space → List PTXStatement → Except Abort Space
  | sp, [] => .ok sp
  | sp, g :: gs =>
    if g.directive = Directive.Const then
      match sp.place g.name g.alignment g.bytes with
      | .error e => .error e
      | .ok sp1 => placeConstants sp1 gs
    else placeConstants sp gs

/-- `LLVMExecutableKernel::_allocateConstantMemory`: the constant space (its
map is `_constants`) and the rewritten instructions. -/
def _allocateConstantMemory (globals : List PTXStatement) (instructions : List PTXInstruction) :
    Except Abort (Space × List PTXInstruction) :=
  match placeConstants Space.empty globals with
  | .error e => .error e
  | .ok sp => .ok (sp, instructions.map (mapInstruction (some AddressSpace.Const) sp.map))

/-- The set `external` and the running `externalAlignment` of
`_allocateSharedMemory`. -/
structure Externals where
  external : List String
  externalAlignment : Nat
  deriving DecidableEq

/-- The statements run for one extern shared variable: the assertion that
its name is new, `external.insert`, and the two `std::max` updates. -/
def Externals.add (x : Externals) (name : String) (alignment typeBytes : Nat) :
    Except Abort Externals :=
  if name ∈ x.external then .error .assertion
  else .ok { external := x.external ++ [name]
             externalAlignment := max (max x.externalAlignment alignment) typeBytes }

/-- The `find` of the map `sharedGlobals`. -/
def findGlobal : List PTXStatement → String → Option PTXStatement
  | [], _ => none
  | g :: gs, key => if key = g.name then some g else findGlobal gs key

/-- The `insert` of the map `sharedGlobals`: an existing entry is kept. -/
def insertGlobal (gs : List PTXStatement) (g : PTXStatement) : List PTXStatement :=
  match findGlobal gs g.name with
  | some _ => gs
  | none => gs ++ [g]

/-- The `erase` of the map `sharedGlobals`. -/
def eraseGlobal (gs : List PTXStatement) (key : String) : List PTXStatement :=
  gs.filter (fun g => g.name ≠ key)

/-- The first loop of `_allocateSharedMemory`, over `module->globals`. -/
def scanGlobals : Externals → List PTXStatement → List PTXStatement →
    Except Abort (Externals × List PTXStatement)
  | x, sharedGlobals, [] => .ok (x, sharedGlobals)
  | x, sharedGlobals, g :: gs =>
    if g.directive = Directive.Shared then
      if g.attribute_ = Attribute.Extern then
        match x.add g.name g.alignment g.typeBytes with
        | .error e => .error e
        | .ok x1 => scanGlobals x1 sharedGlobals gs
      else scanGlobals x (insertGlobal sharedGlobals g) gs
    else scanGlobals x sharedGlobals gs

/-- The second loop of `_allocateSharedMemory`, over `_ptx->locals`. -/
def scanLocals : Externals → Space → List Local → Except Abort (Externals × Space)
  | x, sp, [] => .ok (x, sp)
  | x, sp, l :: ls =>
    if l.space = AddressSpace.Shared then
      if l.attribute_ = Attribute.Extern then
        match x.add l.name l.alignment l.typeBytes with
        | .error e => .error e
        | .ok x1 => scanLocals x1 sp ls
      else
        match sp.place l.name l.alignment l.size with
        | .error e => .error e
        | .ok sp1 => scanLocals x sp1 ls
    else scanLocals x sp ls

/-- The state of the instruction loop of `_allocateSharedMemory`: the globals
not yet referenced, the shared space, and the deque `externalOperands` (an
operand pointer is the index of its instruction and its slot). -/
structure SharedScan where
  sharedGlobals : List PTXStatement
  space : Space
  externalOperands : List (Nat × Fin 4)
  deriving DecidableEq

/-- The body of the operand loop of `_allocateSharedMemory` for the operand in
`slot` of instruction number `n`. -/
def sharedOperand (external : List String) (n : Nat) (st : SharedScan) (i : PTXInstruction)
    (slot : Fin 4) : Except Abort (SharedScan × PTXInstruction) :=
  let op := operandAt i slot
  if op.addressMode = AddressMode.Address then
    if op.identifier ∈ external then
      .ok ({ st with externalOperands := st.externalOperands ++ [(n, slot)] }, i)
    else
      match findGlobal st.sharedGlobals op.identifier with
      | some g =>
        match st.space.place g.name g.alignment g.bytes with
        | .error e => .error e
        | .ok sp1 =>
          .ok ({ st with sharedGlobals := eraseGlobal st.sharedGlobals op.identifier, space := sp1 },
               mapOperand (some AddressSpace.Shared) sp1.map i slot)
      | none => .ok (st, mapOperand (some AddressSpace.Shared) st.space.map i slot)
  else .ok (st, i)

/-- The body of the instruction loop of `_allocateSharedMemory` for
instruction number `n`. -/
def sharedInstruction (external : List String) (n : Nat) (st : SharedScan) (i : PTXInstruction) :
    Except Abort (SharedScan × PTXInstruction) :=
  if isMovLdSt i then
    match sharedOperand external n st i 0 with
    | .error e => .error e
    | .ok (st0, i0) =>
      match sharedOperand external n st0 i0 1 with
      | .error e => .error e
      | .ok (st1, i1) =>
        match sharedOperand external n st1 i1 2 with
        | .error e => .error e
        | .ok (st2, i2) => sharedOperand external n st2 i2 3
  else .ok (st, i)

/-- The instruction loop of `_allocateSharedMemory`, from instruction number
`n` on. -/
def scanInstructions (external : List String) : Nat → SharedScan → List PTXInstruction →
    Except Abort (SharedScan × List PTXInstruction)
  | _, st, [] => .ok (st, [])
  | n, st, i :: rest =>
    match sharedInstruction external n st i with
    | .error e => .error e
    | .ok (st1, i1) =>
      match scanInstructions external (n + 1) st1 rest with
      | .error e => .error e
      | .ok (st2, rest1) => .ok (st2, i1 :: rest1)

/-- The instruction at position `n` replaced by its image under `f`. -/
def modifyInstruction (f : PTXInstruction → PTXInstruction) :
    List PTXInstruction → Nat → List PTXInstruction
  | [], _ => []
  | i :: rest, 0 => f i :: rest
  | i :: rest, n + 1 => i :: modifyInstruction f rest n

/-- The statement `(*operand)->offset += _context.sharedSize`. -/
def addSharedSize (sharedSize : Nat) (slot : Fin 4) (i : PTXInstruction) : PTXInstruction :=
  setOperandAt i slot
    { operandAt i slot with offset := (operandAt i slot).offset + (sharedSize : Int) }

/-- The last loop of `_allocateSharedMemory`, over `externalOperands`. -/
def mapExternalOperands (sharedSize : Nat) :
    List PTXInstruction → List (Nat × Fin 4) → List PTXInstruction
  | instructions, [] => instructions
  | instructions, (n, slot) :: rest =>
    mapExternalOperands sharedSize (modifyInstruction (addSharedSize sharedSize slot) instructions n) rest

/-- What `_allocateSharedMemory` leaves behind: the shared space as it stood
before the final `_pad`, the set `external` and `externalAlignment`, the
padding returned by the final `_pad`, `_context.sharedSize`, the deque
`externalOperands`, and the instructions. -/
structure SharedMemory where
  space : Space
  externals : Externals
  trailingPadding : Nat
  sharedSize : Nat
  externalOperands : List (Nat × Fin 4)
  instructions : List PTXInstruction
  deriving DecidableEq

/-- `LLVMExecutableKernel::_allocateSharedMemory`. -/
def _allocateSharedMemory (globals : List PTXStatement) (locals : List Local)
    (instructions : List PTXInstruction) : Except Abort SharedMemory :=
  match scanGlobals { external := [], externalAlignment := 1 } [] globals with
  | .error e => .error e
  | .ok (x0, sharedGlobals) =>
    match scanLocals x0 Space.empty locals with
    | .error e => .error e
    | .ok (x, sp) =>
      match scanInstructions x.external 0
          { sharedGlobals := sharedGlobals, space := sp, externalOperands := [] } instructions with
      | .error e => .error e
      | .ok (st, scanned) =>
        match _pad st.space.size x.externalAlignment with
        | .error e => .error e
        | .ok (sharedSize, padding) =>
          .ok { space := st.space
                externals := x
                trailingPadding := padding
                sharedSize := sharedSize
                externalOperands := st.externalOperands
                instructions := mapExternalOperands sharedSize scanned st.externalOperands }

/-- The loop of `_allocateTextureMemory`: `map` and `index` are the local
allocation map and counter, `bound` is the vector `textures` of the kernel
state being filled. -/
def scanTextures (textures : List String) :
    AllocationMap → Nat → List String → List PTXInstruction →
    Except Abort (List String × List PTXInstruction)
  | _, _, bound, [] => .ok (bound, [])
  | map, index, bound, i :: rest =>
    if i.opcode = Opcode.Tex then
      if i.a.identifier ∈ textures then
        match AllocationMap.find map i.a.identifier with
        | some allocation =>
          match scanTextures textures map index bound rest with
          | .error e => .error e
          | .ok (bound1, rest1) => .ok (bound1, { i with a := { i.a with reg := allocation } } :: rest1)
        | none =>
          match scanTextures textures (AllocationMap.insert map i.a.identifier index) (index + 1)
              (bound ++ [i.a.identifier]) rest with
          | .error e => .error e
          | .ok (bound1, rest1) => .ok (bound1, { i with a := { i.a with reg := index } } :: rest1)
      else .error .assertion
    else
      match scanTextures textures map index bound rest with
      | .error e => .error e
      | .ok (bound1, rest1) => .ok (bound1, i :: rest1)

/-- `LLVMExecutableKernel::_allocateTextureMemory`: the textures bound and the
rewritten instructions. -/
def _allocateTextureMemory (textures : List String) (instructions : List PTXInstruction) :
    Except Abort (List String × List PTXInstruction) :=
  scanTextures textures [] 0 [] instructions

/-- What `_allocateMemory` reads: the parameters, locals and instructions of
the PTX kernel, the globals and textures of its module, and the barrier
support with its resume-point variable. -/
structure Kernel where
  parameters : List Parameter
  locals : List Local
  instructions : List PTXInstruction
  globals : List PTXStatement
  textures : List String
  barrierSupport : Bool
  resumePoint : String
  resumePointOffset : Nat
  deriving DecidableEq

/-- What `_allocateMemory` leaves behind. -/
structure Memory where
  parameters : List Parameter
  parameterSpace : Space
  shared : SharedMemory
  localSpace : Space
  resumePointOffset : Nat
  constantSpace : Space
  boundTextures : List String
  instructions : List PTXInstruction
  deriving DecidableEq

/-- `LLVMExecutableKernel::_allocateMemory`: the six allocators in the order
of the source (`_allocateGlobalMemory` only writes a report). -/
def _allocateMemory (k : Kernel) : Except Abort Memory :=
  match _allocateParameterMemory k.parameters k.instructions with
  | .error e => .error e
  | .ok (parameterSpace, parameters, i1) =>
    match _allocateSharedMemory k.globals k.locals i1 with
    | .error e => .error e
    | .ok shared =>
      match _allocateLocalMemory k.locals shared.instructions k.barrierSupport k.resumePoint
          k.resumePointOffset with
      | .error e => .error e
      | .ok (localSpace, i3, resumePointOffset) =>
        match _allocateConstantMemory k.globals i3 with
        | .error e => .error e
        | .ok (constantSpace, i4) =>
          match _allocateTextureMemory k.textures i4 with
          | .error e => .error e
          | .ok (boundTextures, i5) =>
            .ok { parameters := parameters
                  parameterSpace := parameterSpace
                  shared := shared
                  localSpace := localSpace
                  resumePointOffset := resumePointOffset
                  constantSpace := constantSpace
                  boundTextures := boundTextures
                  instructions := i5 }

end LLVMExecutableKernel

/-! ## The allocator as the specification words it -/

namespace LLVMExecutableKernel

/-- A declared variable as the layout algorithm of the specification sees
it: a name, a required alignment and a byte size. -/
structure Declaration where
  name : String
  alignment : Nat
  bytes : Nat
  deriving DecidableEq

/-- The layout algorithm of the specification: the declarations are processed
in a single pass; for each one the running size is padded up to its
alignment, the offset is recorded, and the running size advances by its
size. -/
def layout : Space → List Declaration → Except Abort Space
  | sp, [] => .ok sp
  | sp, d :: ds =>
    match sp.place d.name d.alignment d.bytes with
    | .error e => .error e
    | .ok sp1 => layout sp1 ds

/-- The declaration a placement was made for. -/
def Placement.declaration (p : Placement) : Declaration :=
  { name := p.name, alignment := p.alignment, bytes := p.size }

/-- The declaration of a parameter. -/
def parameterDeclaration (p : Parameter) : Declaration :=
  { name := p.name, alignment := p.alignment, bytes := p.size }

/-- The declaration of a local variable. -/
def localDeclaration (l : Local) : Declaration :=
  { name := l.name, alignment := l.alignment, bytes := l.size }

/-- The declaration of a global variable. -/
def globalDeclaration (g : PTXStatement) : Declaration :=
  { name := g.name, alignment := g.alignment, bytes := g.bytes }

/-- The variables of `_ptx->locals` that live in the local address space. -/
def localVariables (locals : List Local) : List Local :=
  locals.filter (fun l => l.space = AddressSpace.Local)

/-- The globals of the module that live in the constant address space. -/
def constantVariables (globals : List PTXStatement) : List PTXStatement :=
  globals.filter (fun g => g.directive = Directive.Const)

/-- The shared variables of local scope that have a size (are not extern). -/
def sizedSharedLocals (locals : List Local) : List Local :=
  locals.filter (fun l => l.space = AddressSpace.Shared ∧ l.attribute_ ≠ Attribute.Extern)

/-- The shared variables of local scope that are extern. -/
def externSharedLocals (locals : List Local) : List Local :=
  locals.filter (fun l => l.space = AddressSpace.Shared ∧ l.attribute_ = Attribute.Extern)

/-- The shared globals of the module that have a size (are not extern). -/
def sizedSharedGlobals (globals : List PTXStatement) : List PTXStatement :=
  globals.filter (fun g => g.directive = Directive.Shared ∧ g.attribute_ ≠ Attribute.Extern)

/-- The shared globals of the module that are extern. -/
def externSharedGlobals (globals : List PTXStatement) : List PTXStatement :=
  globals.filter (fun g => g.directive = Directive.Shared ∧ g.attribute_ = Attribute.Extern)

/-- The names of the extern shared variables: those of the module, then those
of local scope. -/
def externalNames (globals : List PTXStatement) (locals : List Local) : List String :=
  (externSharedGlobals globals).map PTXStatement.name ++
    (externSharedLocals locals).map Local.name

/-- The alignment an extern shared variable asks for: its declared alignment
and the size of its element type, each extern variable contributing both. -/
def externalAlignments (globals : List PTXStatement) (locals : List Local) : List Nat :=
  (externSharedGlobals globals).flatMap (fun g => [g.alignment, g.typeBytes]) ++
    (externSharedLocals locals).flatMap (fun l => [l.alignment, l.typeBytes])

/-- The largest alignment among the extern shared variables (1 when there is
none or none asks for more). -/
def maximumExternalAlignment (globals : List PTXStatement) (locals : List Local) : Nat :=
  (externalAlignments globals locals).foldl max 1

/-- The identifiers through which the instructions address variables: the
identifiers of the address-mode operands `d`, `a`, `b`, `c` of the `Mov`,
`Ld` and `St` instructions, in instruction order. -/
def references : List PTXInstruction → List String
  | [] => []
  | i :: rest =>
    (if isMovLdSt i then
      (([operandAt i 0, operandAt i 1, operandAt i 2, operandAt i 3].filter
        (fun op => op.addressMode = AddressMode.Address)).map PTXOperand.identifier)
    else []) ++ references rest

/-- The first occurrence of every element, in order of appearance. -/
def firstOccurrences : List String → List String
  | [] => []
  | x :: xs => x :: (firstOccurrences xs).filter (fun y => y ≠ x)

/-- The offset of the first placement made under the name `key`. -/
def firstOffset : List Placement → String → Option Nat
  | [], _ => none
  | p :: ps, key => if key = p.name then some p.offset else firstOffset ps key

/-- The allocation map of a space stores, under every name, the offset of
the first placement made under that name. -/
def Space.Mapped (sp : Space) : Prop :=
  ∀ key, AllocationMap.find sp.map key = firstOffset sp.placed key

/-- What the operand loops do to one operand when `map` is the allocation
map: an address-mode operand whose identifier has an entry gets the entry
added to its offset, in the arithmetic of `int`. -/
def rewriteOperand (map : AllocationMap) (op : PTXOperand) : PTXOperand :=
  if op.addressMode = AddressMode.Address then
    match AllocationMap.find map op.identifier with
    | some offset => { op with offset := wrapInt (op.offset + (offset : Int)) }
    | none => op
  else op

/-- The sized shared globals of the module in the order of their first
reference: the references that are no extern name and name a global of the
`pool`, each global once, at its first reference. -/
def referencedGlobals (external : List String) (pool : List PTXStatement) (refs : List String) :
    List PTXStatement :=
  (firstOccurrences
    (refs.filter (fun key => key ∉ external ∧ (findGlobal pool key).isSome))).filterMap
      (findGlobal pool)

/-- The order in which the specification lays the shared variables out:
the sized shared variables of local scope first, then the sized shared
globals in the order of their first reference by an instruction. -/
def discoveryOrder (globals : List PTXStatement) (locals : List Local)
    (instructions : List PTXInstruction) : List Declaration :=
  (sizedSharedLocals locals).map localDeclaration ++
    (referencedGlobals (externalNames globals locals) (sizedSharedGlobals globals)
      (references instructions)).map globalDeclaration

/-- What one reference to `key` does to the globals not yet referenced and to
the shared space: a global met for the first time is placed and leaves the
pool. -/
def discover (external : List String) (pool : List PTXStatement) (sp : Space) (key : String) :
    Except Abort (List PTXStatement × Space) :=
  if key ∈ external then .ok (pool, sp)
  else
    match findGlobal pool key with
    | some g =>
      match sp.place g.name g.alignment g.bytes with
      | .error e => .error e
      | .ok sp1 => .ok (eraseGlobal pool key, sp1)
    | none => .ok (pool, sp)

/-- The references `refs` taken one after the other. -/
def discoverAll (external : List String) :
    List PTXStatement → Space → List String → Except Abort (List PTXStatement × Space)
  | pool, sp, [] => .ok (pool, sp)
  | pool, sp, key :: rest =>
    match discover external pool sp key with
    | .error e => .error e
    | .ok (pool1, sp1) => discoverAll external pool1 sp1 rest

/-- The instruction `j` is the instruction `i` after the operand loop of an
allocator whose space is `sp`: in a `Mov`, `Ld` or `St` instruction every
address-mode operand whose identifier has an entry in the allocation map has the
entry, the offset logged for the first variable of that name, added to its
offset; every other operand is the operand of `i`. -/
def Rewritten (sp : Space) (i j : PTXInstruction) : Prop :=
  j.opcode = i.opcode ∧
  ∀ t : Fin 4,
    (isMovLdSt i = true → (operandAt i t).addressMode = AddressMode.Address →
      ∀ offset, AllocationMap.find sp.map (operandAt i t).identifier = some offset →
        operandAt j t =
            { operandAt i t with
              offset := wrapInt ((operandAt i t).offset + (offset : Int)) } ∧
          ∃ p ∈ sp.placed, p.name = (operandAt i t).identifier ∧ p.offset = offset) ∧
    (isMovLdSt i = false ∨ (operandAt i t).addressMode ≠ AddressMode.Address ∨
        AllocationMap.find sp.map (operandAt i t).identifier = none →
      operandAt j t = operandAt i t)

/-- The names declared for a kernel: its parameters, its local-scope
variables, and the globals of its module. -/
def Kernel.declaredNames (k : Kernel) : List String :=
  k.parameters.map Parameter.name ++ k.locals.map Local.name ++ k.globals.map PTXStatement.name

/-- The conditions under which no division by zero and no assertion stops
`_allocateMemory`: the variables placed have positive alignments, the extern
shared names are distinct, with barrier support the resume point is a local
variable, and every texture instruction names a texture of the module. -/
def Kernel.WellFormed (k : Kernel) : Prop :=
  (∀ p ∈ k.parameters, 0 < p.alignment) ∧
  (∀ l ∈ localVariables k.locals ++ sizedSharedLocals k.locals, 0 < l.alignment) ∧
  (∀ g ∈ constantVariables k.globals ++ sizedSharedGlobals k.globals, 0 < g.alignment) ∧
  (externalNames k.globals k.locals).Nodup ∧
  (k.barrierSupport = true → k.resumePoint ∈ (localVariables k.locals).map Local.name) ∧
  (∀ i ∈ k.instructions, i.opcode = Opcode.Tex → i.a.identifier ∈ k.textures)

/-- What a reference made through the operand `op` does: only an
address-mode operand is a reference. -/
def discoverOperand (external : List String) (pool : List PTXStatement) (sp : Space)
    (op : PTXOperand) : Except Abort (List PTXStatement × Space) :=
  if op.addressMode = AddressMode.Address then discover external pool sp op.identifier
  else .ok (pool, sp)

/-- What the shared operand loop does to the operand in `slot` when `map` is
the allocation map of the shared space: an operand naming an extern variable
is left for the last loop, any other operand is rewritten through `map`. -/
def mapSharedOperand (external : List String) (map : AllocationMap) (i : PTXInstruction)
    (slot : Fin 4) : PTXInstruction :=
  if (operandAt i slot).addressMode = AddressMode.Address ∧
      (operandAt i slot).identifier ∈ external then i
  else mapOperand (some AddressSpace.Shared) map i slot

/-- What the shared instruction loop does to one instruction when `map` is
the allocation map of the shared space. -/
def mapSharedInstruction (external : List String) (map : AllocationMap) (i : PTXInstruction) :
    PTXInstruction :=
  if isMovLdSt i then
    mapSharedOperand external map
      (mapSharedOperand external map
        (mapSharedOperand external map (mapSharedOperand external map i 0) 1) 2) 3
  else i

/-- The slots of an instruction whose operand names an extern shared
variable: address-mode operands of a `Mov`, `Ld` or `St` instruction. -/
def externalSlots (external : List String) (i : PTXInstruction) : List (Fin 4) :=
  if isMovLdSt i then
    ([0, 1, 2, 3] : List (Fin 4)).filter (fun s =>
      (operandAt i s).addressMode = AddressMode.Address ∧ (operandAt i s).identifier ∈ external)
  else []

/-- The operands that name an extern shared variable, as pairs of instruction
number (counted from `n`) and slot. -/
def externalReferences (external : List String) : Nat → List PTXInstruction → List (Nat × Fin 4)
  | _, [] => []
  | n, i :: rest =>
    (externalSlots external i).map (fun s => (n, s)) ++ externalReferences external (n + 1) rest

/-- The state `(pool1, map1)` of the shared allocator is a later state than
`(pool, map)`: entries of the map stay, and a name that has no entry and names
no global of the pool never gets an entry. -/
def Extends (pool : List PTXStatement) (map : AllocationMap) (pool1 : List PTXStatement)
    (map1 : AllocationMap) : Prop :=
  (∀ key v, AllocationMap.find map key = some v → AllocationMap.find map1 key = some v) ∧
  (∀ key, AllocationMap.find map key = none → findGlobal pool key = none →
    AllocationMap.find map1 key = none ∧ findGlobal pool1 key = none)

/-- What the last loop of the shared allocator does to one instruction:
`sharedSize` is added to the offset of every operand that names an extern
shared variable. -/
def mapExternalInstruction (external : List String) (sharedSize : Nat) (i : PTXInstruction) :
    PTXInstruction :=
  (externalSlots external i).foldl (fun acc s => addSharedSize sharedSize s acc) i

/-- What the shared allocator does to one instruction, when `map` is the
final allocation map of the shared space and `sharedSize` the final declared
shared size. -/
def finishSharedInstruction (external : List String) (map : AllocationMap) (sharedSize : Nat)
    (i : PTXInstruction) : PTXInstruction :=
  (externalSlots external i).foldl (fun acc s => addSharedSize sharedSize s acc)
    (mapSharedInstruction external map i)

/-- The placements `ps` are those of a pass that starts at running size
`start` and ends at running size `stop`: each offset and padding is what
`_pad` returns for the running size reached so far. -/
def Chained : Nat → List Placement → Nat → Prop
  | start, [], stop => stop = start
  | start, p :: ps, stop =>
    _pad start p.alignment = .ok (p.offset, p.padding) ∧ Chained (p.offset + p.size) ps stop

/-- The log of a space is that of a pass from size zero to its size. -/
def Space.Inv (sp : Space) : Prop := Chained 0 sp.placed sp.size

/-- The space `sp` is the layout of the declarations `ds`: its log lists `ds`
in processing order, every logged offset and padding is what `_pad` returned
for the running size reached, and its allocation map stores the logged
offsets. -/
def Space.LaidOut (sp : Space) (ds : List Declaration) : Prop :=
  sp.placed.map Placement.declaration = ds ∧ Chained 0 sp.placed sp.size ∧ sp.Mapped

end LLVMExecutableKernel

/-! ## The cooperative thread array -/

namespace executive

/-- The type `dim3`. -/
structure Dim3 where
  x : Nat
  y : Nat
  z : Nat
  deriving DecidableEq

/-- Modelled from the spec: one frame of `LLVMFunctionCallStack`, a class whose
source is not at hand.  A frame has the size and argument size it was pushed
with; `words` are the 32-bit words at its start (the continuation header is
words 0 to 3), and a word never written reads as 0. -/
structure Frame where
  size : Nat
  argumentSize : Nat
  words : List Nat
  deriving DecidableEq

/-- Modelled from the spec: `LLVMFunctionCallStack`, the emulated call stack of
one thread slot: the current frame and the frames of its callers, nearest
caller first; the stack always holds the root frame. -/
structure LLVMFunctionCallStack where
  top : Frame
  callers : List Frame
  deriving DecidableEq

namespace LLVMFunctionCallStack

/-- Modelled from the spec: a stack as it is constructed, with the root frame
only. -/
def root : LLVMFunctionCallStack :=
  { top := { size := 0, argumentSize := 0, words := [] }, callers := [] }

/-- Modelled from the spec: `localMemory()`, the base of the current frame;
the base of a frame is given as the number of frames below it. -/
def localMemory (s : LLVMFunctionCallStack) : Nat := s.callers.length

/-- Modelled from the spec: `call(calleeFrameSize, argBytes)` pushes a frame of
the requested size. -/
def call (s : LLVMFunctionCallStack) (calleeFrameSize argBytes : Nat) : LLVMFunctionCallStack :=
  { top := { size := calleeFrameSize, argumentSize := argBytes, words := [] }
    callers := s.top :: s.callers }

/-- Modelled from the spec: `returned()` pops the current frame and is fatal
when the stack has only the root frame. -/
def returned (s : LLVMFunctionCallStack) : Except Abort LLVMFunctionCallStack :=
  match s.callers with
  | [] => .error .stackFault
  | f :: fs => .ok { top := f, callers := fs }

/-- The frame whose base is `base`, if the stack has one. -/
def frameAt (s : LLVMFunctionCallStack) (base : Nat) : Option Frame :=
  if base = s.callers.length then some s.top
  else if base < s.callers.length then s.callers[s.callers.length - 1 - base]?
  else none

/-- The words of the frame whose base is `base` replaced. -/
def setWordsAt (s : LLVMFunctionCallStack) (base : Nat) (words : List Nat) :
    LLVMFunctionCallStack :=
  if base = s.callers.length then { s with top := { s.top with words := words } }
  else
    match s.callers[s.callers.length - 1 - base]? with
    | some f =>
      { s with callers := s.callers.set (s.callers.length - 1 - base) { f with words := words } }
    | none => s

end LLVMFunctionCallStack

/-- The fields of `LLVMContext` the scheduler reads or writes; `local_` is the
pointer `local`, the base of a frame of the slot's call stack. -/
structure LLVMContext where
  tid : Dim3
  ntid : Dim3
  ctaid : Dim3
  nctaid : Dim3
  local_ : Nat
  shared : Nat
  parameter : Nat
  constant : Nat
  deriving DecidableEq

/-- The value-initialised context that `resize` appends. -/
def LLVMContext.zero : LLVMContext :=
  { tid := ⟨0, 0, 0⟩, ntid := ⟨0, 0, 0⟩, ctaid := ⟨0, 0, 0⟩, nctaid := ⟨0, 0, 0⟩,
    local_ := 0, shared := 0, parameter := 0, constant := 0 }

/-- A native function (`LLVMModuleManager::Function`), called with a pointer to
the context of a thread: from the state `σ` of the memories outside the call
stack, the context, and the words of the frame `context.local` points to, it
computes the new state and the new words of that frame. -/
abbrev NativeFunction (σ : Type) := σ → LLVMContext → List Nat → σ × List Nat

/-- What the scheduler asks of `LLVMModuleManager`: the number of functions of
the loaded modules, and the native function of a function id (`none` when the
translation fails, which is fatal). -/
structure ModuleManager (σ : Type) where
  totalFunctionCount : Nat
  getFunction : Nat → Option (NativeFunction σ)

/-- The values of the enumeration `LLVMExecutableKernel::CallType`, declared in
a header that is not at hand. -/
structure CallType where
  TailCall : Nat
  NormalCall : Nat
  ReturnCall : Nat
  deriving DecidableEq

/-- What the scheduler reads of the kernel it runs: the shapes, the memory
bases, the shared memory size, and the function id the module manager has for
its entry point. -/
structure KernelInfo where
  gridDim : Dim3
  blockDim : Dim3
  parameterMemory : Nat
  constantMemory : Nat
  totalSharedMemorySize : Nat
  functionId : Nat
  deriving DecidableEq

/-- The header word 0 that says the thread has finished: `(unsigned int)-1`. -/
def finished : Nat := 2 ^ 32 - 1

/-- The state of a `LLVMCooperativeThreadArray`; `world` is the state of the
memories the native functions work on. -/
structure LLVMCooperativeThreadArray (σ : Type) where
  _warpSize : Nat
  _functions : List (Option (NativeFunction σ))
  _queuedThreads : List (List Nat)
  _contexts : List LLVMContext
  _stacks : List LLVMFunctionCallStack
  _sharedMemory : Nat
  _kernel : KernelInfo
  _freeContexts : List Nat
  _reclaimedContexts : List Nat
  _nextFunction : Nat
  _guessFunction : Nat
  world : σ

/-- The `resize` of a vector. -/
def resize {α : Type} (l : List α) (n : Nat) (value : α) : List α :=
  l.take n ++ List.replicate (n - l.length) value

namespace LLVMCooperativeThreadArray

variable {σ : Type}

/-- The constructor: the warp size is `max(configured, 4)`, the vectors are
empty; `_nextFunction`, `_guessFunction` and `_kernel` are not initialised, so
the values they happen to hold are arguments. -/
def construct (configuredWarpSize nextFunction guessFunction : Nat) (kernel : KernelInfo)
    (world : σ) : LLVMCooperativeThreadArray σ :=
  { _warpSize := max configuredWarpSize 4
    _functions := []
    _queuedThreads := []
    _contexts := []
    _stacks := []
    _sharedMemory := 0
    _kernel := kernel
    _freeContexts := []
    _reclaimedContexts := []
    _nextFunction := nextFunction
    _guessFunction := guessFunction
    world := world }

/-- `LLVMCooperativeThreadArray::setup`; `moduleLoaded` says whether the module
of the kernel was loaded before the call. -/
def setup (manager : ModuleManager σ) (moduleLoaded : Bool) (st : LLVMCooperativeThreadArray σ)
    (kernel : KernelInfo) : Except Abort (LLVMCooperativeThreadArray σ) :=
  let functions :=
    if moduleLoaded then st._functions else resize st._functions manager.totalFunctionCount none
  let queuedThreads :=
    if moduleLoaded then st._queuedThreads else resize st._queuedThreads functions.length []
  let nextFunction := kernel.functionId
  if nextFunction < functions.length then
    match manager.getFunction nextFunction with
    | none => .error .noNativeCode
    | some f =>
      let threads := kernel.blockDim.x * kernel.blockDim.y * kernel.blockDim.z
      .ok { st with
            _functions := functions.set nextFunction (some f)
            _queuedThreads := queuedThreads
            _nextFunction := nextFunction
            _contexts := resize st._contexts threads LLVMContext.zero
            _stacks := resize st._stacks threads LLVMFunctionCallStack.root
            _sharedMemory := kernel.totalSharedMemorySize
            _kernel := kernel
            _freeContexts := List.range threads }
  else .error .outOfBounds

/-- The three statements that compute `tid` from the linear thread id, with
the dimensions `n` the source divides by. -/
def threadIndex (threadId : Nat) (n : Dim3) : Except Abort Dim3 :=
  if n.x = 0 ∨ n.y = 0 then .error .divideByZero
  else .ok { x := threadId % n.x, y := (threadId / n.x) % n.y, z := threadId / (n.x * n.y) }

/-- `LLVMCooperativeThreadArray::_initializeNewContext`: the new state and the
context id returned. -/
def _initializeNewContext (st : LLVMCooperativeThreadArray σ) (threadId ctaId : Nat) :
    Except Abort (LLVMCooperativeThreadArray σ × Nat) :=
  match st._reclaimedContexts.getLast? with
  | none =>
    match st._freeContexts.getLast? with
    | none => .error .outOfBounds
    | some contextId =>
      match st._contexts[contextId]?, st._stacks[contextId]? with
      | some context, some stack =>
        let gridDim := st._kernel.gridDim
        if gridDim.x = 0 ∨ gridDim.y = 0 then .error .divideByZero
        else
          match threadIndex threadId gridDim with
          | .error e => .error e
          | .ok tid =>
            let context1 : LLVMContext :=
              { context with
                nctaid := gridDim
                ctaid := { x := ctaId % gridDim.x, y := ctaId / gridDim.y, z := 0 }
                ntid := st._kernel.blockDim
                tid := tid
                shared := st._sharedMemory
                parameter := st._kernel.parameterMemory
                local_ := stack.localMemory
                constant := st._kernel.constantMemory }
            .ok ({ st with
                   _freeContexts := st._freeContexts.dropLast
                   _contexts := st._contexts.set contextId context1 }, contextId)
      | _, _ => .error .outOfBounds
  | some contextId =>
    match st._contexts[contextId]? with
    | some context =>
      match threadIndex threadId context.nctaid with
      | .error e => .error e
      | .ok tid =>
        .ok ({ st with
               _reclaimedContexts := st._reclaimedContexts.dropLast
               _contexts := st._contexts.set contextId { context with tid := tid } }, contextId)
    | none => .error .outOfBounds

/-- `LLVMCooperativeThreadArray::_executeThread`: the native function
`_functions[_nextFunction]` is called on the context; it works on the world
and on the frame the context points to. -/
def _executeThread (st : LLVMCooperativeThreadArray σ) (contextId : Nat) :
    Except Abort (LLVMCooperativeThreadArray σ) :=
  match st._contexts[contextId]?, st._stacks[contextId]?, st._functions[st._nextFunction]? with
  | some context, some stack, some function =>
    match function with
    | none => .error .nullFunction
    | some f =>
      match stack.frameAt context.local_ with
      | none => .error .outOfBounds
      | some frame =>
        let result := f st.world context frame.words
        .ok { st with
              world := result.1
              _stacks := st._stacks.set contextId (stack.setWordsAt context.local_ result.2) }
  | _, _, _ => .error .outOfBounds

/-- `LLVMCooperativeThreadArray::_executeWarp`: the threads are run one after
the other. -/
def _executeWarp : LLVMCooperativeThreadArray σ → List Nat →
    Except Abort (LLVMCooperativeThreadArray σ)
  | st, [] => .ok st
  | st, contextId :: rest =>
    match _executeThread st contextId with
    | .error e => .error e
    | .ok st1 => _executeWarp st1 rest

/-- `LLVMCooperativeThreadArray::_finishContext`: the new state and the value
returned. -/
def _finishContext (callType : CallType) (st : LLVMCooperativeThreadArray σ) (contextId : Nat) :
    Except Abort (LLVMCooperativeThreadArray σ × Bool) :=
  match st._contexts[contextId]?, st._stacks[contextId]? with
  | some context, some stack =>
    match stack.frameAt context.local_ with
    | none => .error .outOfBounds
    | some frame =>
      let nextFunction := frame.words.getD 0 0
      if nextFunction = finished then .ok (st, true)
      else
        let st1 := { st with _guessFunction := nextFunction }
        if nextFunction = 0 then
          match st1._queuedThreads[0]? with
          | none => .error .outOfBounds
          | some queue =>
            .ok ({ st1 with _queuedThreads := st1._queuedThreads.set 0 (queue ++ [contextId]) },
              false)
        else
          let kind := frame.words.getD 1 0
          if kind = callType.TailCall then .ok (st1, false)
          else if kind = callType.NormalCall then
            let stack1 := stack.call (frame.words.getD 2 0) (frame.words.getD 3 0)
            .ok ({ st1 with
                   _stacks := st1._stacks.set contextId stack1
                   _contexts := st1._contexts.set contextId
                     { context with local_ := stack1.localMemory } }, false)
          else if kind = callType.ReturnCall then
            match stack.returned with
            | .error e => .error e
            | .ok stack1 =>
              .ok ({ st1 with
                     _stacks := st1._stacks.set contextId stack1
                     _contexts := st1._contexts.set contextId
                       { context with local_ := stack1.localMemory } }, false)
          else .ok (st1, false)
  | _, _ => .error .outOfBounds

/-- `LLVMCooperativeThreadArray::_reclaimContext`. -/
def _reclaimContext (callType : CallType) (st : LLVMCooperativeThreadArray σ) (contextId : Nat) :
    Except Abort (LLVMCooperativeThreadArray σ) :=
  match _finishContext callType st contextId with
  | .error e => .error e
  | .ok (st1, true) =>
    .ok { st1 with _reclaimedContexts := st1._reclaimedContexts ++ [contextId] }
  | .ok (st1, false) => .ok st1

/-- `LLVMCooperativeThreadArray::_destroyContext`. -/
def _destroyContext (callType : CallType) (st : LLVMCooperativeThreadArray σ) (contextId : Nat) :
    Except Abort (LLVMCooperativeThreadArray σ) :=
  match _finishContext callType st contextId with
  | .error e => .error e
  | .ok (st1, true) => .ok { st1 with _freeContexts := st1._freeContexts ++ [contextId] }
  | .ok (st1, false) => .ok st1

/-- The loop `for context in warpList: _reclaimContext(*context)`. -/
def reclaimWarp (callType : CallType) : LLVMCooperativeThreadArray σ → List Nat →
    Except Abort (LLVMCooperativeThreadArray σ)
  | st, [] => .ok st
  | st, contextId :: rest =>
    match _reclaimContext callType st contextId with
    | .error e => .error e
    | .ok st1 => reclaimWarp callType st1 rest

/-- The loop `for context in warpList: _destroyContext(*context)`. -/
def destroyWarp (callType : CallType) : LLVMCooperativeThreadArray σ → List Nat →
    Except Abort (LLVMCooperativeThreadArray σ)
  | st, [] => .ok st
  | st, contextId :: rest =>
    match _destroyContext callType st contextId with
    | .error e => .error e
    | .ok st1 => destroyWarp callType st1 rest

/-- The scan of `_computeNextFunction` over the queues from index `index` on:
`next` and `count` are the running choice and its population, `total` the
population seen, `half` is `_contexts.size() / 2`. -/
def scanQueues (half : Nat) : List (List Nat) → Nat → Nat → Nat → Nat → Nat
  | [], _, next, _, _ => next
  | queue :: rest, index, next, count, total =>
    let next1 := if queue.length > count then index else next
    let count1 := if queue.length > count then queue.length else count
    if total + queue.length > half then next1
    else scanQueues half rest (index + 1) next1 count1 (total + queue.length)

/-- `LLVMCooperativeThreadArray::_computeNextFunction`. -/
def _computeNextFunction (manager : ModuleManager σ) (st : LLVMCooperativeThreadArray σ) :
    Except Abort (LLVMCooperativeThreadArray σ) :=
  let chosen : Except Abort Nat :=
    match st._queuedThreads[0]? with
    | none => .error .outOfBounds
    | some queue0 =>
      if queue0.length = st._contexts.length then .ok 0
      else
        match st._queuedThreads[st._guessFunction]? with
        | none => .error .outOfBounds
        | some guessed =>
          if guessed.length = st._contexts.length then .ok st._guessFunction
          else
            match st._queuedThreads[1]? with
            | none => .error .outOfBounds
            | some queue1 =>
              .ok (scanQueues (st._contexts.length / 2) (st._queuedThreads.drop 2) 2 1
                queue1.length 0)
  match chosen with
  | .error e => .error e
  | .ok next =>
    match st._functions[next]? with
    | none => .error .outOfBounds
    | some (some _) => .ok { st with _nextFunction := next }
    | some none =>
      match manager.getFunction next with
      | none => .error .noNativeCode
      | some f => .ok { st with _nextFunction := next, _functions := st._functions.set next (some f) }

/-- `LLVMCooperativeThreadArray::_destroyContexts`. -/
def _destroyContexts (st : LLVMCooperativeThreadArray σ) : LLVMCooperativeThreadArray σ :=
  { st with
    _freeContexts := st._freeContexts ++ st._reclaimedContexts
    _reclaimedContexts := [] }

/-- The loop that fills `warpList` in the launch phase: `count` calls of
`_initializeNewContext(threadId++, id)`.  The result lists, for every call, the
thread id passed and the context id returned. -/
def initializeWarp (id : Nat) : LLVMCooperativeThreadArray σ → Nat → Nat →
    Except Abort (LLVMCooperativeThreadArray σ × List (Nat × Nat))
  | st, _, 0 => .ok (st, [])
  | st, threadId, count + 1 =>
    match _initializeNewContext st threadId id with
    | .error e => .error e
    | .ok (st1, contextId) =>
      match initializeWarp id st1 (threadId + 1) count with
      | .error e => .error e
      | .ok (st2, rest) => .ok (st2, (threadId, contextId) :: rest)

/-- One group of the launch phase: `count` threads are initialised, run as a
warp, and their headers are processed by `_reclaimContext`. -/
def launchWarp (callType : CallType) (id : Nat) (st : LLVMCooperativeThreadArray σ)
    (threadId count : Nat) : Except Abort (LLVMCooperativeThreadArray σ × List (Nat × Nat)) :=
  match initializeWarp id st threadId count with
  | .error e => .error e
  | .ok (st1, warpList) =>
    match _executeWarp st1 (warpList.map Prod.snd) with
    | .error e => .error e
    | .ok st2 =>
      match reclaimWarp callType st2 (warpList.map Prod.snd) with
      | .error e => .error e
      | .ok st3 => .ok (st3, warpList)

/-- The loop `for warp in 0 .. warps` of the launch phase, with `warps` rounds
to go and `threadId` the next thread id. -/
def launchWarps (callType : CallType) (id : Nat) : LLVMCooperativeThreadArray σ → Nat → Nat →
    Except Abort (LLVMCooperativeThreadArray σ × List (List (Nat × Nat)))
  | st, _, 0 => .ok (st, [])
  | st, threadId, warps + 1 =>
    match launchWarp callType id st threadId st._warpSize with
    | .error e => .error e
    | .ok (st1, group) =>
      match launchWarps callType id st1 (threadId + st._warpSize) warps with
      | .error e => .error e
      | .ok (st2, groups) => .ok (st2, group :: groups)

/-- The launch phase of `executeCta` (the statements before the `while`
loop): the full warps, then the remaining threads.  The result lists the
groups issued, each thread with the thread id and the context id it got. -/
def launch (callType : CallType) (st : LLVMCooperativeThreadArray σ) (id : Nat) :
    Except Abort (LLVMCooperativeThreadArray σ × List (List (Nat × Nat))) :=
  if st._warpSize = 0 then .error .divideByZero
  else
    let threads := st._contexts.length
    let warps := threads / st._warpSize
    let remains := threads % st._warpSize
    match launchWarps callType id st 0 warps with
    | .error e => .error e
    | .ok (st1, groups) =>
      match launchWarp callType id st1 (warps * st._warpSize) remains with
      | .error e => .error e
      | .ok (st2, group) => .ok (st2, groups ++ [group])

/-- The warps of one iteration of the drain loop: the full warps of
`warpList`, one after the other. -/
def executeWarps (warpSize : Nat) : LLVMCooperativeThreadArray σ → List Nat → Nat →
    Except Abort (LLVMCooperativeThreadArray σ × List (List Nat))
  | st, _, 0 => .ok (st, [])
  | st, warpList, warps + 1 =>
    match _executeWarp st (warpList.take warpSize) with
    | .error e => .error e
    | .ok st1 =>
      match executeWarps warpSize st1 (warpList.drop warpSize) warps with
      | .error e => .error e
      | .ok (st2, groups) => .ok (st2, warpList.take warpSize :: groups)

/-- What one iteration of the drain loop did: the function chosen, the queue
taken, and the groups of context ids run. -/
structure Iteration where
  function : Nat
  warpList : List Nat
  groups : List (List Nat)
  deriving DecidableEq

/-- One iteration of the `while` loop of `executeCta`. -/
def drainIteration (manager : ModuleManager σ) (callType : CallType)
    (st : LLVMCooperativeThreadArray σ) :
    Except Abort (LLVMCooperativeThreadArray σ × Iteration) :=
  match _computeNextFunction manager st with
  | .error e => .error e
  | .ok st1 =>
    match st1._queuedThreads[st1._nextFunction]? with
    | none => .error .outOfBounds
    | some warpList =>
      let st2 := { st1 with _queuedThreads := st1._queuedThreads.set st1._nextFunction [] }
      if st2._warpSize = 0 then .error .divideByZero
      else
        let warps := warpList.length / st2._warpSize
        let remains := warpList.length % st2._warpSize
        match executeWarps st2._warpSize st2 warpList warps with
        | .error e => .error e
        | .ok (st3, groups) =>
          let last := (warpList.drop (warps * st2._warpSize)).take remains
          match _executeWarp st3 last with
          | .error e => .error e
          | .ok st4 =>
            match destroyWarp callType st4 warpList with
            | .error e => .error e
            | .ok st5 =>
              .ok (st5, { function := st1._nextFunction, warpList := warpList,
                          groups := groups ++ [last] })

/-- The `while` loop of `executeCta`, run for at most `fuel` iterations:
`none` when the loop has not ended by then. -/
def drain (manager : ModuleManager σ) (callType : CallType) :
    Nat → LLVMCooperativeThreadArray σ →
    Except Abort (Option (LLVMCooperativeThreadArray σ × List Iteration))
  | 0, st => if st._freeContexts.length ≠ st._contexts.length then .ok none else .ok (some (st, []))
  | fuel + 1, st =>
    if st._freeContexts.length ≠ st._contexts.length then
      match drainIteration manager callType st with
      | .error e => .error e
      | .ok (st1, iteration) =>
        match drain manager callType fuel st1 with
        | .error e => .error e
        | .ok none => .ok none
        | .ok (some (st2, iterations)) => .ok (some (st2, iteration :: iterations))
    else .ok (some (st, []))

/-- What a run of `executeCta` did: the groups of the launch phase and the
iterations of the drain loop. -/
structure Run where
  launched : List (List (Nat × Nat))
  drained : List Iteration
  deriving DecidableEq

/-- `LLVMCooperativeThreadArray::executeCta`, with at most `fuel` iterations
of the drain loop: `none` when the loop has not ended by then. -/
def executeCta (manager : ModuleManager σ) (callType : CallType) (fuel : Nat)
    (st : LLVMCooperativeThreadArray σ) (id : Nat) :
    Except Abort (Option (LLVMCooperativeThreadArray σ × Run)) :=
  match launch callType st id with
  | .error e => .error e
  | .ok (st1, launched) =>
    match drain manager callType fuel st1 with
    | .error e => .error e
    | .ok none => .ok none
    | .ok (some (st2, drained)) =>
      .ok (some (_destroyContexts st2, { launched := launched, drained := drained }))

/-- The warp size and the number of thread slots of `st1` are those of
`st`. -/
def SameShape (st st1 : LLVMCooperativeThreadArray σ) : Prop :=
  st1._warpSize = st._warpSize ∧ st1._contexts.length = st._contexts.length

end LLVMCooperativeThreadArray

end executive

/-! ## Atomic operations, the block shape and the launch of a CTA -/

namespace ir

/-- The atomic operations of `ir::PTXInstruction`, an enumeration declared in a
header that is not at hand: the operations `LLVMExecutableKernel.cpp`
names. -/
inductive AtomicOperation where
  | AtomicAnd
  | AtomicOr
  | AtomicXor
  | AtomicCas
  | AtomicExch
  | AtomicAdd
  | AtomicInc
  | AtomicDec
  | AtomicMin
  | AtomicMax
  deriving DecidableEq

end ir

namespace LLVMExecutableKernel

/-- Memory as the atomic functions use it: the 32-bit word read at each
address. -/
abbrev Words := Nat → Nat

/-- `__ocelot_atom_b32`, with `shared` for `context->shared`: the memory after
the call, and the value returned or the assertion that fails.  Addresses are
64-bit, values 32-bit unsigned integers. -/
def __ocelot_atom_b32 (shared : Nat) (space : AddressSpace) (op : AtomicOperation)
    (address b : Nat) (memory : Words) : Words × Except Abort Nat :=
  let address := if space = AddressSpace.Shared then (address + shared) % 2 ^ 64 else address
  let d := memory address
  match op with
  | .AtomicAnd => (Function.update memory address (d &&& b), .ok d)
  | .AtomicOr => (Function.update memory address (d ||| b), .ok d)
  | .AtomicXor => (Function.update memory address (d ^^^ b), .ok d)
  | .AtomicAdd => (Function.update memory address ((d + b) % 2 ^ 32), .ok d)
  | .AtomicMin => (Function.update memory address (min d b), .ok d)
  | .AtomicMax => (Function.update memory address (max d b), .ok d)
  | .AtomicDec => (Function.update memory address (if d = 0 ∨ d > b then b else d - 1), .ok d)
  | .AtomicInc => (Function.update memory address (if d ≥ b then 0 else d + 1), .ok d)
  | .AtomicExch => (Function.update memory address b, .ok d)
  | _ => (memory, .error .assertion)

/-- The address an atomic function works on: `context->shared` is added to an
address of the shared space. -/
def atomAddress (shared : Nat) (space : AddressSpace) (address : Nat) : Nat :=
  if space = AddressSpace.Shared then (address + shared) % 2 ^ 64 else address

/-- The local memory of one thread: the 32-bit word read at each byte offset
of the region of the thread. -/
abbrev Region := Nat → Nat

/-- The fields of `_context` that the launch code reads or writes.  The
dimensions are `int`s; they are natural numbers here, and their products are
taken not to overflow.  `local_` is the pointer `local`, a byte address, 0 for
the null pointer. -/
structure Context where
  tid : executive.Dim3
  ntid : executive.Dim3
  ctaid : executive.Dim3
  nctaid : executive.Dim3
  local_ : Nat
  localSize : Nat
  shared : Nat
  parameter : Nat
  constant : Nat

/-- The members of an `LLVMExecutableKernel` that the launch code works on.
`localBytes` is the size of the buffer allocated for local memory and
`localMemory` what the buffer holds, thread by thread: the region of thread
`i` are the `localSize` bytes from `i * localSize` on.  `world` is the state of
the other memories. -/
structure Executable (σ : Type) where
  _context : Context
  _resumePointOffset : Nat
  localBytes : Nat
  localMemory : List Region
  world : σ

/-- The translated kernel `_function`, called with a pointer to `_context`:
from the state of the other memories, the context and the local memory of the
thread that `_context.local` points to, it computes the new state, the new
local memory of the thread, and the resume point it returns. -/
abbrev Function (σ : Type) := σ → Context → Region → σ × Region × Nat

/-- `LLVMExecutableKernel::threads` on natural numbers: the thread count of a
block whose thread count is below `2 ^ 32`, over which the launch with
barriers is stated. -/
def threads (c : Context) : Nat := c.ntid.x * c.ntid.y * c.ntid.z

/-- `LLVMExecutableKernel::threadId` on natural numbers: the thread id in a
block whose thread count is below `2 ^ 32`. -/
def threadId (c : Context) : Nat :=
  c.ntid.x * c.ntid.y * c.tid.z + c.ntid.x * c.tid.y + c.tid.x

/-- `LLVMExecutableKernel::threads` on machine words: the product of the
dimensions is returned as an `unsigned int`, modulo `2 ^ 32`. -/
def Machine.threads (c : Context) : Nat := (c.ntid.x * c.ntid.y * c.ntid.z) % 2 ^ 32

/-- `LLVMExecutableKernel::threadId` on machine words: the sum is returned as
an `unsigned int`, modulo `2 ^ 32`. -/
def Machine.threadId (c : Context) : Nat :=
  (c.ntid.x * c.ntid.y * c.tid.z + c.ntid.x * c.tid.y + c.tid.x) % 2 ^ 32

/-- `LLVMExecutableKernel::setKernelShape`; `address` is what `new char[...]`
returns if it is called, and `garbage` what the new buffer holds.  The size of
the new buffer is the `size_t` product `threads() * localSize`, modulo
`2 ^ 64`; the buffer holds as many whole regions of `localSize` bytes as fit
into it (regions of no bytes: one for each thread). -/
def Machine.setKernelShape {σ : Type} (k : Executable σ) (x y z : Nat) (address : Nat)
    (garbage : Region) : Executable σ :=
  let previous := Machine.threads k._context
  let context := { k._context with ntid := { x := x, y := y, z := z } }
  if previous ≠ Machine.threads context then
    if context.local_ ≠ 0 then
      let bytes := (Machine.threads context * context.localSize) % 2 ^ 64
      { k with
        _context := { context with local_ := address }
        localBytes := bytes
        localMemory :=
          List.replicate
            (if context.localSize = 0 then Machine.threads context
              else bytes / context.localSize)
            garbage }
    else { k with _context := context }
  else { k with _context := context }

/-- The loop `for( i = first; i < first + count; ++i ) body`. -/
def forLoop {S : Type} (body : Nat → S → Except Abort S) : Nat → Nat → S → Except Abort S
  | _, 0, s => .ok s
  | first, count + 1, s =>
    match body first s with
    | .error e => .error e
    | .ok s1 => forLoop body (first + 1) count s1

/-- The state of a launch of a CTA: the kernel, the flag `done`, and the calls
of `_function` made so far, each with the thread id, the pointer `local` passed
and the resume point returned. -/
structure Launch (σ : Type) where
  kernel : Executable σ
  done : Bool
  calls : List (Nat × Nat × Nat)

/-- The three nested loops over `z`, `y` and `x` of the launch functions,
around the statements `body` of the innermost loop. -/
def threadLoops {σ : Type} (body : Launch σ → Except Abort (Launch σ)) (s : Launch σ) :
    Except Abort (Launch σ) :=
  forLoop (fun z s1 =>
    let s2 : Launch σ :=
      { s1 with kernel := { s1.kernel with
          _context := { s1.kernel._context with tid := { s1.kernel._context.tid with z := z } } } }
    forLoop (fun y s3 =>
      let s4 : Launch σ :=
        { s3 with kernel := { s3.kernel with
            _context := { s3.kernel._context with
              tid := { s3.kernel._context.tid with y := y } } } }
      forLoop (fun x s5 =>
        body { s5 with kernel := { s5.kernel with
          _context := { s5.kernel._context with
            tid := { s5.kernel._context.tid with x := x } } } })
        0 s4.kernel._context.ntid.x s4)
      0 s2.kernel._context.ntid.y s2)
    0 s.kernel._context.ntid.z s

/-- The statements of the innermost loop of `_launchCtaNoBarriers`.  The
pointer `localBase + localSize * threadId()` is computed modulo `2 ^ 64`; the
memory passed is the region of the thread id, the region the pointer is the
base of. -/
def Machine.threadNoBarriers {σ : Type} (f : Function σ) (localBase : Nat) (s : Launch σ) :
    Except Abort (Launch σ) :=
  let id := Machine.threadId s.kernel._context
  let context : Context :=
    { s.kernel._context with
      local_ := (localBase + s.kernel._context.localSize * id) % 2 ^ 64 }
  match s.kernel.localMemory[id]? with
  | none => .error .outOfBounds
  | some region =>
    let result := f s.kernel.world context region
    .ok { kernel := { s.kernel with
            _context := context
            world := result.1
            localMemory := s.kernel.localMemory.set id result.2.1 }
          done := s.done && decide (result.2.2 = 0)
          calls := s.calls ++ [(id, context.local_, result.2.2)] }

/-- `LLVMExecutableKernel::_launchCtaNoBarriers` up to its last statement, the
assertion: the state when the assertion is reached. -/
def Machine.launchNoBarriers {σ : Type} (f : Function σ) (k : Executable σ) :
    Except Abort (Launch σ) :=
  let localBase := k._context.local_
  match threadLoops (Machine.threadNoBarriers f localBase)
      { kernel := k, done := true, calls := [] } with
  | .error e => .error e
  | .ok s =>
    .ok { s with kernel := { s.kernel with
            _context := { s.kernel._context with local_ := localBase } } }

/-- `LLVMExecutableKernel::_launchCtaNoBarriers`. -/
def Machine._launchCtaNoBarriers {σ : Type} (f : Function σ) (k : Executable σ) :
    Except Abort (Executable σ) :=
  match Machine.launchNoBarriers f k with
  | .error e => .error e
  | .ok s => if s.done then .ok s.kernel else .error .assertion

/-- The threads of a block run in the order of their ids, each with the region
of local memory of its id: `n` threads have run. -/
def Launched {σ : Type} (k : Executable σ) (localBase : Nat) (s : Launch σ) (n : Nat) : Prop :=
  s.kernel._context.ntid = k._context.ntid ∧
  s.kernel._context.localSize = k._context.localSize ∧
  s.kernel._resumePointOffset = k._resumePointOffset ∧
  s.kernel.localMemory.length = k.localMemory.length ∧
  s.calls.map (fun call => (call.1, call.2.1)) =
    (List.range n).map (fun id => (id, localBase + k._context.localSize * id)) ∧
  s.done = s.calls.all (fun call => decide (call.2.2 = 0))

/-- The threads of a block run by `_launchCtaNoBarriers` in the order of their
ids, each with the pointer to the region of local memory of its id: `n`
threads have run. -/
def Machine.Launched {σ : Type} (k : Executable σ) (localBase : Nat) (s : Launch σ)
    (n : Nat) : Prop :=
  s.kernel._context.ntid = k._context.ntid ∧
  s.kernel._context.localSize = k._context.localSize ∧
  s.kernel.localMemory.length = k.localMemory.length ∧
  s.calls.map (fun call => (call.1, call.2.1)) =
    (List.range n).map
      (fun id => (id, (localBase + k._context.localSize * id) % 2 ^ 64)) ∧
  s.done = s.calls.all (fun call => decide (call.2.2 = 0))

end LLVMExecutableKernel

/-! ## Notions in which the statements about the scheduler are written -/

namespace executive

/-- Modelled from the spec: the depth of a call stack, the number of its
frames, the root frame included. -/
def LLVMFunctionCallStack.depth (s : LLVMFunctionCallStack) : Nat := s.callers.length + 1

namespace LLVMCooperativeThreadArray

variable {σ : Type}

/-- The words of the frame the context of slot `contextId` points to, which
`_finishContext` reads as `localMemory`: word 0 names the next function, word 1
the call kind, words 2 and 3 the sizes of a normal call. -/
def header (st : LLVMCooperativeThreadArray σ) (contextId : Nat) : Option (List Nat) :=
  match st._contexts[contextId]?, st._stacks[contextId]? with
  | some context, some stack =>
    match stack.frameAt context.local_ with
    | some frame => some frame.words
    | none => none
  | _, _ => none

/-- Slot `contextId` waits in one of the function queues. -/
def Queued (st : LLVMCooperativeThreadArray σ) (contextId : Nat) : Prop :=
  ∃ queue ∈ st._queuedThreads, contextId ∈ queue

/-- The number of times slot `contextId` occurs in the free pool, in the
reclaimed pool, in the function queues and in the list `active` of the slots
in flight (the `warpList` of `executeCta`). -/
def occurrences (st : LLVMCooperativeThreadArray σ) (active : List Nat) (contextId : Nat) : Nat :=
  st._freeContexts.count contextId + st._reclaimedContexts.count contextId +
    st._queuedThreads.flatten.count contextId + active.count contextId

/-- The slots accounted for at an observation point: those of the free pool,
of the reclaimed pool and of the function queues, and the `active` slots that
are dispatched at that point. -/
def accounted (st : LLVMCooperativeThreadArray σ) (active : Nat) : Nat :=
  st._freeContexts.length + st._reclaimedContexts.length +
    (st._queuedThreads.map List.length).sum + active

/-- The population of the queue of function `id`. -/
def population (st : LLVMCooperativeThreadArray σ) (id : Nat) : Nat :=
  (st._queuedThreads.getD id []).length

/-- The last statement of `_computeNextFunction`, for the function `next` it
has chosen: `_nextFunction` is set, and the native function is asked of the
module manager when it is not resident. -/
def residentFunction (manager : ModuleManager σ) (st : LLVMCooperativeThreadArray σ)
    (next : Nat) : Except Abort (LLVMCooperativeThreadArray σ) :=
  match st._functions[next]? with
  | none => .error .outOfBounds
  | some (some _) => .ok { st with _nextFunction := next }
  | some none =>
    match manager.getFunction next with
    | none => .error .noNativeCode
    | some f => .ok { st with _nextFunction := next, _functions := st._functions.set next (some f) }

/-- The steps of `executeCta`, on the scheduler state and the slots in flight
(`warpList`): a slot is handed out by `_initializeNewContext`, a thread is
run, the header of a slot in flight is processed by `_reclaimContext` (launch
phase) or by `_destroyContext` (drain loop), the drain loop chooses a function
and takes its queue as the new `warpList`, and `_destroyContexts` ends the
run. -/
inductive Step (manager : ModuleManager σ) (callType : CallType) :
    LLVMCooperativeThreadArray σ → List Nat → LLVMCooperativeThreadArray σ → List Nat → Prop
  | allocate {st st1 : LLVMCooperativeThreadArray σ} {active : List Nat}
      {threadId ctaId contextId : Nat} :
      _initializeNewContext st threadId ctaId = .ok (st1, contextId) →
      Step manager callType st active st1 (active ++ [contextId])
  | execute {st st1 : LLVMCooperativeThreadArray σ} {active : List Nat} {contextId : Nat} :
      _executeThread st contextId = .ok st1 → Step manager callType st active st1 active
  | reclaim {st st1 : LLVMCooperativeThreadArray σ} {active : List Nat} {contextId : Nat} :
      contextId ∈ active → _reclaimContext callType st contextId = .ok st1 →
      Step manager callType st active st1 (active.erase contextId)
  | destroy {st st1 : LLVMCooperativeThreadArray σ} {active : List Nat} {contextId : Nat} :
      contextId ∈ active → _destroyContext callType st contextId = .ok st1 →
      Step manager callType st active st1 (active.erase contextId)
  | select {st st1 : LLVMCooperativeThreadArray σ} {warpList : List Nat} :
      _computeNextFunction manager st = .ok st1 →
      st1._queuedThreads[st1._nextFunction]? = some warpList →
      Step manager callType st []
        { st1 with _queuedThreads := st1._queuedThreads.set st1._nextFunction [] } warpList
  | shutdown {st : LLVMCooperativeThreadArray σ} :
      Step manager callType st [] (_destroyContexts st) []

/-- The states `executeCta` can be in, each with its slots in flight: the
states that `setup` returns for a thread array whose reclaimed pool and queues
are empty (as they are after the constructor), and the states that follow by
the steps of `executeCta`. -/
inductive Reachable (manager : ModuleManager σ) (callType : CallType) :
    LLVMCooperativeThreadArray σ → List Nat → Prop
  | setup {st0 st : LLVMCooperativeThreadArray σ} {moduleLoaded : Bool} {kernel : KernelInfo} :
      st0._reclaimedContexts = [] → (∀ queue ∈ st0._queuedThreads, queue = []) →
      setup manager moduleLoaded st0 kernel = .ok st → Reachable manager callType st []
  | step {st st1 : LLVMCooperativeThreadArray σ} {active active1 : List Nat} :
      Reachable manager callType st active → Step manager callType st active st1 active1 →
      Reachable manager callType st1 active1

end LLVMCooperativeThreadArray

end executive

/-! ## A small kernel on which the statements are evaluated -/

namespace Sample

/-- Three parameters. -/
def parameters : List Parameter :=
  [{ name := "n", size := 4, alignment := 4, offset := 0 },
   { name := "flag", size := 1, alignment := 1, offset := 0 },
   { name := "data", size := 8, alignment := 8, offset := 0 }]

/-- Two local variables, a sized shared variable and an extern shared variable
of local scope. -/
def locals : List Local :=
  [{ space := AddressSpace.Local, attribute_ := Attribute.NoAttribute, name := "tmp",
     alignment := 4, typeBytes := 4, size := 6 },
   { space := AddressSpace.Shared, attribute_ := Attribute.NoAttribute, name := "tile",
     alignment := 4, typeBytes := 4, size := 10 },
   { space := AddressSpace.Shared, attribute_ := Attribute.Extern, name := "dyn",
     alignment := 1, typeBytes := 8, size := 0 },
   { space := AddressSpace.Local, attribute_ := Attribute.NoAttribute, name := "resume",
     alignment := 4, typeBytes := 4, size := 4 }]

/-- A constant, two sized shared globals (one of them never referenced), an
extern shared global and a global in global memory. -/
def globals : List PTXStatement :=
  [{ directive := Directive.Const, attribute_ := Attribute.NoAttribute, name := "lut",
     alignment := 8, typeBytes := 4, bytes := 12 },
   { directive := Directive.Shared, attribute_ := Attribute.NoAttribute, name := "unused",
     alignment := 4, typeBytes := 4, bytes := 4 },
   { directive := Directive.Shared, attribute_ := Attribute.NoAttribute, name := "gbuf",
     alignment := 8, typeBytes := 1, bytes := 12 },
   { directive := Directive.Shared, attribute_ := Attribute.Extern, name := "gdyn",
     alignment := 4, typeBytes := 4, bytes := 0 },
   { directive := Directive.Global, attribute_ := Attribute.NoAttribute, name := "out",
     alignment := 4, typeBytes := 4, bytes := 64 }]

/-- A register operand. -/
def register (name : String) : PTXOperand :=
  { addressMode := AddressMode.Register, identifier := name, offset := 0, reg := 0 }

/-- An address operand `[name + offset]`. -/
def address (name : String) (offset : Int) : PTXOperand :=
  { addressMode := AddressMode.Address, identifier := name, offset := offset, reg := 0 }

/-- An instruction with destination `d` and source `a`. -/
def instruction (opcode : Opcode) (d a : PTXOperand) : PTXInstruction :=
  { opcode := opcode, addressSpace := AddressSpace.AddressSpace_Invalid, d := d, a := a,
    b := register "", c := register "" }

/-- Loads and stores through every kind of variable, an instruction of
another opcode that names a shared global, and a load through a name that
is declared nowhere. -/
def instructions : List PTXInstruction :=
  [instruction Opcode.Ld (register "r1") (address "n" 0),
   instruction Opcode.Ld (register "r2") (address "gbuf" 4),
   instruction Opcode.St (address "tile" 2) (register "r2"),
   instruction Opcode.Ld (register "r3") (address "dyn" 8),
   instruction Opcode.Mov (register "r4") (address "tmp" 0),
   instruction Opcode.St (address "gbuf" 0) (register "r3"),
   instruction Opcode.Ld (register "r5") (address "lut" 4),
   instruction (Opcode.Other 0) (register "r6") (address "gbuf" 0),
   instruction Opcode.Ld (register "r7") (address "nowhere" 0),
   instruction (Opcode.Other 1) (register "r8") (address "dyn" 0),
   instruction (Opcode.Other 1) (register "r9") (address "unused" 0),
   instruction (Opcode.Other 2) (register "r10") (address "data" 0),
   instruction Opcode.Ld (register "r11") (address "data" 4),
   instruction Opcode.Tex (register "r12") (address "image" 0)]

/-- The sample kernel, compiled with barrier support. -/
def kernel : LLVMExecutableKernel.Kernel :=
  { parameters := parameters, locals := locals, instructions := instructions, globals := globals,
    textures := ["image"], barrierSupport := true, resumePoint := "resume",
    resumePointOffset := 0 }

/-- A native function that writes the finished sentinel into header word 0
and nothing else. -/
def finishing : executive.NativeFunction Unit :=
  fun world _ _ => (world, [executive.finished])

/-- A module manager with three functions, each of them `finishing`. -/
def manager : executive.ModuleManager Unit :=
  { totalFunctionCount := 3, getFunction := fun _ => some finishing }

/-- Call kinds numbered 0, 1, 2. -/
def callType : executive.CallType := { TailCall := 0, NormalCall := 1, ReturnCall := 2 }

/-- A kernel with a block of 10 threads on a grid of one block, entered at
function 0. -/
def tenThreads : executive.KernelInfo :=
  { gridDim := ⟨1, 1, 1⟩, blockDim := ⟨10, 1, 1⟩, parameterMemory := 0, constantMemory := 0,
    totalSharedMemorySize := 0, functionId := 0 }

/-- A thread array constructed with the configured warp size 4 and set up for
the kernel `tenThreads`, whose module was not loaded before. -/
def ready : Except Abort (executive.LLVMCooperativeThreadArray Unit) :=
  executive.LLVMCooperativeThreadArray.setup manager false
    (executive.LLVMCooperativeThreadArray.construct 4 0 0 tenThreads ()) tenThreads

/-- The result of a run, or `fallback` when the run stops without one. -/
def resultOr {α : Type} (run : Except Abort α) (fallback : α) : α :=
  match run with
  | .ok a => a
  | .error _ => fallback

/-- The thread array `ready` after `setup`. -/
def afterSetup : executive.LLVMCooperativeThreadArray Unit :=
  resultOr ready (executive.LLVMCooperativeThreadArray.construct 4 0 0 tenThreads ())

/-- The thread array after the launch phase of `executeCta(0)`. -/
def afterLaunch : executive.LLVMCooperativeThreadArray Unit :=
  (resultOr (executive.LLVMCooperativeThreadArray.launch callType afterSetup 0)
    (afterSetup, [])).1

/-- The thread array after the first iteration of the drain loop. -/
def afterIteration : executive.LLVMCooperativeThreadArray Unit :=
  (resultOr (executive.LLVMCooperativeThreadArray.drainIteration manager callType afterLaunch)
    (afterLaunch, { function := 0, warpList := [], groups := [] })).1

/-- A native function that writes `words` at the start of the frame it is
called on. -/
def writing (words : List Nat) : executive.NativeFunction Unit :=
  fun world _ _ => (world, words)

/-- A module manager with three functions, each of them `writing words`. -/
def writingManager (words : List Nat) : executive.ModuleManager Unit :=
  { totalFunctionCount := 3, getFunction := fun _ => some (writing words) }

/-- A kernel with a block of one thread, entered at function 0. -/
def oneThread : executive.KernelInfo :=
  { gridDim := ⟨1, 1, 1⟩, blockDim := ⟨1, 1, 1⟩, parameterMemory := 0, constantMemory := 0,
    totalSharedMemorySize := 0, functionId := 0 }

/-- A block of one thread whose slot 0 has been handed out and run once, by a
function that wrote `words`: the scheduler is about to process the header
`words` of slot 0. -/
def suspended (words : List Nat) : Except Abort (executive.LLVMCooperativeThreadArray Unit) :=
  match executive.LLVMCooperativeThreadArray.setup (writingManager words) false
      (executive.LLVMCooperativeThreadArray.construct 4 0 0 oneThread ()) oneThread with
  | .error e => .error e
  | .ok st =>
    match executive.LLVMCooperativeThreadArray._initializeNewContext st 0 0 with
    | .error e => .error e
    | .ok (st1, contextId) => executive.LLVMCooperativeThreadArray._executeThread st1 contextId

/-- The state `suspended words` stands for. -/
def suspendedState (words : List Nat) : executive.LLVMCooperativeThreadArray Unit :=
  resultOr (suspended words)
    (executive.LLVMCooperativeThreadArray.construct 4 0 0 oneThread ())

/-- A module manager with three functions: function 0 writes the header of a
normal call of function 2 with a callee frame of 64 bytes and no arguments,
the other functions write the finished sentinel. -/
def callManager : executive.ModuleManager Unit :=
  { totalFunctionCount := 3
    getFunction := fun id =>
      if id = 0 then some (writing [2, callType.NormalCall, 64, 0]) else some finishing }

/-- A kernel with a block of 4 threads on a grid of one block, entered at
function 0. -/
def fourThreads : executive.KernelInfo :=
  { gridDim := ⟨1, 1, 1⟩, blockDim := ⟨4, 1, 1⟩, parameterMemory := 0, constantMemory := 0,
    totalSharedMemorySize := 0, functionId := 0 }

/-- A thread array constructed with the configured warp size 4 and set up for
the kernel `fourThreads` with the functions of `callManager`. -/
def callReady : Except Abort (executive.LLVMCooperativeThreadArray Unit) :=
  executive.LLVMCooperativeThreadArray.setup callManager false
    (executive.LLVMCooperativeThreadArray.construct 4 0 0 fourThreads ()) fourThreads

/-- The thread array `callReady` after `setup`. -/
def callSetup : executive.LLVMCooperativeThreadArray Unit :=
  resultOr callReady (executive.LLVMCooperativeThreadArray.construct 4 0 0 fourThreads ())

/-- The thread array `callSetup` after the launch phase of `executeCta(0)`. -/
def callLaunched : executive.LLVMCooperativeThreadArray Unit :=
  (resultOr (executive.LLVMCooperativeThreadArray.launch callType callSetup 0)
    (callSetup, [])).1

/-- The thread array `callLaunched` after the first iteration of the drain
loop. -/
def callIteration : executive.LLVMCooperativeThreadArray Unit :=
  (resultOr (executive.LLVMCooperativeThreadArray.drainIteration callManager callType callLaunched)
    (callLaunched, { function := 0, warpList := [], groups := [] })).1

/-- A native function on a world that counts the dispatches: the first two
dispatches write the finished sentinel, the later ones a tail call of
function 0. -/
def yielding : executive.NativeFunction Nat :=
  fun world _ _ =>
    (world + 1, if world < 2 then [executive.finished] else [0, callType.TailCall])

/-- A module manager with three functions, each of them `yielding`. -/
def yieldManager : executive.ModuleManager Nat :=
  { totalFunctionCount := 3, getFunction := fun _ => some yielding }

/-- A thread array set up for the kernel `fourThreads` with the functions of
`yieldManager`. -/
def yieldReady : Except Abort (executive.LLVMCooperativeThreadArray Nat) :=
  executive.LLVMCooperativeThreadArray.setup yieldManager false
    (executive.LLVMCooperativeThreadArray.construct 4 0 0 fourThreads 0) fourThreads

/-- The thread array `yieldReady` after `setup`. -/
def yieldSetup : executive.LLVMCooperativeThreadArray Nat :=
  resultOr yieldReady (executive.LLVMCooperativeThreadArray.construct 4 0 0 fourThreads 0)

/-- The thread array `yieldSetup` after the launch phase of `executeCta(0)`:
two threads have finished, two wait in the queue of function 0. -/
def yieldLaunched : executive.LLVMCooperativeThreadArray Nat :=
  (resultOr (executive.LLVMCooperativeThreadArray.launch callType yieldSetup 0)
    (yieldSetup, [])).1

/-- The thread array `yieldLaunched` after the first iteration of the drain
loop. -/
def yieldIteration : executive.LLVMCooperativeThreadArray Nat :=
  (resultOr (executive.LLVMCooperativeThreadArray.drainIteration yieldManager callType yieldLaunched)
    (yieldLaunched, { function := 0, warpList := [], groups := [] })).1

/-- A kernel with blocks of shape (3, 2, 1) on a grid of shape (2, 3),
entered at function 0. -/
def shaped : executive.KernelInfo :=
  { gridDim := ⟨2, 3, 1⟩, blockDim := ⟨3, 2, 1⟩, parameterMemory := 0, constantMemory := 0,
    totalSharedMemorySize := 0, functionId := 0 }

/-- A thread array constructed with the configured warp size 4 and set up for
the kernel `shaped`, with the functions of `manager`. -/
def shapedReady : Except Abort (executive.LLVMCooperativeThreadArray Unit) :=
  executive.LLVMCooperativeThreadArray.setup manager false
    (executive.LLVMCooperativeThreadArray.construct 4 0 0 shaped ()) shaped

/-- The thread array `shapedReady` after `setup`. -/
def shapedSetup : executive.LLVMCooperativeThreadArray Unit :=
  resultOr shapedReady (executive.LLVMCooperativeThreadArray.construct 4 0 0 shaped ())

/-- The thread array `shapedSetup` after the launch phase of `executeCta(2)`. -/
def shapedLaunched : executive.LLVMCooperativeThreadArray Unit :=
  (resultOr (executive.LLVMCooperativeThreadArray.launch callType shapedSetup 2)
    (shapedSetup, [])).1

/-- A kernel with blocks of shape (2, 3, 1) whose local memory has been
allocated: 8 bytes for each of the 6 threads, the resume point at offset 4,
every word holding 9. -/
def executable : LLVMExecutableKernel.Executable Nat :=
  { _context :=
      { tid := ⟨0, 0, 0⟩, ntid := ⟨2, 3, 1⟩, ctaid := ⟨0, 0, 0⟩, nctaid := ⟨1, 1, 1⟩,
        local_ := 4096, localSize := 8, shared := 0, parameter := 0, constant := 0 }
    _resumePointOffset := 4
    localBytes := 48
    localMemory := List.replicate 6 (fun _ => 9)
    world := 0 }

/-- A translated kernel that returns the resume point 0. -/
def straight : LLVMExecutableKernel.Function Nat :=
  fun world _ region => (world + 1, region, 0)

end Sample

/-! ## The padding function -/

namespace LLVMExecutableKernel

/-- With a positive alignment `_pad` returns. -/
theorem pad_total (s a : Nat) (ha : 0 < a) : ∃ s1 p, _pad s a = .ok (s1, p) := by
  have h0 : a ≠ 0 := Nat.pos_iff_ne_zero.mp ha
  refine ⟨s + (if a = a - s % a then 0 else a - s % a), if a = a - s % a then 0 else a - s % a, ?_⟩
  simp [_pad, h0]

/-- What a returning call of `_pad` says about its result. -/
theorem pad_inv {s a s1 p : Nat} (h : _pad s a = .ok (s1, p)) :
    0 < a ∧ s1 = s + p ∧ a ∣ s1 ∧ p < a ∧ (p = 0 ↔ a ∣ s) ∧
      ∀ m, a ∣ m → s ≤ m → s1 ≤ m := by
  unfold _pad at h
  by_cases h0 : a = 0
  · simp [h0] at h
  · have ha : 0 < a := Nat.pos_of_ne_zero h0
    simp only [h0, if_false] at h
    have hr : s % a < a := Nat.mod_lt s ha
    have hdm : a * (s / a) + s % a = s := Nat.div_add_mod s a
    by_cases hz : s % a = 0
    · have hpad : a - s % a = a := by omega
      simp only [hpad, if_true, Except.ok.injEq, Prod.mk.injEq] at h
      obtain ⟨h1, h2⟩ := h
      subst h1 h2
      have hd : a ∣ s := Nat.dvd_of_mod_eq_zero hz
      refine ⟨ha, rfl, hd, ha, ?_, ?_⟩
      · simp [hd]
      · intro m _ hm
        simpa using hm
    · have hne : ¬ a = a - s % a := by omega
      simp only [hne, if_false, Except.ok.injEq, Prod.mk.injEq] at h
      obtain ⟨h1, h2⟩ := h
      subst h1 h2
      have hs1 : s + (a - s % a) = a * (s / a + 1) := by
        rw [Nat.mul_add, Nat.mul_one]; omega
      refine ⟨ha, rfl, ?_, by omega, ?_, ?_⟩
      · rw [hs1]; exact Dvd.intro _ rfl
      · constructor
        · intro hp; omega
        · intro hd; exact absurd (Nat.mod_eq_zero_of_dvd hd) hz
      · intro m hm hsm
        obtain ⟨k, rfl⟩ := hm
        rw [hs1]
        apply Nat.mul_le_mul_left
        by_contra hk
        have hk1 : k ≤ s / a := by omega
        have : a * k ≤ a * (s / a) := Nat.mul_le_mul_left a hk1
        omega

/-- On machine words `_pad` computes what it computes on natural numbers, with
the updated size taken modulo `2 ^ 64`. -/
theorem pad_machine_words {s a s1 p : Nat} (ha : a < 2 ^ 32) (h : _pad s a = .ok (s1, p)) :
    Machine._pad s a = .ok (s1 % 2 ^ 64, p) := by
  unfold _pad at h
  unfold Machine._pad
  by_cases h0 : a = 0
  · simp [h0] at h
  · have hlt : a - s % a < 2 ^ 32 := by omega
    simp only [h0, if_false, Nat.mod_eq_of_lt hlt] at h ⊢
    simp only [Except.ok.injEq, Prod.mk.injEq] at h
    obtain ⟨h1, h2⟩ := h
    rw [← h1, ← h2]

/-- C1 as it is written fails.  For the running size `2 ^ 64 - 1` and the
alignment 4, `_pad` returns the padding 1 and updates the size to 0, which is
not `>= 2 ^ 64 - 1`; for the alignment 7 it returns the padding 6 and updates
the size to 5, which is no multiple of 7. -/
theorem pad_wraps_around_at_word_size :
    Machine._pad (2 ^ 64 - 1) 4 = .ok (0, 1) ∧ ¬ (2 ^ 64 - 1 ≤ 0) ∧
    Machine._pad (2 ^ 64 - 1) 7 = .ok (5, 6) ∧ ¬ (7 ∣ 5) :=
  ⟨rfl, by decide, rfl, by decide⟩

/-- C1, amended: for every running size `s` below `2 ^ 64` and every alignment
`a` with `0 < a < 2 ^ 32`, `_pad(s, a)` returns the padding `p` for which
`s + p` is the least multiple of `a` that is `>= s`, with `0 <= p < a` and
`p = 0` exactly when `s` is already a multiple of `a`; it updates the size to
`s + p` modulo `2 ^ 64`: to that least multiple when it is below `2 ^ 64`,
and to `s + p - 2 ^ 64`, a size below `a`, when it is not. -/
theorem pad_rounds_up_modulo_word_size (s a : Nat) (hs : s < 2 ^ 64) (ha : 0 < a)
    (ha32 : a < 2 ^ 32) :
    ∃ p, Machine._pad s a = .ok ((s + p) % 2 ^ 64, p) ∧
      (a ∣ s + p ∧ ∀ m, a ∣ m → s ≤ m → s + p ≤ m) ∧
      0 ≤ p ∧ p < a ∧ (p = 0 ↔ a ∣ s) ∧
      (s + p < 2 ^ 64 → Machine._pad s a = .ok (s + p, p)) ∧
      (2 ^ 64 ≤ s + p →
        Machine._pad s a = .ok (s + p - 2 ^ 64, p) ∧ s + p - 2 ^ 64 < a) := by
  obtain ⟨s1, p, h⟩ := pad_total s a ha
  obtain ⟨_, hs1, hdvd, hlt, hzero, hleast⟩ := pad_inv h
  have hm := pad_machine_words ha32 h
  subst hs1
  refine ⟨p, hm, ⟨hdvd, hleast⟩, Nat.zero_le p, hlt, hzero, ?_, ?_⟩
  · intro hfit
    rw [hm, Nat.mod_eq_of_lt hfit]
  · intro hwrap
    have hmod : (s + p) % 2 ^ 64 = s + p - 2 ^ 64 := by
      rw [Nat.mod_eq_sub_mod hwrap]
      exact Nat.mod_eq_of_lt (by omega)
    rw [hm, hmod]
    exact ⟨rfl, by omega⟩

/-- C1, amended, at `s = 10`, `a = 4`: the padding is 2 and the size becomes
12. -/
theorem pad_rounds_up_modulo_word_size_witness :
    10 < 2 ^ 64 ∧ 0 < 4 ∧ 4 < 2 ^ 32 ∧ Machine._pad 10 4 = .ok (12, 2) ∧
    ∃ p, Machine._pad 10 4 = .ok ((10 + p) % 2 ^ 64, p) ∧
      (4 ∣ 10 + p ∧ ∀ m, 4 ∣ m → 10 ≤ m → 10 + p ≤ m) ∧
      0 ≤ p ∧ p < 4 ∧ (p = 0 ↔ 4 ∣ 10) ∧
      (10 + p < 2 ^ 64 → Machine._pad 10 4 = .ok (10 + p, p)) ∧
      (2 ^ 64 ≤ 10 + p →
        Machine._pad 10 4 = .ok (10 + p - 2 ^ 64, p) ∧ 10 + p - 2 ^ 64 < 4) :=
  ⟨by decide, by decide, by decide, rfl,
    pad_rounds_up_modulo_word_size 10 4 (by decide) (by decide) (by decide)⟩

end LLVMExecutableKernel

/-! ## Sequential layouts -/

namespace LLVMExecutableKernel

theorem chained_snoc {start mid : Nat} {ps : List Placement} (p : Placement)
    (h : Chained start ps mid) (hp : _pad mid p.alignment = .ok (p.offset, p.padding)) :
    Chained start (ps ++ [p]) (p.offset + p.size) := by
  induction ps generalizing start with
  | nil =>
    simp only [Chained] at h
    subst h
    exact ⟨hp, rfl⟩
  | cons q qs ih =>
    obtain ⟨hq, hrest⟩ := h
    exact ⟨hq, ih hrest⟩

theorem chained_aligned {start stop : Nat} {ps : List Placement} (h : Chained start ps stop) :
    ∀ p ∈ ps, 0 < p.alignment ∧ p.alignment ∣ p.offset := by
  induction ps generalizing start with
  | nil => intro p hp; cases hp
  | cons q qs ih =>
    obtain ⟨hq, hrest⟩ := h
    intro p hp
    rcases List.mem_cons.mp hp with rfl | hp
    · obtain ⟨h1, _, h3, _⟩ := pad_inv hq
      exact ⟨h1, h3⟩
    · exact ih hrest p hp

theorem chained_total {start stop : Nat} {ps : List Placement} (h : Chained start ps stop) :
    stop = start + (ps.map Placement.size).sum + (ps.map Placement.padding).sum := by
  induction ps generalizing start with
  | nil => simpa [Chained] using h
  | cons q qs ih =>
    obtain ⟨hq, hrest⟩ := h
    obtain ⟨_, h2, _⟩ := pad_inv hq
    have := ih hrest
    simp only [List.map_cons, List.sum_cons]
    omega

theorem chained_bounds {start stop : Nat} {ps : List Placement} (h : Chained start ps stop) :
    start ≤ stop ∧ ∀ p ∈ ps, start ≤ p.offset ∧ p.offset + p.size ≤ stop := by
  induction ps generalizing start with
  | nil =>
    simp only [Chained] at h
    subst h
    exact ⟨le_refl _, fun p hp => (by cases hp)⟩
  | cons q qs ih =>
    obtain ⟨hq, hrest⟩ := h
    obtain ⟨_, h2, _⟩ := pad_inv hq
    obtain ⟨hle, hall⟩ := ih hrest
    refine ⟨by omega, ?_⟩
    intro p hp
    rcases List.mem_cons.mp hp with rfl | hp
    · exact ⟨by omega, hle⟩
    · obtain ⟨h3, h4⟩ := hall p hp
      exact ⟨by omega, h4⟩

theorem chained_disjoint {start stop : Nat} {ps : List Placement} (h : Chained start ps stop) :
    ps.Pairwise (fun p q => p.offset + p.size ≤ q.offset) := by
  induction ps generalizing start with
  | nil => exact List.Pairwise.nil
  | cons q qs ih =>
    obtain ⟨_, hrest⟩ := h
    refine List.Pairwise.cons ?_ (ih hrest)
    intro p hp
    exact ((chained_bounds hrest).2 p hp).1

theorem Space.empty_inv : Space.empty.Inv := by
  simp [Space.Inv, Space.empty, Chained]

theorem Space.record_inv {sp : Space} (name : String) (alignment bytes : Nat) {padded padding : Nat}
    (hinv : sp.Inv) (hp : _pad sp.size alignment = .ok (padded, padding)) :
    (sp.record name alignment bytes padded padding).Inv :=
  chained_snoc
    { name := name, offset := padded, size := bytes, alignment := alignment, padding := padding }
    hinv hp

theorem Space.place_inv {sp sp1 : Space} {name : String} {alignment bytes : Nat}
    (hinv : sp.Inv) (h : sp.place name alignment bytes = .ok sp1) :
    sp1.Inv ∧ 0 < alignment ∧
      sp1.placed.map Placement.declaration =
        sp.placed.map Placement.declaration ++
          [{ name := name, alignment := alignment, bytes := bytes }] := by
  unfold Space.place at h
  cases hp : _pad sp.size alignment with
  | error e => simp [hp] at h
  | ok r =>
    obtain ⟨padded, padding⟩ := r
    simp only [hp, Except.ok.injEq] at h
    subst h
    exact ⟨Space.record_inv name alignment bytes hinv hp, (pad_inv hp).1,
      by simp [Space.record, Placement.declaration]⟩

theorem Space.place_total (sp : Space) (name : String) {alignment : Nat} (bytes : Nat)
    (ha : 0 < alignment) : ∃ sp1, sp.place name alignment bytes = .ok sp1 := by
  obtain ⟨s1, p, h⟩ := pad_total sp.size alignment ha
  exact ⟨sp.record name alignment bytes s1 p, by simp [Space.place, h]⟩

theorem layout_inv {sp sp1 : Space} {ds : List Declaration} (hinv : sp.Inv)
    (h : layout sp ds = .ok sp1) :
    sp1.Inv ∧ (∀ d ∈ ds, 0 < d.alignment) ∧
      sp1.placed.map Placement.declaration = sp.placed.map Placement.declaration ++ ds := by
  induction ds generalizing sp with
  | nil =>
    simp only [layout, Except.ok.injEq] at h
    subst h
    exact ⟨hinv, fun d hd => (by cases hd), by simp⟩
  | cons d ds ih =>
    unfold layout at h
    cases hp : sp.place d.name d.alignment d.bytes with
    | error e => simp [hp] at h
    | ok sp0 =>
      simp only [hp] at h
      obtain ⟨h1, h2, h3⟩ := Space.place_inv hinv hp
      obtain ⟨h4, h5, h6⟩ := ih h1 h
      refine ⟨h4, ?_, ?_⟩
      · intro x hx
        rcases List.mem_cons.mp hx with rfl | hx
        · exact h2
        · exact h5 x hx
      · rw [h6, h3]; simp

theorem layout_total (sp : Space) {ds : List Declaration} (h : ∀ d ∈ ds, 0 < d.alignment) :
    ∃ sp1, layout sp ds = .ok sp1 := by
  induction ds generalizing sp with
  | nil => exact ⟨sp, rfl⟩
  | cons d ds ih =>
    obtain ⟨sp0, h0⟩ := Space.place_total sp d.name d.bytes (h d (List.mem_cons_self _ _))
    obtain ⟨sp1, h1⟩ := ih sp0 (fun x hx => h x (List.mem_cons_of_mem _ hx))
    exact ⟨sp1, by simp [layout, h0, h1]⟩

end LLVMExecutableKernel

/-! ## The declaration loops are the layout algorithm -/

namespace LLVMExecutableKernel

theorem placeLocals_eq_layout (sp : Space) (locals : List Local) :
    placeLocals sp locals = layout sp ((localVariables locals).map localDeclaration) := by
  induction locals generalizing sp with
  | nil => rfl
  | cons l ls ih =>
    unfold placeLocals
    by_cases hl : l.space = AddressSpace.Local
    · simp only [hl, if_true, localVariables, List.filter_cons, decide_True, List.map_cons, layout,
        localDeclaration]
      cases hp : sp.place l.name l.alignment l.size with
      | error e => rfl
      | ok sp1 => simpa [localVariables, localDeclaration] using ih sp1
    · simpa [hl, localVariables, List.filter_cons] using ih sp

theorem placeConstants_eq_layout (sp : Space) (globals : List PTXStatement) :
    placeConstants sp globals = layout sp ((constantVariables globals).map globalDeclaration) := by
  induction globals generalizing sp with
  | nil => rfl
  | cons g gs ih =>
    unfold placeConstants
    by_cases hg : g.directive = Directive.Const
    · simp only [hg, if_true, constantVariables, List.filter_cons, decide_True, List.map_cons,
        layout, globalDeclaration]
      cases hp : sp.place g.name g.alignment g.bytes with
      | error e => rfl
      | ok sp1 => simpa [constantVariables, globalDeclaration] using ih sp1
    · simpa [hg, constantVariables, List.filter_cons] using ih sp

/-- The declaration loop of the parameter allocator lays the parameters out
as the layout algorithm does, and stores in each parameter the offset it
logged. -/
theorem placeParameters_inv {sp sp1 : Space} {ps ps1 : List Parameter}
    (h : placeParameters sp ps = .ok (sp1, ps1)) :
    layout sp (ps.map parameterDeclaration) = .ok sp1 ∧
      ps1.map parameterDeclaration = ps.map parameterDeclaration ∧
      sp1.placed.map Placement.offset = sp.placed.map Placement.offset ++ ps1.map Parameter.offset ∧
      (∀ p ∈ ps1, p.alignment ∣ p.offset) ∧
      sp1.placed.map (fun p => (p.offset, p.size)) =
        sp.placed.map (fun p => (p.offset, p.size)) ++ ps1.map (fun p => (p.offset, p.size)) := by
  induction ps generalizing sp ps1 with
  | nil =>
    simp only [placeParameters, Except.ok.injEq, Prod.mk.injEq] at h
    obtain ⟨h1, h2⟩ := h
    subst h1 h2
    exact ⟨rfl, rfl, by simp, fun p hp => (by cases hp), by simp⟩
  | cons p ps ih =>
    unfold placeParameters at h
    cases hp : _pad sp.size p.alignment with
    | error e => simp [hp] at h
    | ok r =>
      obtain ⟨padded, padding⟩ := r
      simp only [hp] at h
      cases hrest : placeParameters (sp.record p.name p.alignment p.size padded padding) ps with
      | error e => simp [hrest] at h
      | ok r1 =>
        obtain ⟨sp2, ps2⟩ := r1
        simp only [hrest, Except.ok.injEq, Prod.mk.injEq] at h
        obtain ⟨h1, h2⟩ := h
        subst h1 h2
        obtain ⟨i1, i2, i3, i4, i5⟩ := ih hrest
        refine ⟨?_, ?_, ?_, ?_, ?_⟩
        · simp only [List.map_cons, layout, parameterDeclaration, Space.place, hp]
          simpa [parameterDeclaration] using i1
        · simp only [List.map_cons, i2]
          simp [parameterDeclaration]
        · rw [i3]; simp [Space.record]
        · intro q hq
          rcases List.mem_cons.mp hq with rfl | hq
          · exact (pad_inv hp).2.2.1
          · exact i4 q hq
        · rw [i5]; simp [Space.record]

theorem placeParameters_total (sp : Space) {ps : List Parameter}
    (h : ∀ p ∈ ps, 0 < p.alignment) : ∃ r, placeParameters sp ps = .ok r := by
  induction ps generalizing sp with
  | nil => exact ⟨(sp, []), rfl⟩
  | cons p ps ih =>
    obtain ⟨padded, padding, hp⟩ := pad_total sp.size p.alignment (h p (List.mem_cons_self _ _))
    obtain ⟨r, hr⟩ := ih (sp.record p.name p.alignment p.size padded padding)
      (fun x hx => h x (List.mem_cons_of_mem _ hx))
    exact ⟨(r.1, { p with offset := padded } :: r.2), by simp [placeParameters, hp, hr]⟩

end LLVMExecutableKernel

/-! ## Allocation maps -/

namespace LLVMExecutableKernel

theorem find_append (m : AllocationMap) (k : String) (v : Nat) (key : String) :
    AllocationMap.find (m ++ [(k, v)]) key =
      match AllocationMap.find m key with
      | some x => some x
      | none => if key = k then some v else none := by
  induction m with
  | nil => simp [AllocationMap.find]
  | cons e rest ih =>
    obtain ⟨k1, v1⟩ := e
    by_cases h : key = k1
    · simp [AllocationMap.find, h]
    · simpa [AllocationMap.find, h] using ih

theorem find_insert (m : AllocationMap) (k : String) (v : Nat) (key : String) :
    AllocationMap.find (AllocationMap.insert m k v) key =
      match AllocationMap.find m key with
      | some x => some x
      | none => if key = k then some v else none := by
  unfold AllocationMap.insert
  cases hk : AllocationMap.find m k with
  | none => simpa using find_append m k v key
  | some x =>
    cases hkey : AllocationMap.find m key with
    | some y => simp
    | none =>
      have hne : key ≠ k := by
        intro h; subst h; rw [hk] at hkey; cases hkey
      simp [hkey, hne]

theorem firstOffset_append (ps : List Placement) (p : Placement) (key : String) :
    firstOffset (ps ++ [p]) key =
      match firstOffset ps key with
      | some x => some x
      | none => if key = p.name then some p.offset else none := by
  induction ps with
  | nil => simp [firstOffset]
  | cons q qs ih =>
    by_cases h : key = q.name
    · simp [firstOffset, h]
    · simpa [firstOffset, h] using ih

theorem firstOffset_eq_none {ps : List Placement} {key : String} :
    firstOffset ps key = none ↔ key ∉ ps.map Placement.name := by
  induction ps with
  | nil => simp [firstOffset]
  | cons q qs ih =>
    by_cases h : key = q.name
    · simp [firstOffset, h]
    · simp [firstOffset, h, ih]

theorem firstOffset_mem {ps : List Placement} {key : String} {offset : Nat}
    (h : firstOffset ps key = some offset) : ∃ p ∈ ps, p.name = key ∧ p.offset = offset := by
  induction ps with
  | nil => simp [firstOffset] at h
  | cons q qs ih =>
    by_cases hk : key = q.name
    · simp only [firstOffset, hk, if_true, Option.some.injEq] at h
      exact ⟨q, List.mem_cons_self _ _, hk.symm, h⟩
    · simp only [firstOffset, hk, if_false] at h
      obtain ⟨p, hp, h1, h2⟩ := ih h
      exact ⟨p, List.mem_cons_of_mem _ hp, h1, h2⟩

theorem Space.empty_mapped : Space.empty.Mapped := by
  intro key; rfl

theorem Space.record_mapped {sp : Space} (name : String) (alignment bytes padded padding : Nat)
    (h : sp.Mapped) : (sp.record name alignment bytes padded padding).Mapped := by
  intro key
  simp only [Space.record, find_insert, firstOffset_append, h key]

theorem Space.place_mapped {sp sp1 : Space} {name : String} {alignment bytes : Nat}
    (hm : sp.Mapped) (h : sp.place name alignment bytes = .ok sp1) : sp1.Mapped := by
  unfold Space.place at h
  cases hp : _pad sp.size alignment with
  | error e => simp [hp] at h
  | ok r =>
    obtain ⟨padded, padding⟩ := r
    simp only [hp, Except.ok.injEq] at h
    subst h
    exact Space.record_mapped name alignment bytes padded padding hm

theorem layout_mapped {sp sp1 : Space} {ds : List Declaration} (hm : sp.Mapped)
    (h : layout sp ds = .ok sp1) : sp1.Mapped := by
  induction ds generalizing sp with
  | nil =>
    simp only [layout, Except.ok.injEq] at h
    subst h
    exact hm
  | cons d ds ih =>
    unfold layout at h
    cases hp : sp.place d.name d.alignment d.bytes with
    | error e => simp [hp] at h
    | ok sp0 =>
      simp only [hp] at h
      exact ih (Space.place_mapped hm hp) h

/-- The names in the log of a laid-out space are those of the declarations. -/
theorem placed_names {sp : Space} {ds : List Declaration}
    (h : sp.placed.map Placement.declaration = ds) :
    sp.placed.map Placement.name = ds.map Declaration.name := by
  rw [← h]; simp [Placement.declaration, Function.comp_def]

end LLVMExecutableKernel

/-! ## The operand loops -/

namespace LLVMExecutableKernel

theorem operandAt_setOperandAt (i : PTXInstruction) (s t : Fin 4) (op : PTXOperand) :
    operandAt (setOperandAt i s op) t = if t = s then op else operandAt i t := by
  fin_cases s <;> fin_cases t <;> simp [operandAt, setOperandAt]

theorem opcode_setOperandAt (i : PTXInstruction) (s : Fin 4) (op : PTXOperand) :
    (setOperandAt i s op).opcode = i.opcode := by
  fin_cases s <;> rfl

theorem addressSpace_setOperandAt (i : PTXInstruction) (s : Fin 4) (op : PTXOperand) :
    (setOperandAt i s op).addressSpace = i.addressSpace := by
  fin_cases s <;> rfl

/-- The operand loop body rewrites the operand of its slot and no other. -/
theorem operandAt_mapOperand (space : Option AddressSpace) (map : AllocationMap)
    (i : PTXInstruction) (s t : Fin 4) :
    operandAt (mapOperand space map i s) t =
      if t = s then rewriteOperand map (operandAt i t) else operandAt i t := by
  unfold mapOperand rewriteOperand
  by_cases hts : t = s
  · subst hts
    by_cases ha : (operandAt i t).addressMode = AddressMode.Address
    · cases hf : AllocationMap.find map (operandAt i t).identifier with
      | none => simp [ha, hf]
      | some offset =>
        cases space with
        | none => simp [ha, hf, operandAt_setOperandAt]
        | some sp =>
          simp only [ha, hf, if_true, operandAt_setOperandAt]
    · simp [ha]
  · by_cases ha : (operandAt i s).addressMode = AddressMode.Address
    · cases hf : AllocationMap.find map (operandAt i s).identifier with
      | none => simp [ha, hf, hts]
      | some offset =>
        cases space with
        | none => simp [ha, hf, hts, operandAt_setOperandAt]
        | some sp =>
          simp only [ha, hf, if_true, operandAt_setOperandAt, hts, if_false]
          fin_cases t <;> rfl
    · simp [ha, hts]

theorem opcode_mapOperand (space : Option AddressSpace) (map : AllocationMap)
    (i : PTXInstruction) (s : Fin 4) : (mapOperand space map i s).opcode = i.opcode := by
  unfold mapOperand
  by_cases ha : (operandAt i s).addressMode = AddressMode.Address
  · cases hf : AllocationMap.find map (operandAt i s).identifier with
    | none => simp [ha, hf]
    | some offset =>
      cases space with
      | none => simp [ha, hf, opcode_setOperandAt]
      | some sp => simp [ha, hf, opcode_setOperandAt]
  · simp [ha]

/-- The operand loop body stores the address space exactly when it rewrites
the operand. -/
theorem addressSpace_mapOperand (space : Option AddressSpace) (map : AllocationMap)
    (i : PTXInstruction) (s : Fin 4) :
    (mapOperand space map i s).addressSpace =
      if rewriteOperand map (operandAt i s) = operandAt i s ∧
          ¬ ((operandAt i s).addressMode = AddressMode.Address ∧
            (AllocationMap.find map (operandAt i s).identifier).isSome) then i.addressSpace
      else space.getD i.addressSpace := by
  unfold mapOperand rewriteOperand
  by_cases ha : (operandAt i s).addressMode = AddressMode.Address
  · cases hf : AllocationMap.find map (operandAt i s).identifier with
    | none => simp [ha, hf]
    | some offset =>
      cases space with
      | none => simp [ha, hf, addressSpace_setOperandAt]
      | some sp => simp [ha, hf, addressSpace_setOperandAt]
  · simp [ha]

theorem rewriteOperand_mode (map : AllocationMap) (op : PTXOperand) :
    (rewriteOperand map op).addressMode = op.addressMode ∧
      (rewriteOperand map op).identifier = op.identifier ∧
      (rewriteOperand map op).reg = op.reg := by
  unfold rewriteOperand
  by_cases ha : op.addressMode = AddressMode.Address
  · cases hf : AllocationMap.find map op.identifier with
    | none => simp [ha, hf]
    | some offset => simp [ha, hf]
  · simp [ha]

theorem rewriteOperand_of_none {map : AllocationMap} {op : PTXOperand}
    (h : AllocationMap.find map op.identifier = none) : rewriteOperand map op = op := by
  unfold rewriteOperand
  by_cases ha : op.addressMode = AddressMode.Address
  · simp [ha, h]
  · simp [ha]

theorem isMovLdSt_mapOperand (space : Option AddressSpace) (map : AllocationMap)
    (i : PTXInstruction) (s : Fin 4) : isMovLdSt (mapOperand space map i s) = isMovLdSt i := by
  simp [isMovLdSt, opcode_mapOperand]

/-- The instruction loop body rewrites every operand of a `Mov`, `Ld` or `St`
instruction and leaves every other instruction as it is. -/
theorem operandAt_mapInstruction (space : Option AddressSpace) (map : AllocationMap)
    (i : PTXInstruction) (t : Fin 4) :
    operandAt (mapInstruction space map i) t =
      if isMovLdSt i then rewriteOperand map (operandAt i t) else operandAt i t := by
  unfold mapInstruction
  by_cases hm : isMovLdSt i = true
  · simp only [hm, if_true, operandAt_mapOperand]
    fin_cases t <;> simp
  · simp [hm]

theorem opcode_mapInstruction (space : Option AddressSpace) (map : AllocationMap)
    (i : PTXInstruction) : (mapInstruction space map i).opcode = i.opcode := by
  unfold mapInstruction
  by_cases hm : isMovLdSt i = true
  · simp [hm, opcode_mapOperand]
  · simp [hm]

end LLVMExecutableKernel

/-! ## The declaration loops of the shared allocator -/

namespace LLVMExecutableKernel

theorem findGlobal_append (a b : List PTXStatement) (key : String) :
    findGlobal (a ++ b) key =
      match findGlobal a key with
      | some g => some g
      | none => findGlobal b key := by
  induction a with
  | nil => simp [findGlobal]
  | cons g gs ih =>
    by_cases h : key = g.name
    · simp [findGlobal, h]
    · simpa [findGlobal, h] using ih

theorem findGlobal_some {gs : List PTXStatement} {key : String} {g : PTXStatement}
    (h : findGlobal gs key = some g) : g ∈ gs ∧ g.name = key := by
  induction gs with
  | nil => simp [findGlobal] at h
  | cons x xs ih =>
    by_cases hk : key = x.name
    · simp only [findGlobal, hk, if_true, Option.some.injEq] at h
      subst h
      exact ⟨List.mem_cons_self _ _, hk.symm⟩
    · simp only [findGlobal, hk, if_false] at h
      exact ⟨List.mem_cons_of_mem _ (ih h).1, (ih h).2⟩

theorem findGlobal_eq_none {gs : List PTXStatement} {key : String} :
    findGlobal gs key = none ↔ key ∉ gs.map PTXStatement.name := by
  induction gs with
  | nil => simp [findGlobal]
  | cons x xs ih =>
    by_cases hk : key = x.name
    · simp [findGlobal, hk]
    · simp [findGlobal, hk, ih]

theorem findGlobal_insert (gs : List PTXStatement) (g : PTXStatement) (key : String) :
    findGlobal (insertGlobal gs g) key = findGlobal (gs ++ [g]) key := by
  unfold insertGlobal
  cases hg : findGlobal gs g.name with
  | none => rfl
  | some x =>
    rw [findGlobal_append]
    cases hk : findGlobal gs key with
    | some y => simp
    | none =>
      have hne : key ≠ g.name := by
        intro h; subst h; rw [hg] at hk; cases hk
      simp [findGlobal, hne]

theorem mem_insertGlobal {gs : List PTXStatement} {g x : PTXStatement}
    (h : x ∈ insertGlobal gs g) : x ∈ gs ∨ x = g := by
  unfold insertGlobal at h
  cases hg : findGlobal gs g.name with
  | none =>
    simp only [hg, List.mem_append, List.mem_singleton] at h
    exact h
  | some y =>
    simp only [hg] at h
    exact Or.inl h

theorem findGlobal_erase (gs : List PTXStatement) (k key : String) :
    findGlobal (eraseGlobal gs k) key = if key = k then none else findGlobal gs key := by
  induction gs with
  | nil => simp [eraseGlobal, findGlobal]
  | cons x xs ih =>
    unfold eraseGlobal at ih ⊢
    by_cases hx : x.name = k
    · by_cases hk : key = k
      · simp [List.filter_cons, hx, hk] at ih ⊢
        exact ih
      · have hkx : key ≠ x.name := by rw [hx]; exact hk
        simp [List.filter_cons, hx, hk, findGlobal, hkx] at ih ⊢
        exact ih
    · by_cases hk : key = k
      · have hkx : key ≠ x.name := by
          intro h; exact hx (h ▸ hk)
        simp [List.filter_cons, hx, hk, findGlobal] at ih ⊢
        subst hk
        simp [Ne.symm hx, ih]
      · by_cases hkx : key = x.name
        · simp [List.filter_cons, hx, hk, findGlobal, hkx]
        · simp [List.filter_cons, hx, hk, findGlobal, hkx] at ih ⊢
          exact ih

theorem mem_eraseGlobal {gs : List PTXStatement} {k : String} {x : PTXStatement}
    (h : x ∈ eraseGlobal gs k) : x ∈ gs := by
  unfold eraseGlobal at h
  exact (List.mem_filter.mp h).1

/-- What the loop over `module->globals` computes. -/
theorem scanGlobals_inv {x x1 : Externals} {pool pool1 gs : List PTXStatement}
    (h : scanGlobals x pool gs = .ok (x1, pool1)) :
    x1.external = x.external ++ (externSharedGlobals gs).map PTXStatement.name ∧
      x1.externalAlignment =
        ((externSharedGlobals gs).flatMap (fun g => [g.alignment, g.typeBytes])).foldl max
          x.externalAlignment ∧
      (∀ key, findGlobal pool1 key = findGlobal (pool ++ sizedSharedGlobals gs) key) ∧
      (∀ g ∈ pool1, g ∈ pool ∨ g ∈ sizedSharedGlobals gs) := by
  induction gs generalizing x pool with
  | nil =>
    simp only [scanGlobals, Except.ok.injEq, Prod.mk.injEq] at h
    obtain ⟨h1, h2⟩ := h
    subst h1 h2
    simp [externSharedGlobals, sizedSharedGlobals]
  | cons g gs ih =>
    unfold scanGlobals at h
    by_cases hd : g.directive = Directive.Shared
    · by_cases he : g.attribute_ = Attribute.Extern
      · simp only [hd, he, if_true] at h
        cases ha : x.add g.name g.alignment g.typeBytes with
        | error e => simp [ha] at h
        | ok x0 =>
          simp only [ha] at h
          obtain ⟨i1, i2, i3, i4⟩ := ih h
          unfold Externals.add at ha
          by_cases hmem : g.name ∈ x.external
          · simp [hmem] at ha
          · simp only [hmem, if_false, Except.ok.injEq] at ha
            subst ha
            refine ⟨?_, ?_, ?_, ?_⟩
            · simp [i1, externSharedGlobals, List.filter_cons, hd, he]
            · simp [i2, externSharedGlobals, List.filter_cons, hd, he]
            · intro key
              simp [i3 key, sizedSharedGlobals, List.filter_cons, hd, he]
            · intro y hy
              rcases i4 y hy with hy | hy
              · exact Or.inl hy
              · right
                simpa [sizedSharedGlobals, List.filter_cons, hd, he] using hy
      · simp only [hd, he, if_true, if_false] at h
        obtain ⟨i1, i2, i3, i4⟩ := ih h
        refine ⟨?_, ?_, ?_, ?_⟩
        · simp [i1, externSharedGlobals, List.filter_cons, hd, he]
        · simp [i2, externSharedGlobals, List.filter_cons, hd, he]
        · intro key
          rw [i3 key]
          simp only [sizedSharedGlobals, List.filter_cons, hd, he, not_false_eq_true, and_self,
            decide_True, if_true, ne_eq]
          rw [findGlobal_append, findGlobal_append, findGlobal_insert, findGlobal_append]
          cases hp : findGlobal pool key with
          | some y => simp
          | none =>
            by_cases hk : key = g.name
            · simp [findGlobal, hk]
            · simp [findGlobal, hk]
        · intro y hy
          rcases i4 y hy with hy | hy
          · rcases mem_insertGlobal hy with hy | hy
            · exact Or.inl hy
            · right
              subst hy
              simp [sizedSharedGlobals, List.filter_cons, hd, he]
          · right
            simp only [sizedSharedGlobals, List.filter_cons, hd, he, not_false_eq_true, and_self,
              decide_True, if_true, ne_eq]
            exact List.mem_cons_of_mem _ (by simpa [sizedSharedGlobals] using hy)
    · simp only [hd, if_false] at h
      obtain ⟨i1, i2, i3, i4⟩ := ih h
      refine ⟨?_, ?_, ?_, ?_⟩
      · simp [i1, externSharedGlobals, List.filter_cons, hd]
      · simp [i2, externSharedGlobals, List.filter_cons, hd]
      · intro key
        simp [i3 key, sizedSharedGlobals, List.filter_cons, hd]
      · intro y hy
        rcases i4 y hy with hy | hy
        · exact Or.inl hy
        · right
          simpa [sizedSharedGlobals, List.filter_cons, hd] using hy

theorem scanGlobals_total (x : Externals) (pool : List PTXStatement) {gs : List PTXStatement}
    (h : (x.external ++ (externSharedGlobals gs).map PTXStatement.name).Nodup) :
    ∃ r, scanGlobals x pool gs = .ok r := by
  induction gs generalizing x pool with
  | nil => exact ⟨(x, pool), rfl⟩
  | cons g gs ih =>
    unfold scanGlobals
    by_cases hd : g.directive = Directive.Shared
    · by_cases he : g.attribute_ = Attribute.Extern
      · simp only [externSharedGlobals, List.filter_cons, hd, he, and_self, decide_True, if_true,
          List.map_cons] at h
        have hmem : g.name ∉ x.external := by
          intro hm
          have := List.nodup_append.mp h
          exact this.2.2 hm (List.mem_cons_self _ _)
        have hnext : ((x.external ++ [g.name]) ++
            (externSharedGlobals gs).map PTXStatement.name).Nodup := by
          simpa [externSharedGlobals] using h
        obtain ⟨r, hr⟩ := ih
          { external := x.external ++ [g.name]
            externalAlignment := max (max x.externalAlignment g.alignment) g.typeBytes } pool hnext
        exact ⟨r, by simp [hd, he, Externals.add, hmem, hr]⟩
      · have hnext : (x.external ++ (externSharedGlobals gs).map PTXStatement.name).Nodup := by
          simpa [externSharedGlobals, List.filter_cons, hd, he] using h
        obtain ⟨r, hr⟩ := ih x (insertGlobal pool g) hnext
        exact ⟨r, by simp [hd, he, hr]⟩
    · have hnext : (x.external ++ (externSharedGlobals gs).map PTXStatement.name).Nodup := by
        simpa [externSharedGlobals, List.filter_cons, hd] using h
      obtain ⟨r, hr⟩ := ih x pool hnext
      exact ⟨r, by simp [hd, hr]⟩

end LLVMExecutableKernel

namespace LLVMExecutableKernel

/-- What the loop over `_ptx->locals` of the shared allocator computes. -/
theorem scanLocals_inv {x x1 : Externals} {sp sp1 : Space} {ls : List Local}
    (h : scanLocals x sp ls = .ok (x1, sp1)) :
    x1.external = x.external ++ (externSharedLocals ls).map Local.name ∧
      x1.externalAlignment =
        ((externSharedLocals ls).flatMap (fun l => [l.alignment, l.typeBytes])).foldl max
          x.externalAlignment ∧
      layout sp ((sizedSharedLocals ls).map localDeclaration) = .ok sp1 := by
  induction ls generalizing x sp with
  | nil =>
    simp only [scanLocals, Except.ok.injEq, Prod.mk.injEq] at h
    obtain ⟨h1, h2⟩ := h
    subst h1 h2
    simp [externSharedLocals, sizedSharedLocals, layout]
  | cons l ls ih =>
    unfold scanLocals at h
    by_cases hd : l.space = AddressSpace.Shared
    · by_cases he : l.attribute_ = Attribute.Extern
      · simp only [hd, he, if_true] at h
        cases ha : x.add l.name l.alignment l.typeBytes with
        | error e => simp [ha] at h
        | ok x0 =>
          simp only [ha] at h
          obtain ⟨i1, i2, i3⟩ := ih h
          unfold Externals.add at ha
          by_cases hmem : l.name ∈ x.external
          · simp [hmem] at ha
          · simp only [hmem, if_false, Except.ok.injEq] at ha
            subst ha
            refine ⟨?_, ?_, ?_⟩
            · simp [i1, externSharedLocals, List.filter_cons, hd, he]
            · simp [i2, externSharedLocals, List.filter_cons, hd, he]
            · simpa [sizedSharedLocals, List.filter_cons, hd, he] using i3
      · simp only [hd, he, if_true, if_false] at h
        cases hp : sp.place l.name l.alignment l.size with
        | error e => simp [hp] at h
        | ok sp0 =>
          simp only [hp] at h
          obtain ⟨i1, i2, i3⟩ := ih h
          refine ⟨?_, ?_, ?_⟩
          · simp [i1, externSharedLocals, List.filter_cons, hd, he]
          · simp [i2, externSharedLocals, List.filter_cons, hd, he]
          · simp only [sizedSharedLocals, List.filter_cons, hd, he, not_false_eq_true, and_self,
              decide_True, if_true, ne_eq, List.map_cons, layout, localDeclaration, hp]
            simpa [sizedSharedLocals, localDeclaration] using i3
    · simp only [hd, if_false] at h
      obtain ⟨i1, i2, i3⟩ := ih h
      refine ⟨?_, ?_, ?_⟩
      · simp [i1, externSharedLocals, List.filter_cons, hd]
      · simp [i2, externSharedLocals, List.filter_cons, hd]
      · simpa [sizedSharedLocals, List.filter_cons, hd] using i3

theorem scanLocals_total (x : Externals) (sp : Space) {ls : List Local}
    (h : (x.external ++ (externSharedLocals ls).map Local.name).Nodup)
    (ha : ∀ l ∈ sizedSharedLocals ls, 0 < l.alignment) :
    ∃ r, scanLocals x sp ls = .ok r := by
  induction ls generalizing x sp with
  | nil => exact ⟨(x, sp), rfl⟩
  | cons l ls ih =>
    unfold scanLocals
    by_cases hd : l.space = AddressSpace.Shared
    · by_cases he : l.attribute_ = Attribute.Extern
      · simp only [externSharedLocals, List.filter_cons, hd, he, and_self, decide_True, if_true,
          List.map_cons] at h
        have hmem : l.name ∉ x.external := by
          intro hm
          have := List.nodup_append.mp h
          exact this.2.2 hm (List.mem_cons_self _ _)
        have hnext : ((x.external ++ [l.name]) ++
            (externSharedLocals ls).map Local.name).Nodup := by
          simpa [externSharedLocals] using h
        have ha1 : ∀ y ∈ sizedSharedLocals ls, 0 < y.alignment := by
          intro y hy
          apply ha y
          simpa [sizedSharedLocals, List.filter_cons, hd, he] using hy
        obtain ⟨r, hr⟩ := ih
          { external := x.external ++ [l.name]
            externalAlignment := max (max x.externalAlignment l.alignment) l.typeBytes } sp
          hnext ha1
        exact ⟨r, by simp [hd, he, Externals.add, hmem, hr]⟩
      · have hnext : (x.external ++ (externSharedLocals ls).map Local.name).Nodup := by
          simpa [externSharedLocals, List.filter_cons, hd, he] using h
        have hl : 0 < l.alignment := by
          apply ha l
          simp [sizedSharedLocals, List.filter_cons, hd, he]
        have ha1 : ∀ y ∈ sizedSharedLocals ls, 0 < y.alignment := by
          intro y hy
          apply ha y
          simp only [sizedSharedLocals, List.filter_cons, hd, he, not_false_eq_true, and_self,
            decide_True, if_true, ne_eq]
          exact List.mem_cons_of_mem _ (by simpa [sizedSharedLocals] using hy)
        obtain ⟨sp0, h0⟩ := Space.place_total sp l.name l.size hl
        obtain ⟨r, hr⟩ := ih x sp0 hnext ha1
        exact ⟨r, by simp [hd, he, h0, hr]⟩
    · have hnext : (x.external ++ (externSharedLocals ls).map Local.name).Nodup := by
        simpa [externSharedLocals, List.filter_cons, hd] using h
      have ha1 : ∀ y ∈ sizedSharedLocals ls, 0 < y.alignment := by
        intro y hy
        apply ha y
        simpa [sizedSharedLocals, List.filter_cons, hd] using hy
      obtain ⟨r, hr⟩ := ih x sp hnext ha1
      exact ⟨r, by simp [hd, hr]⟩

end LLVMExecutableKernel

/-! ## The instruction loop of the shared allocator -/

namespace LLVMExecutableKernel

theorem Extends.later_refl (pool : List PTXStatement) (map : AllocationMap) :
    Extends pool map pool map :=
  ⟨fun _ _ h => h, fun _ h1 h2 => ⟨h1, h2⟩⟩

theorem Extends.later_trans {p0 p1 p2 : List PTXStatement} {m0 m1 m2 : AllocationMap}
    (h01 : Extends p0 m0 p1 m1) (h12 : Extends p1 m1 p2 m2) : Extends p0 m0 p2 m2 :=
  ⟨fun key v h => h12.1 key v (h01.1 key v h),
   fun key h1 h2 => h12.2 key (h01.2 key h1 h2).1 (h01.2 key h1 h2).2⟩

theorem Space.place_map {sp sp1 : Space} {name : String} {alignment bytes : Nat}
    (h : sp.place name alignment bytes = .ok sp1) :
    ∃ padded, sp1.map = AllocationMap.insert sp.map name padded := by
  unfold Space.place at h
  cases hp : _pad sp.size alignment with
  | error e => simp [hp] at h
  | ok r =>
    obtain ⟨padded, padding⟩ := r
    simp only [hp, Except.ok.injEq] at h
    subst h
    exact ⟨padded, rfl⟩

/-- A reference leads to a later state, in which the name referenced is
settled: it has an entry or it will never get one. -/
theorem discover_extends {external : List String} {pool pool1 : List PTXStatement}
    {sp sp1 : Space} {key : String} (h : discover external pool sp key = .ok (pool1, sp1)) :
    Extends pool sp.map pool1 sp1.map ∧
      (key ∉ external →
        (AllocationMap.find sp1.map key).isSome ∨
          (AllocationMap.find sp1.map key = none ∧ findGlobal pool1 key = none)) := by
  unfold discover at h
  by_cases he : key ∈ external
  · simp only [he, if_true, Except.ok.injEq, Prod.mk.injEq] at h
    obtain ⟨h1, h2⟩ := h
    subst h1 h2
    exact ⟨Extends.later_refl _ _, fun hne => absurd he hne⟩
  · simp only [he, if_false] at h
    cases hf : findGlobal pool key with
    | none =>
      simp only [hf, Except.ok.injEq, Prod.mk.injEq] at h
      obtain ⟨h1, h2⟩ := h
      subst h1 h2
      refine ⟨Extends.later_refl _ _, fun _ => ?_⟩
      cases hm : AllocationMap.find sp.map key with
      | none => exact Or.inr ⟨rfl, hf⟩
      | some v => exact Or.inl rfl
    | some g =>
      simp only [hf] at h
      cases hp : sp.place g.name g.alignment g.bytes with
      | error e => simp [hp] at h
      | ok sp0 =>
        simp only [hp, Except.ok.injEq, Prod.mk.injEq] at h
        obtain ⟨h1, h2⟩ := h
        subst h1 h2
        obtain ⟨padded, hmap⟩ := Space.place_map hp
        have hname : g.name = key := (findGlobal_some hf).2
        refine ⟨⟨?_, ?_⟩, fun _ => Or.inl ?_⟩
        · intro k v hk
          rw [hmap, find_insert, hk]
        · intro k hk hpool
          have hne : k ≠ key := by
            intro heq; subst heq; rw [hf] at hpool; cases hpool
          refine ⟨?_, ?_⟩
          · rw [hmap, find_insert, hk, hname]
            simp [hne]
          · rw [findGlobal_erase]; simp [hne, hpool]
        · rw [hmap, find_insert, hname]
          cases hm : AllocationMap.find sp.map key with
          | none => simp
          | some v => simp

theorem mapOperand_congr (space : Option AddressSpace) {m1 m2 : AllocationMap}
    (i : PTXInstruction) (s : Fin 4)
    (h : AllocationMap.find m1 (operandAt i s).identifier =
      AllocationMap.find m2 (operandAt i s).identifier) :
    mapOperand space m1 i s = mapOperand space m2 i s := by
  unfold mapOperand
  simp only [h]

theorem mapOperand_of_not_address (space : Option AddressSpace) (map : AllocationMap)
    (i : PTXInstruction) (s : Fin 4) (h : (operandAt i s).addressMode ≠ AddressMode.Address) :
    mapOperand space map i s = i := by
  unfold mapOperand
  simp [h]

/-- The operand loop body of the shared allocator, seen from any later
state. -/
theorem sharedOperand_spec {external : List String} {n : Nat} {st st1 : SharedScan}
    {i i1 : PTXInstruction} {slot : Fin 4}
    (h : sharedOperand external n st i slot = .ok (st1, i1)) :
    discoverOperand external st.sharedGlobals st.space (operandAt i slot) =
        .ok (st1.sharedGlobals, st1.space) ∧
      st1.externalOperands = st.externalOperands ++
        (if (operandAt i slot).addressMode = AddressMode.Address ∧
            (operandAt i slot).identifier ∈ external then [(n, slot)] else []) ∧
      Extends st.sharedGlobals st.space.map st1.sharedGlobals st1.space.map ∧
      ∀ pool2 map2, Extends st1.sharedGlobals st1.space.map pool2 map2 →
        i1 = mapSharedOperand external map2 i slot := by
  unfold sharedOperand at h
  unfold discoverOperand mapSharedOperand
  by_cases ha : (operandAt i slot).addressMode = AddressMode.Address
  · by_cases he : (operandAt i slot).identifier ∈ external
    · simp only [ha, he, if_true, Except.ok.injEq, Prod.mk.injEq] at h
      obtain ⟨h1, h2⟩ := h
      subst h1 h2
      refine ⟨by simp [ha, discover, he], by simp [ha, he], Extends.later_refl _ _, ?_⟩
      intro pool2 map2 _
      simp [ha, he]
    · simp only [ha, he, if_true, if_false] at h
      have hd : discover external st.sharedGlobals st.space (operandAt i slot).identifier =
          .ok (st1.sharedGlobals, st1.space) ∧ st1.externalOperands = st.externalOperands ∧
          i1 = mapOperand (some AddressSpace.Shared) st1.space.map i slot := by
        unfold discover
        simp only [he, if_false]
        cases hf : findGlobal st.sharedGlobals (operandAt i slot).identifier with
        | none =>
          simp only [hf, Except.ok.injEq, Prod.mk.injEq] at h
          obtain ⟨h1, h2⟩ := h
          subst h1 h2
          exact ⟨rfl, rfl, rfl⟩
        | some g =>
          simp only [hf] at h
          cases hp : st.space.place g.name g.alignment g.bytes with
          | error e => simp [hp] at h
          | ok sp0 =>
            simp only [hp, Except.ok.injEq, Prod.mk.injEq] at h
            obtain ⟨h1, h2⟩ := h
            subst h1 h2
            exact ⟨by simp [hp], rfl, rfl⟩
      obtain ⟨hd1, hd2, hd3⟩ := hd
      obtain ⟨hext, hsettled⟩ := discover_extends hd1
      refine ⟨by simp [ha, hd1], by simp [he, hd2], hext, ?_⟩
      intro pool2 map2 h2
      simp only [ha, he, and_false, if_false]
      rw [hd3]
      apply mapOperand_congr
      rcases hsettled he with hs | ⟨hn1, hn2⟩
      · obtain ⟨v, hv⟩ := Option.isSome_iff_exists.mp hs
        rw [hv, h2.1 _ _ hv]
      · rw [hn1, (h2.2 _ hn1 hn2).1]
  · simp only [ha, if_false, Except.ok.injEq, Prod.mk.injEq] at h
    obtain ⟨h1, h2⟩ := h
    subst h1 h2
    refine ⟨by simp [ha], by simp [ha], Extends.later_refl _ _, ?_⟩
    intro pool2 map2 _
    simp only [ha, false_and, if_false]
    exact (mapOperand_of_not_address _ _ _ _ ha).symm

end LLVMExecutableKernel

namespace LLVMExecutableKernel

theorem operandAt_mapSharedOperand_ne (external : List String) (map : AllocationMap)
    (i : PTXInstruction) {s t : Fin 4} (h : t ≠ s) :
    operandAt (mapSharedOperand external map i s) t = operandAt i t := by
  unfold mapSharedOperand
  split
  · rfl
  · rw [operandAt_mapOperand]; simp [h]

theorem isMovLdSt_mapSharedOperand (external : List String) (map : AllocationMap)
    (i : PTXInstruction) (s : Fin 4) :
    isMovLdSt (mapSharedOperand external map i s) = isMovLdSt i := by
  unfold mapSharedOperand
  split
  · rfl
  · exact isMovLdSt_mapOperand _ _ _ _

theorem discoverAll_append (external : List String) (pool : List PTXStatement) (sp : Space)
    (a b : List String) :
    discoverAll external pool sp (a ++ b) =
      match discoverAll external pool sp a with
      | .error e => .error e
      | .ok (pool1, sp1) => discoverAll external pool1 sp1 b := by
  induction a generalizing pool sp with
  | nil => rfl
  | cons key rest ih =>
    simp only [List.cons_append, discoverAll]
    cases hd : discover external pool sp key with
    | error e => rfl
    | ok r =>
      obtain ⟨pool1, sp1⟩ := r
      exact ih pool1 sp1

theorem discoverAll_operands (external : List String) (pool : List PTXStatement) (sp : Space)
    (op : PTXOperand) (ops : List PTXOperand) :
    discoverAll external pool sp
        (((op :: ops).filter (fun o => o.addressMode = AddressMode.Address)).map
          PTXOperand.identifier) =
      match discoverOperand external pool sp op with
      | .error e => .error e
      | .ok (pool1, sp1) =>
        discoverAll external pool1 sp1
          ((ops.filter (fun o => o.addressMode = AddressMode.Address)).map
            PTXOperand.identifier) := by
  unfold discoverOperand
  by_cases ha : op.addressMode = AddressMode.Address
  · simp only [List.filter_cons, ha, decide_True, if_true, List.map_cons, discoverAll]
  · simp only [List.filter_cons, ha, decide_False, if_false]
    rfl

theorem filter_slots (P : Fin 4 → Prop) [DecidablePred P] (n : Nat) :
    (([0, 1, 2, 3] : List (Fin 4)).filter (fun s => decide (P s))).map (fun s => (n, s)) =
      (if P 0 then [(n, (0 : Fin 4))] else []) ++ ((if P 1 then [(n, (1 : Fin 4))] else []) ++
        ((if P 2 then [(n, (2 : Fin 4))] else []) ++ (if P 3 then [(n, (3 : Fin 4))] else []))) := by
  by_cases h0 : P 0 <;> by_cases h1 : P 1 <;> by_cases h2 : P 2 <;> by_cases h3 : P 3 <;>
    simp [List.filter_cons, h0, h1, h2, h3]

/-- The instruction loop body of the shared allocator, seen from any later
state. -/
theorem sharedInstruction_spec {external : List String} {n : Nat} {st st1 : SharedScan}
    {i i1 : PTXInstruction} (h : sharedInstruction external n st i = .ok (st1, i1)) :
    discoverAll external st.sharedGlobals st.space (references [i]) =
        .ok (st1.sharedGlobals, st1.space) ∧
      st1.externalOperands =
        st.externalOperands ++ (externalSlots external i).map (fun s => (n, s)) ∧
      Extends st.sharedGlobals st.space.map st1.sharedGlobals st1.space.map ∧
      ∀ pool2 map2, Extends st1.sharedGlobals st1.space.map pool2 map2 →
        i1 = mapSharedInstruction external map2 i := by
  unfold sharedInstruction at h
  by_cases hm : isMovLdSt i = true
  · simp only [hm, if_true] at h
    cases h0 : sharedOperand external n st i 0 with
    | error e => simp [h0] at h
    | ok r0 =>
      obtain ⟨s0, j0⟩ := r0
      simp only [h0] at h
      cases h1 : sharedOperand external n s0 j0 1 with
      | error e => simp [h1] at h
      | ok r1 =>
        obtain ⟨s1, j1⟩ := r1
        simp only [h1] at h
        cases h2 : sharedOperand external n s1 j1 2 with
        | error e => simp [h2] at h
        | ok r2 =>
          obtain ⟨s2, j2⟩ := r2
          simp only [h2] at h
          obtain ⟨a0, b0, c0, d0⟩ := sharedOperand_spec h0
          obtain ⟨a1, b1, c1, d1⟩ := sharedOperand_spec h1
          obtain ⟨a2, b2, c2, d2⟩ := sharedOperand_spec h2
          obtain ⟨a3, b3, c3, d3⟩ := sharedOperand_spec h
          have e0 := d0 _ _ (Extends.later_refl _ _)
          have e1 := d1 _ _ (Extends.later_refl _ _)
          have e2 := d2 _ _ (Extends.later_refl _ _)
          have o1 : operandAt j0 1 = operandAt i 1 := by
            rw [e0]; exact operandAt_mapSharedOperand_ne _ _ _ (by decide)
          have o2 : operandAt j1 2 = operandAt i 2 := by
            rw [e1, operandAt_mapSharedOperand_ne _ _ _ (by decide), e0]
            exact operandAt_mapSharedOperand_ne _ _ _ (by decide)
          have o3 : operandAt j2 3 = operandAt i 3 := by
            rw [e2, operandAt_mapSharedOperand_ne _ _ _ (by decide), e1,
              operandAt_mapSharedOperand_ne _ _ _ (by decide), e0]
            exact operandAt_mapSharedOperand_ne _ _ _ (by decide)
          rw [o1] at a1 b1
          rw [o2] at a2 b2
          rw [o3] at a3 b3
          refine ⟨?_, ?_, (c0.later_trans c1).later_trans (c2.later_trans c3), ?_⟩
          · simp only [references, hm, if_true, List.append_nil]
            rw [discoverAll_operands, a0]
            simp only
            rw [discoverAll_operands, a1]
            simp only
            rw [discoverAll_operands, a2]
            simp only
            rw [discoverAll_operands, a3]
            rfl
          · rw [b3, b2, b1, b0]
            simp only [externalSlots, hm, if_true]
            rw [filter_slots (fun s => (operandAt i s).addressMode = AddressMode.Address ∧
              (operandAt i s).identifier ∈ external) n]
            simp only [List.append_assoc]
          · intro pool2 map2 hext
            have x3 := d3 pool2 map2 hext
            have x2 := d2 pool2 map2 (c3.later_trans hext)
            have x1 := d1 pool2 map2 (c2.later_trans (c3.later_trans hext))
            have x0 := d0 pool2 map2 (c1.later_trans (c2.later_trans (c3.later_trans hext)))
            simp only [mapSharedInstruction, hm, if_true]
            rw [x3, x2, x1, x0]
  · simp only [hm] at h
    simp only [Bool.false_eq_true, if_false, Except.ok.injEq, Prod.mk.injEq] at h
    obtain ⟨h1, h2⟩ := h
    subst h1 h2
    refine ⟨by simp [references, hm, discoverAll], by simp [externalSlots, hm],
      Extends.later_refl _ _, ?_⟩
    intro pool2 map2 _
    simp [mapSharedInstruction, hm]

/-- The instruction loop of the shared allocator: the references are taken
in order, the operands naming extern variables are collected, and every
other operand is rewritten as if the final allocation map had been known
from the start. -/
theorem scanInstructions_spec {external : List String} {n : Nat} {st st1 : SharedScan}
    {instructions scanned : List PTXInstruction}
    (h : scanInstructions external n st instructions = .ok (st1, scanned)) :
    discoverAll external st.sharedGlobals st.space (references instructions) =
        .ok (st1.sharedGlobals, st1.space) ∧
      st1.externalOperands =
        st.externalOperands ++ externalReferences external n instructions ∧
      Extends st.sharedGlobals st.space.map st1.sharedGlobals st1.space.map ∧
      ∀ pool2 map2, Extends st1.sharedGlobals st1.space.map pool2 map2 →
        scanned = instructions.map (mapSharedInstruction external map2) := by
  induction instructions generalizing n st scanned with
  | nil =>
    simp only [scanInstructions, Except.ok.injEq, Prod.mk.injEq] at h
    obtain ⟨h1, h2⟩ := h
    subst h1 h2
    exact ⟨rfl, by simp [externalReferences], Extends.later_refl _ _, fun _ _ _ => rfl⟩
  | cons i rest ih =>
    unfold scanInstructions at h
    cases h0 : sharedInstruction external n st i with
    | error e => simp [h0] at h
    | ok r0 =>
      obtain ⟨s0, j0⟩ := r0
      simp only [h0] at h
      cases hr : scanInstructions external (n + 1) s0 rest with
      | error e => simp [hr] at h
      | ok r1 =>
        obtain ⟨s1, rest1⟩ := r1
        simp only [hr, Except.ok.injEq, Prod.mk.injEq] at h
        obtain ⟨h1, h2⟩ := h
        subst h1 h2
        obtain ⟨a0, b0, c0, d0⟩ := sharedInstruction_spec h0
        obtain ⟨a1, b1, c1, d1⟩ := ih hr
        refine ⟨?_, ?_, c0.later_trans c1, ?_⟩
        · have hsplit : references (i :: rest) = references [i] ++ references rest := by
            simp [references]
          rw [hsplit, discoverAll_append, a0]
          exact a1
        · rw [b1, b0]
          simp [externalReferences]
        · intro pool2 map2 hext
          rw [List.map_cons, ← d0 pool2 map2 (c1.later_trans hext), ← d1 pool2 map2 hext]

end LLVMExecutableKernel

/-! ## Discovery order -/

namespace LLVMExecutableKernel

theorem firstOccurrences_filter (q : String → Bool) (l : List String) :
    firstOccurrences (l.filter q) = (firstOccurrences l).filter q := by
  induction l with
  | nil => rfl
  | cons x xs ih =>
    by_cases hq : q x = true
    · simp only [List.filter_cons, hq, if_true, firstOccurrences, ih, List.filter_filter]
      congr 1
      apply List.filter_congr
      intro y _
      exact Bool.and_comm _ _
    · simp only [List.filter_cons, hq, firstOccurrences, List.filter_filter]
      simp only [Bool.false_eq_true, if_false]
      rw [ih]
      apply List.filter_congr
      intro y _
      by_cases hy : q y = true
      · have hne : y ≠ x := by
          intro h; subst h; exact hq hy
        simp [hy, hne]
      · simp [hy]

theorem mem_firstOccurrences {l : List String} {x : String} :
    x ∈ firstOccurrences l ↔ x ∈ l := by
  induction l with
  | nil => simp [firstOccurrences]
  | cons y ys ih =>
    simp only [firstOccurrences, List.mem_cons, List.mem_filter, ih]
    by_cases h : x = y
    · simp [h]
    · simp [h]

theorem nodup_firstOccurrences (l : List String) : (firstOccurrences l).Nodup := by
  induction l with
  | nil => exact List.nodup_nil
  | cons y ys ih =>
    simp only [firstOccurrences]
    refine List.nodup_cons.mpr ⟨?_, ih.filter _⟩
    simp [List.mem_filter]

theorem referencedGlobals_congr (external : List String) {p1 p2 : List PTXStatement}
    (h : ∀ key, findGlobal p1 key = findGlobal p2 key) (refs : List String) :
    referencedGlobals external p1 refs = referencedGlobals external p2 refs := by
  unfold referencedGlobals
  have hf : findGlobal p1 = findGlobal p2 := funext h
  simp only [hf]

theorem referencedGlobals_skip (external : List String) (pool : List PTXStatement)
    (key : String) (rest : List String)
    (h : key ∈ external ∨ findGlobal pool key = none) :
    referencedGlobals external pool (key :: rest) = referencedGlobals external pool rest := by
  unfold referencedGlobals
  have hq : decide (key ∉ external ∧ (findGlobal pool key).isSome = true) = false := by
    rcases h with h | h
    · simp [h]
    · simp [h]
  simp only [List.filter_cons, hq]
  rfl

theorem referencedGlobals_take (external : List String) (pool : List PTXStatement)
    (key : String) (rest : List String) (g : PTXStatement)
    (he : key ∉ external) (hf : findGlobal pool key = some g) :
    referencedGlobals external pool (key :: rest) =
      g :: referencedGlobals external (eraseGlobal pool key) rest := by
  unfold referencedGlobals
  have hq : decide (key ∉ external ∧ (findGlobal pool key).isSome = true) = true := by
    simp [he, hf]
  rw [List.filter_cons, if_pos hq]
  simp only [firstOccurrences, List.filterMap_cons, hf]
  congr 1
  have hfilter : rest.filter (fun k => decide (k ∉ external ∧
        (findGlobal (eraseGlobal pool key) k).isSome = true)) =
      (rest.filter (fun k => decide (k ∉ external ∧ (findGlobal pool k).isSome = true))).filter
        (fun y => decide (y ≠ key)) := by
    rw [List.filter_filter]
    apply List.filter_congr
    intro k _
    rw [findGlobal_erase]
    by_cases hk : k = key
    · simp [hk]
    · simp [hk]
  rw [hfilter]
  simp only [firstOccurrences_filter]
  symm
  apply List.filterMap_congr
  intro k hk
  have hne : k ≠ key := by
    have := (List.mem_filter.mp hk).2
    simpa using this
  rw [findGlobal_erase]
  simp [hne]

/-- Taking the references in order lays out, after what is already placed,
the globals of the pool in the order of their first reference. -/
theorem discoverAll_eq_layout {external : List String} {pool pool1 : List PTXStatement}
    {sp sp1 : Space} {refs : List String}
    (h : discoverAll external pool sp refs = .ok (pool1, sp1)) :
    layout sp ((referencedGlobals external pool refs).map globalDeclaration) = .ok sp1 := by
  induction refs generalizing pool sp with
  | nil =>
    simp only [discoverAll, Except.ok.injEq, Prod.mk.injEq] at h
    obtain ⟨_, h2⟩ := h
    subst h2
    rfl
  | cons key rest ih =>
    unfold discoverAll at h
    unfold discover at h
    by_cases he : key ∈ external
    · simp only [he, if_true] at h
      rw [referencedGlobals_skip _ _ _ _ (Or.inl he)]
      exact ih h
    · simp only [he, if_false] at h
      cases hf : findGlobal pool key with
      | none =>
        simp only [hf] at h
        rw [referencedGlobals_skip _ _ _ _ (Or.inr hf)]
        exact ih h
      | some g =>
        simp only [hf] at h
        cases hp : sp.place g.name g.alignment g.bytes with
        | error e => simp [hp] at h
        | ok sp0 =>
          simp only [hp] at h
          rw [referencedGlobals_take _ _ _ _ g he hf]
          simp only [List.map_cons, layout, globalDeclaration, hp]
          exact ih h

end LLVMExecutableKernel

/-! ## The loop over the extern operands -/

namespace LLVMExecutableKernel

theorem modifyInstruction_append (f : PTXInstruction → PTXInstruction)
    (pre : List PTXInstruction) (x : PTXInstruction) (xs : List PTXInstruction) :
    modifyInstruction f (pre ++ x :: xs) pre.length = pre ++ f x :: xs := by
  induction pre with
  | nil => rfl
  | cons p ps ih => simp [modifyInstruction, ih]

theorem mapExternalOperands_append (sharedSize : Nat) (l : List PTXInstruction)
    (r1 r2 : List (Nat × Fin 4)) :
    mapExternalOperands sharedSize l (r1 ++ r2) =
      mapExternalOperands sharedSize (mapExternalOperands sharedSize l r1) r2 := by
  induction r1 generalizing l with
  | nil => rfl
  | cons r rest ih =>
    obtain ⟨n, s⟩ := r
    simp only [List.cons_append, mapExternalOperands]
    exact ih _

theorem mapExternalOperands_slots (sharedSize : Nat) (pre : List PTXInstruction)
    (x : PTXInstruction) (xs : List PTXInstruction) (slots : List (Fin 4)) :
    mapExternalOperands sharedSize (pre ++ x :: xs) (slots.map (fun s => (pre.length, s))) =
      pre ++ slots.foldl (fun acc s => addSharedSize sharedSize s acc) x :: xs := by
  induction slots generalizing x with
  | nil => rfl
  | cons s rest ih =>
    simp only [List.map_cons, mapExternalOperands, modifyInstruction_append, List.foldl_cons]
    exact ih _

theorem externalSlots_congr (external : List String) {i j : PTXInstruction}
    (hm : isMovLdSt j = isMovLdSt i)
    (ho : ∀ t, (operandAt j t).addressMode = (operandAt i t).addressMode ∧
      (operandAt j t).identifier = (operandAt i t).identifier) :
    externalSlots external j = externalSlots external i := by
  unfold externalSlots
  rw [hm]
  split
  · apply List.filter_congr
    intro s _
    rw [(ho s).1, (ho s).2]
  · rfl

/-- The last loop of the shared allocator, instruction by instruction. -/
theorem mapExternalOperands_spec (external : List String) (sharedSize : Nat)
    (f : PTXInstruction → PTXInstruction) (pre instructions : List PTXInstruction) :
    mapExternalOperands sharedSize (pre ++ instructions.map f)
        (externalReferences external pre.length instructions) =
      pre ++ instructions.map (fun i =>
        (externalSlots external i).foldl (fun acc s => addSharedSize sharedSize s acc) (f i)) := by
  induction instructions generalizing pre with
  | nil => simp [externalReferences, mapExternalOperands]
  | cons i rest ih =>
    simp only [externalReferences, List.map_cons, mapExternalOperands_append,
      mapExternalOperands_slots]
    have h := ih (pre ++ [(externalSlots external i).foldl
      (fun acc s => addSharedSize sharedSize s acc) (f i)])
    simp only [List.length_append, List.length_singleton, List.append_assoc,
      List.singleton_append] at h
    exact h

end LLVMExecutableKernel

/-! ## The shared allocator as a whole -/

namespace LLVMExecutableKernel

theorem layout_append (sp : Space) (a b : List Declaration) :
    layout sp (a ++ b) =
      match layout sp a with
      | .error e => .error e
      | .ok sp1 => layout sp1 b := by
  induction a generalizing sp with
  | nil => rfl
  | cons d ds ih =>
    simp only [List.cons_append, layout]
    cases hp : sp.place d.name d.alignment d.bytes with
    | error e => rfl
    | ok sp0 => exact ih sp0

theorem le_foldl_max (l : List Nat) (init : Nat) : init ≤ l.foldl max init := by
  induction l generalizing init with
  | nil => exact le_refl _
  | cons x xs ih => exact le_trans (le_max_left init x) (ih (max init x))

theorem maximumExternalAlignment_pos (globals : List PTXStatement) (locals : List Local) :
    0 < maximumExternalAlignment globals locals :=
  Nat.lt_of_lt_of_le Nat.zero_lt_one (le_foldl_max _ 1)

/-- What `_allocateSharedMemory` computes: the extern names and their largest
alignment, the layout of the sized shared variables in discovery order, the
final padding, and the instructions. -/
theorem allocateSharedMemory_spec {globals : List PTXStatement} {locals : List Local}
    {instructions : List PTXInstruction} {r : SharedMemory}
    (h : _allocateSharedMemory globals locals instructions = .ok r) :
    r.externals.external = externalNames globals locals ∧
      r.externals.externalAlignment = maximumExternalAlignment globals locals ∧
      layout Space.empty (discoveryOrder globals locals instructions) = .ok r.space ∧
      _pad r.space.size (maximumExternalAlignment globals locals) =
        .ok (r.sharedSize, r.trailingPadding) ∧
      r.externalOperands = externalReferences (externalNames globals locals) 0 instructions ∧
      r.instructions = instructions.map
        (finishSharedInstruction (externalNames globals locals) r.space.map r.sharedSize) := by
  unfold _allocateSharedMemory at h
  cases hg : scanGlobals { external := [], externalAlignment := 1 } [] globals with
  | error e => simp [hg] at h
  | ok rg =>
    obtain ⟨x0, pool⟩ := rg
    simp only [hg] at h
    cases hl : scanLocals x0 Space.empty locals with
    | error e => simp [hl] at h
    | ok rl =>
      obtain ⟨x, sp⟩ := rl
      simp only [hl] at h
      cases hi : scanInstructions x.external 0
          { sharedGlobals := pool, space := sp, externalOperands := [] } instructions with
      | error e => simp [hi] at h
      | ok ri =>
        obtain ⟨st, scanned⟩ := ri
        simp only [hi] at h
        cases hp : _pad st.space.size x.externalAlignment with
        | error e => simp [hp] at h
        | ok rp =>
          obtain ⟨sharedSize, padding⟩ := rp
          simp only [hp, Except.ok.injEq] at h
          subst h
          obtain ⟨g1, g2, g3, _⟩ := scanGlobals_inv hg
          obtain ⟨l1, l2, l3⟩ := scanLocals_inv hl
          obtain ⟨i1, i2, _, i4⟩ := scanInstructions_spec hi
          have hext : x.external = externalNames globals locals := by
            rw [l1, g1]; simp [externalNames]
          have halign : x.externalAlignment = maximumExternalAlignment globals locals := by
            rw [l2, g2]
            simp [maximumExternalAlignment, externalAlignments, List.foldl_append]
          have hpool : ∀ key, findGlobal pool key = findGlobal (sizedSharedGlobals globals) key := by
            intro key; simpa using g3 key
          simp only at i1 i2
          refine ⟨hext, halign, ?_, ?_, ?_, ?_⟩
          · unfold discoveryOrder
            rw [layout_append, l3]
            simp only
            rw [← referencedGlobals_congr _ hpool, ← hext]
            exact discoverAll_eq_layout i1
          · simpa [halign] using hp
          · simp only [i2, hext, List.nil_append]
          · simp only
            rw [i4 _ _ (Extends.later_refl _ _), i2, List.nil_append]
            have := mapExternalOperands_spec x.external sharedSize
              (mapSharedInstruction x.external st.space.map) [] instructions
            simp only [List.nil_append, List.length_nil] at this
            rw [this, hext]
            rfl

theorem sharedOperand_total (external : List String) (n : Nat) (st : SharedScan)
    (i : PTXInstruction) (slot : Fin 4) (ha : ∀ g ∈ st.sharedGlobals, 0 < g.alignment) :
    ∃ r, sharedOperand external n st i slot = .ok r ∧ ∀ g ∈ r.1.sharedGlobals, 0 < g.alignment := by
  unfold sharedOperand
  by_cases hm : (operandAt i slot).addressMode = AddressMode.Address
  · by_cases he : (operandAt i slot).identifier ∈ external
    · simp only [hm, he, if_true]
      exact ⟨_, rfl, ha⟩
    · cases hf : findGlobal st.sharedGlobals (operandAt i slot).identifier with
      | none =>
        simp only [hm, he, if_true, if_false, hf]
        exact ⟨_, rfl, ha⟩
      | some g =>
        obtain ⟨sp1, h1⟩ := Space.place_total st.space g.name g.bytes (ha g (findGlobal_some hf).1)
        simp only [hm, he, if_true, if_false, hf, h1]
        refine ⟨_, rfl, ?_⟩
        intro y hy
        exact ha y (mem_eraseGlobal hy)
  · simp only [hm, if_false]
    exact ⟨_, rfl, ha⟩

theorem sharedInstruction_total (external : List String) (n : Nat) (st : SharedScan)
    (i : PTXInstruction) (ha : ∀ g ∈ st.sharedGlobals, 0 < g.alignment) :
    ∃ r, sharedInstruction external n st i = .ok r ∧
      ∀ g ∈ r.1.sharedGlobals, 0 < g.alignment := by
  unfold sharedInstruction
  by_cases hm : isMovLdSt i = true
  · obtain ⟨r0, h0, a0⟩ := sharedOperand_total external n st i 0 ha
    obtain ⟨r1, h1, a1⟩ := sharedOperand_total external n r0.1 r0.2 1 a0
    obtain ⟨r2, h2, a2⟩ := sharedOperand_total external n r1.1 r1.2 2 a1
    obtain ⟨r3, h3, a3⟩ := sharedOperand_total external n r2.1 r2.2 3 a2
    simp only [hm, if_true, h0, h1, h2, h3]
    exact ⟨r3, rfl, a3⟩
  · simp only [hm]
    exact ⟨(st, i), rfl, ha⟩

theorem scanInstructions_total (external : List String) (n : Nat) (st : SharedScan)
    (instructions : List PTXInstruction) (ha : ∀ g ∈ st.sharedGlobals, 0 < g.alignment) :
    ∃ r, scanInstructions external n st instructions = .ok r := by
  induction instructions generalizing n st with
  | nil => exact ⟨(st, []), rfl⟩
  | cons i rest ih =>
    obtain ⟨r0, h0, a0⟩ := sharedInstruction_total external n st i ha
    obtain ⟨r1, h1⟩ := ih (n + 1) r0.1 a0
    exact ⟨(r1.1, r0.2 :: r1.2), by simp [scanInstructions, h0, h1]⟩

/-- The shared allocator returns when the extern names are distinct and the
sized shared variables have positive alignments. -/
theorem allocateSharedMemory_total (globals : List PTXStatement) (locals : List Local)
    (instructions : List PTXInstruction)
    (hx : (externalNames globals locals).Nodup)
    (hl : ∀ l ∈ sizedSharedLocals locals, 0 < l.alignment)
    (hg : ∀ g ∈ sizedSharedGlobals globals, 0 < g.alignment) :
    ∃ r, _allocateSharedMemory globals locals instructions = .ok r := by
  unfold externalNames at hx
  have hx1 : (({ external := [], externalAlignment := 1 } : Externals).external ++
      (externSharedGlobals globals).map PTXStatement.name).Nodup := by
    simpa using (List.nodup_append.mp hx).1
  obtain ⟨⟨x0, pool⟩, h1⟩ := scanGlobals_total { external := [], externalAlignment := 1 } [] hx1
  obtain ⟨g1, g2, _, g4⟩ := scanGlobals_inv h1
  have hx2 : (x0.external ++ (externSharedLocals locals).map Local.name).Nodup := by
    rw [g1]; simpa using hx
  obtain ⟨⟨x, sp⟩, h2⟩ := scanLocals_total x0 Space.empty hx2 hl
  obtain ⟨l1, l2, _⟩ := scanLocals_inv h2
  obtain ⟨ri, h3⟩ := scanInstructions_total x.external 0
    { sharedGlobals := pool, space := sp, externalOperands := [] } instructions
    (by
      intro g hgm
      rcases g4 g hgm with hgm | hgm
      · cases hgm
      · exact hg g hgm)
  have hpos : 0 < x.externalAlignment := by
    rw [l2]
    exact Nat.lt_of_lt_of_le (Nat.lt_of_lt_of_le Nat.zero_lt_one (le_foldl_max _ 1))
      (by rw [g2]; exact le_foldl_max _ _)
  obtain ⟨s1, p1, h4⟩ := pad_total ri.1.space.size x.externalAlignment hpos
  simp only [_allocateSharedMemory, h1, h2, h3, h4]
  exact ⟨_, rfl⟩

end LLVMExecutableKernel

/-! ## What each allocator returns -/

namespace LLVMExecutableKernel

theorem layout_laidOut {ds : List Declaration} {sp : Space}
    (h : layout Space.empty ds = .ok sp) : sp.LaidOut ds := by
  obtain ⟨h1, _, h3⟩ := layout_inv Space.empty_inv h
  exact ⟨by simpa [Space.empty] using h3, h1, layout_mapped Space.empty_mapped h⟩

theorem Space.LaidOut.sizes {sp : Space} {ds : List Declaration} (h : sp.LaidOut ds) :
    (sp.placed.map Placement.size).sum = (ds.map Declaration.bytes).sum := by
  rw [← h.1]
  simp [Placement.declaration, Function.comp_def]

theorem Space.LaidOut.find_eq_none {sp : Space} {ds : List Declaration} (h : sp.LaidOut ds)
    {key : String} (hk : key ∉ ds.map Declaration.name) :
    AllocationMap.find sp.map key = none := by
  rw [h.2.2 key, firstOffset_eq_none, placed_names h.1]
  exact hk

theorem Space.LaidOut.find_isSome {sp : Space} {ds : List Declaration} (h : sp.LaidOut ds)
    {key : String} (hk : key ∈ ds.map Declaration.name) :
    ∃ offset, AllocationMap.find sp.map key = some offset := by
  cases hf : AllocationMap.find sp.map key with
  | some v => exact ⟨v, rfl⟩
  | none =>
    rw [h.2.2 key, firstOffset_eq_none, placed_names h.1] at hf
    exact absurd hk hf

theorem allocateParameterMemory_spec {parameters ps : List Parameter}
    {instructions rewritten : List PTXInstruction} {sp : Space}
    (h : _allocateParameterMemory parameters instructions = .ok (sp, ps, rewritten)) :
    sp.LaidOut (parameters.map parameterDeclaration) ∧
      ps.map parameterDeclaration = parameters.map parameterDeclaration ∧
      sp.placed.map Placement.offset = ps.map Parameter.offset ∧
      (∀ p ∈ ps, p.alignment ∣ p.offset) ∧
      rewritten = instructions.map (mapInstruction none sp.map) ∧
      sp.placed.map (fun p => (p.offset, p.size)) = ps.map (fun p => (p.offset, p.size)) := by
  unfold _allocateParameterMemory at h
  cases hp : placeParameters Space.empty parameters with
  | error e => simp [hp] at h
  | ok r =>
    obtain ⟨sp0, ps0⟩ := r
    simp only [hp, Except.ok.injEq, Prod.mk.injEq] at h
    obtain ⟨h1, h2, h3⟩ := h
    subst h1 h2 h3
    obtain ⟨i1, i2, i3, i4, i5⟩ := placeParameters_inv hp
    exact ⟨layout_laidOut i1, i2, by simpa [Space.empty] using i3, i4, rfl,
      by simpa [Space.empty] using i5⟩

theorem allocateParameterMemory_total (parameters : List Parameter)
    (instructions : List PTXInstruction) (h : ∀ p ∈ parameters, 0 < p.alignment) :
    ∃ r, _allocateParameterMemory parameters instructions = .ok r := by
  obtain ⟨r, hr⟩ := placeParameters_total Space.empty h
  simp only [_allocateParameterMemory, hr]
  exact ⟨_, rfl⟩

theorem allocateLocalMemory_spec {locals : List Local}
    {instructions rewritten : List PTXInstruction} {barrierSupport : Bool} {resumePoint : String}
    {previous offset : Nat} {sp : Space}
    (h : _allocateLocalMemory locals instructions barrierSupport resumePoint previous =
      .ok (sp, rewritten, offset)) :
    sp.LaidOut ((localVariables locals).map localDeclaration) ∧
      rewritten = instructions.map (mapInstruction (some AddressSpace.Local) sp.map) := by
  unfold _allocateLocalMemory at h
  cases hp : placeLocals Space.empty locals with
  | error e => simp [hp] at h
  | ok sp0 =>
    simp only [hp] at h
    rw [placeLocals_eq_layout] at hp
    cases barrierSupport with
    | false =>
      simp only [Bool.false_eq_true, if_false, Except.ok.injEq, Prod.mk.injEq] at h
      obtain ⟨h1, h2, _⟩ := h
      subst h1 h2
      exact ⟨layout_laidOut hp, rfl⟩
    | true =>
      simp only [if_true] at h
      cases hf : AllocationMap.find sp0.map resumePoint with
      | none => simp [hf] at h
      | some v =>
        simp only [hf, Except.ok.injEq, Prod.mk.injEq] at h
        obtain ⟨h1, h2, _⟩ := h
        subst h1 h2
        exact ⟨layout_laidOut hp, rfl⟩

theorem allocateLocalMemory_total (locals : List Local) (instructions : List PTXInstruction)
    (barrierSupport : Bool) (resumePoint : String) (previous : Nat)
    (h : ∀ l ∈ localVariables locals, 0 < l.alignment)
    (hb : barrierSupport = true → resumePoint ∈ (localVariables locals).map Local.name) :
    ∃ r, _allocateLocalMemory locals instructions barrierSupport resumePoint previous = .ok r := by
  have hpos : ∀ d ∈ (localVariables locals).map localDeclaration, 0 < d.alignment := by
    intro d hd
    obtain ⟨l, hl, rfl⟩ := List.mem_map.mp hd
    exact h l hl
  obtain ⟨sp, hsp⟩ := layout_total Space.empty hpos
  have hlaid := layout_laidOut hsp
  rw [← placeLocals_eq_layout] at hsp
  unfold _allocateLocalMemory
  simp only [hsp]
  cases barrierSupport with
  | false => exact ⟨_, rfl⟩
  | true =>
    have hmem : resumePoint ∈
        ((localVariables locals).map localDeclaration).map Declaration.name := by
      simpa [localDeclaration, Function.comp_def] using hb rfl
    obtain ⟨v, hv⟩ := hlaid.find_isSome hmem
    simp only [if_true, hv]
    exact ⟨_, rfl⟩

theorem allocateConstantMemory_spec {globals : List PTXStatement}
    {instructions rewritten : List PTXInstruction} {sp : Space}
    (h : _allocateConstantMemory globals instructions = .ok (sp, rewritten)) :
    sp.LaidOut ((constantVariables globals).map globalDeclaration) ∧
      rewritten = instructions.map (mapInstruction (some AddressSpace.Const) sp.map) := by
  unfold _allocateConstantMemory at h
  cases hp : placeConstants Space.empty globals with
  | error e => simp [hp] at h
  | ok sp0 =>
    simp only [hp, Except.ok.injEq, Prod.mk.injEq] at h
    obtain ⟨h1, h2⟩ := h
    subst h1 h2
    rw [placeConstants_eq_layout] at hp
    exact ⟨layout_laidOut hp, rfl⟩

theorem allocateConstantMemory_total (globals : List PTXStatement)
    (instructions : List PTXInstruction) (h : ∀ g ∈ constantVariables globals, 0 < g.alignment) :
    ∃ r, _allocateConstantMemory globals instructions = .ok r := by
  have hpos : ∀ d ∈ (constantVariables globals).map globalDeclaration, 0 < d.alignment := by
    intro d hd
    obtain ⟨g, hg, rfl⟩ := List.mem_map.mp hd
    exact h g hg
  obtain ⟨sp, hsp⟩ := layout_total Space.empty hpos
  rw [← placeConstants_eq_layout] at hsp
  simp only [_allocateConstantMemory, hsp]
  exact ⟨_, rfl⟩

theorem allocateSharedMemory_laidOut {globals : List PTXStatement} {locals : List Local}
    {instructions : List PTXInstruction} {r : SharedMemory}
    (h : _allocateSharedMemory globals locals instructions = .ok r) :
    r.space.LaidOut (discoveryOrder globals locals instructions) :=
  layout_laidOut (allocateSharedMemory_spec h).2.2.1

end LLVMExecutableKernel

/-! ## Offsets, sizes and non-overlap (C2, C3, C4) -/

namespace LLVMExecutableKernel

/-- The facts of C2 about a space that lays out the declarations `ds`: every
recorded offset is a multiple of the alignment of its variable, and the size
of the space is the sum of the sizes of the variables plus the sum of the
paddings that `_pad` returned. -/
theorem Space.LaidOut.aligned_and_summed {sp : Space} {ds : List Declaration}
    (h : sp.LaidOut ds) :
    (∀ p ∈ sp.placed, p.alignment ∣ p.offset) ∧
      sp.size = (ds.map Declaration.bytes).sum + (sp.placed.map Placement.padding).sum := by
  refine ⟨fun p hq => (chained_aligned h.2.1 p hq).2, ?_⟩
  have ht := chained_total h.2.1
  have hs := h.sizes
  omega

/-- C2: when every declared variable has a positive alignment, the parameter
and the constant allocator return, and so do the local and the shared
allocator when their assertions hold (with barrier support the resume point is
a local variable; the extern shared names are distinct).  Whenever an allocator
returns, its log lists the variables it was given in processing order with the
offset and the padding that `_pad` returned for each, every recorded offset is
a multiple of the alignment of its variable, and the computed size of the
space is the sum of the sizes of the variables plus the sum of the paddings
(for the shared space: including the padding of the final `_pad`). -/
theorem allocated_offsets_aligned_and_size_is_sum
    (parameters : List Parameter) (locals : List Local) (globals : List PTXStatement)
    (instructions : List PTXInstruction) (barrierSupport : Bool) (resumePoint : String)
    (previous : Nat)
    (hp : ∀ p ∈ parameters, 0 < p.alignment)
    (hl : ∀ l ∈ locals, 0 < l.alignment)
    (hg : ∀ g ∈ globals, 0 < g.alignment) :
    (∃ sp ps rewritten,
        _allocateParameterMemory parameters instructions = .ok (sp, ps, rewritten) ∧
        sp.LaidOut (parameters.map parameterDeclaration) ∧
        ps.map parameterDeclaration = parameters.map parameterDeclaration ∧
        ps.map Parameter.offset = sp.placed.map Placement.offset ∧
        (∀ p ∈ ps, p.alignment ∣ p.offset) ∧
        (∀ p ∈ sp.placed, p.alignment ∣ p.offset) ∧
        sp.size = (parameters.map Parameter.size).sum + (sp.placed.map Placement.padding).sum) ∧
    (((barrierSupport = true → resumePoint ∈ (localVariables locals).map Local.name) →
        ∃ r, _allocateLocalMemory locals instructions barrierSupport resumePoint previous =
          .ok r) ∧
      ∀ sp rewritten offset,
        _allocateLocalMemory locals instructions barrierSupport resumePoint previous =
          .ok (sp, rewritten, offset) →
        sp.LaidOut ((localVariables locals).map localDeclaration) ∧
        (∀ p ∈ sp.placed, p.alignment ∣ p.offset) ∧
        sp.size = ((localVariables locals).map Local.size).sum +
          (sp.placed.map Placement.padding).sum) ∧
    (∃ sp rewritten,
        _allocateConstantMemory globals instructions = .ok (sp, rewritten) ∧
        sp.LaidOut ((constantVariables globals).map globalDeclaration) ∧
        (∀ p ∈ sp.placed, p.alignment ∣ p.offset) ∧
        sp.size = ((constantVariables globals).map PTXStatement.bytes).sum +
          (sp.placed.map Placement.padding).sum) ∧
    (((externalNames globals locals).Nodup →
        ∃ r, _allocateSharedMemory globals locals instructions = .ok r) ∧
      ∀ r, _allocateSharedMemory globals locals instructions = .ok r →
        r.space.LaidOut (discoveryOrder globals locals instructions) ∧
        (∀ p ∈ r.space.placed, p.alignment ∣ p.offset) ∧
        _pad r.space.size (maximumExternalAlignment globals locals) =
          .ok (r.sharedSize, r.trailingPadding) ∧
        r.sharedSize = ((discoveryOrder globals locals instructions).map Declaration.bytes).sum +
          ((r.space.placed.map Placement.padding).sum + r.trailingPadding)) := by
  refine ⟨?_, ⟨?_, ?_⟩, ?_, ⟨?_, ?_⟩⟩
  · obtain ⟨⟨sp, ps, rewritten⟩, h⟩ := allocateParameterMemory_total parameters instructions hp
    obtain ⟨h1, h2, h3, h4, _⟩ := allocateParameterMemory_spec h
    obtain ⟨a1, a2⟩ := h1.aligned_and_summed
    refine ⟨sp, ps, rewritten, h, h1, h2, h3.symm, h4, a1, ?_⟩
    rw [a2]
    simp [List.map_map, Function.comp_def, parameterDeclaration]
  · intro hb
    exact allocateLocalMemory_total locals instructions barrierSupport resumePoint previous
      (fun l hm => hl l (List.mem_filter.mp hm).1) hb
  · intro sp rewritten offset h
    obtain ⟨h1, _⟩ := allocateLocalMemory_spec h
    obtain ⟨a1, a2⟩ := h1.aligned_and_summed
    refine ⟨h1, a1, ?_⟩
    rw [a2]
    simp [List.map_map, Function.comp_def, localDeclaration]
  · obtain ⟨⟨sp, rewritten⟩, h⟩ := allocateConstantMemory_total globals instructions
      (fun g hm => hg g (List.mem_filter.mp hm).1)
    obtain ⟨h1, _⟩ := allocateConstantMemory_spec h
    obtain ⟨a1, a2⟩ := h1.aligned_and_summed
    refine ⟨sp, rewritten, h, h1, a1, ?_⟩
    rw [a2]
    simp [List.map_map, Function.comp_def, globalDeclaration]
  · intro hx
    exact allocateSharedMemory_total globals locals instructions hx
      (fun l hm => hl l (List.mem_filter.mp hm).1)
      (fun g hm => hg g (List.mem_filter.mp hm).1)
  · intro r h
    have h1 := allocateSharedMemory_laidOut h
    have hpadded := (allocateSharedMemory_spec h).2.2.2.1
    obtain ⟨a1, a2⟩ := h1.aligned_and_summed
    refine ⟨h1, a1, hpadded, ?_⟩
    have hp2 := (pad_inv hpadded).2.1
    omega

end LLVMExecutableKernel

namespace LLVMExecutableKernel

/-- C2 on the sample kernel, with barrier support and resume point `resume`:
the four allocators return, and the sizes they compute are 16, 12, 12 and
32. -/
theorem allocated_offsets_aligned_and_size_is_sum_witness :
    ((∀ p ∈ Sample.parameters, 0 < p.alignment) ∧ (∀ l ∈ Sample.locals, 0 < l.alignment) ∧
      (∀ g ∈ Sample.globals, 0 < g.alignment)) ∧
    (∃ sp ps rewritten,
        _allocateParameterMemory Sample.parameters Sample.instructions = .ok (sp, ps, rewritten) ∧
        sp.size = 16 ∧
        sp.size = (Sample.parameters.map Parameter.size).sum +
          (sp.placed.map Placement.padding).sum) ∧
    (∃ sp rewritten offset,
        _allocateLocalMemory Sample.locals Sample.instructions true "resume" 0 =
          .ok (sp, rewritten, offset) ∧
        sp.size = 12 ∧
        sp.size = ((localVariables Sample.locals).map Local.size).sum +
          (sp.placed.map Placement.padding).sum) ∧
    (∃ sp rewritten,
        _allocateConstantMemory Sample.globals Sample.instructions = .ok (sp, rewritten) ∧
        sp.size = 12 ∧
        sp.size = ((constantVariables Sample.globals).map PTXStatement.bytes).sum +
          (sp.placed.map Placement.padding).sum) ∧
    (∃ r, _allocateSharedMemory Sample.globals Sample.locals Sample.instructions = .ok r ∧
        r.sharedSize = 32 ∧
        r.sharedSize =
          ((discoveryOrder Sample.globals Sample.locals Sample.instructions).map
            Declaration.bytes).sum +
          ((r.space.placed.map Placement.padding).sum + r.trailingPadding)) :=
  have h := allocated_offsets_aligned_and_size_is_sum Sample.parameters Sample.locals
    Sample.globals Sample.instructions true "resume" 0 (by decide) (by decide) (by decide)
  ⟨⟨by decide, by decide, by decide⟩,
    ⟨_, _, _, rfl, rfl, rfl⟩,
    ⟨_, _, _, rfl, rfl, (h.2.1.2 _ _ _ rfl).2.2⟩,
    ⟨_, _, rfl, rfl, rfl⟩,
    ⟨_, rfl, rfl, (h.2.2.2.2 _ rfl).2.2.2⟩⟩

end LLVMExecutableKernel

namespace LLVMExecutableKernel

/-- The byte ranges of a laid-out space follow one another. -/
theorem Space.LaidOut.disjoint {sp : Space} {ds : List Declaration} (h : sp.LaidOut ds) :
    sp.placed.Pairwise (fun p q => p.offset + p.size ≤ q.offset) :=
  chained_disjoint h.2.1

/-- The parameters carry the offsets and sizes of the log, so their byte
ranges follow one another as those of the log do. -/
theorem parameters_disjoint {sp : Space} {ps : List Parameter}
    (hpairs : sp.placed.map (fun p => (p.offset, p.size)) = ps.map (fun p => (p.offset, p.size)))
    (h : sp.placed.Pairwise (fun p q => p.offset + p.size ≤ q.offset)) :
    ps.Pairwise (fun p q => p.offset + p.size ≤ q.offset) := by
  have h1 : (sp.placed.map (fun p => (p.offset, p.size))).Pairwise
      (fun x y => x.1 + x.2 ≤ y.1) := List.pairwise_map.mpr h
  rw [hpairs] at h1
  exact List.pairwise_map.mp h1

/-- C3, counterexample: a parameter of size zero followed by a parameter of
the same alignment; both are given offset 0. -/
theorem zero_size_parameter_shares_offset :
    _allocateParameterMemory
        [{ name := "a", size := 0, alignment := 4, offset := 0 },
         { name := "b", size := 4, alignment := 4, offset := 0 }] [] =
      .ok ({ size := 4, map := [("a", 0), ("b", 0)],
             placed := [{ name := "a", offset := 0, size := 0, alignment := 4, padding := 0 },
                        { name := "b", offset := 0, size := 4, alignment := 4, padding := 0 }] },
           [{ name := "a", size := 0, alignment := 4, offset := 0 },
            { name := "b", size := 4, alignment := 4, offset := 0 }], []) ∧
    ¬ ([(0 : Nat), 0]).Nodup :=
  ⟨rfl, by decide⟩

/-- C3, amended: in every layout an allocator returns, the offsets of two
variables of one address space differ whenever the one processed first has a
non-zero size (it then lies strictly below the other). -/
theorem allocated_offsets_differ_after_nonempty_variable
    (parameters : List Parameter) (locals : List Local) (globals : List PTXStatement)
    (instructions : List PTXInstruction) (barrierSupport : Bool) (resumePoint : String)
    (previous : Nat) :
    (∀ sp ps rewritten,
        _allocateParameterMemory parameters instructions = .ok (sp, ps, rewritten) →
        ps.Pairwise (fun p q => 0 < p.size → p.offset < q.offset ∧ p.offset ≠ q.offset)) ∧
    (∀ sp rewritten offset,
        _allocateLocalMemory locals instructions barrierSupport resumePoint previous =
          .ok (sp, rewritten, offset) →
        sp.placed.Pairwise (fun p q => 0 < p.size → p.offset < q.offset ∧ p.offset ≠ q.offset)) ∧
    (∀ sp rewritten,
        _allocateConstantMemory globals instructions = .ok (sp, rewritten) →
        sp.placed.Pairwise (fun p q => 0 < p.size → p.offset < q.offset ∧ p.offset ≠ q.offset)) ∧
    (∀ r, _allocateSharedMemory globals locals instructions = .ok r →
        r.space.placed.Pairwise
          (fun p q => 0 < p.size → p.offset < q.offset ∧ p.offset ≠ q.offset)) := by
  refine ⟨?_, ?_, ?_, ?_⟩
  · intro sp ps rewritten h
    obtain ⟨h1, _, _, _, _, h6⟩ := allocateParameterMemory_spec h
    refine (parameters_disjoint h6 h1.disjoint).imp ?_
    intro p q hpq hpos
    exact ⟨by omega, by omega⟩
  · intro sp rewritten offset h
    refine (allocateLocalMemory_spec h).1.disjoint.imp ?_
    intro p q hpq hpos
    exact ⟨by omega, by omega⟩
  · intro sp rewritten h
    refine (allocateConstantMemory_spec h).1.disjoint.imp ?_
    intro p q hpq hpos
    exact ⟨by omega, by omega⟩
  · intro r h
    refine (allocateSharedMemory_laidOut h).disjoint.imp ?_
    intro p q hpq hpos
    exact ⟨by omega, by omega⟩

/-- C3, amended, on the sample kernel: the four allocators return, and the
offsets obey the statement. -/
theorem allocated_offsets_differ_after_nonempty_variable_witness :
    (∃ sp ps rewritten,
        _allocateParameterMemory Sample.parameters Sample.instructions = .ok (sp, ps, rewritten) ∧
        ps.Pairwise (fun p q => 0 < p.size → p.offset < q.offset ∧ p.offset ≠ q.offset)) ∧
    (∃ sp rewritten offset,
        _allocateLocalMemory Sample.locals Sample.instructions true "resume" 0 =
          .ok (sp, rewritten, offset) ∧
        sp.placed.Pairwise (fun p q => 0 < p.size → p.offset < q.offset ∧ p.offset ≠ q.offset)) ∧
    (∃ sp rewritten,
        _allocateConstantMemory Sample.globals Sample.instructions = .ok (sp, rewritten) ∧
        sp.placed.Pairwise (fun p q => 0 < p.size → p.offset < q.offset ∧ p.offset ≠ q.offset)) ∧
    (∃ r, _allocateSharedMemory Sample.globals Sample.locals Sample.instructions = .ok r ∧
        r.space.placed.Pairwise
          (fun p q => 0 < p.size → p.offset < q.offset ∧ p.offset ≠ q.offset)) :=
  have h := allocated_offsets_differ_after_nonempty_variable Sample.parameters Sample.locals
    Sample.globals Sample.instructions true "resume" 0
  ⟨⟨_, _, _, rfl, h.1 _ _ _ rfl⟩, ⟨_, _, _, rfl, h.2.1 _ _ _ rfl⟩,
    ⟨_, _, rfl, h.2.2.1 _ _ rfl⟩, ⟨_, rfl, h.2.2.2 _ rfl⟩⟩

/-- C4: in every layout an allocator returns, the offsets are non-decreasing
in processing order and the byte ranges do not overlap: for two variables
processed in this order, the offset of the first plus its size is at most
the offset of the second. -/
theorem allocated_ranges_ordered_and_disjoint
    (parameters : List Parameter) (locals : List Local) (globals : List PTXStatement)
    (instructions : List PTXInstruction) (barrierSupport : Bool) (resumePoint : String)
    (previous : Nat) :
    (∀ sp ps rewritten,
        _allocateParameterMemory parameters instructions = .ok (sp, ps, rewritten) →
        ps.Pairwise (fun p q => p.offset ≤ q.offset ∧ p.offset + p.size ≤ q.offset)) ∧
    (∀ sp rewritten offset,
        _allocateLocalMemory locals instructions barrierSupport resumePoint previous =
          .ok (sp, rewritten, offset) →
        sp.placed.Pairwise (fun p q => p.offset ≤ q.offset ∧ p.offset + p.size ≤ q.offset)) ∧
    (∀ sp rewritten,
        _allocateConstantMemory globals instructions = .ok (sp, rewritten) →
        sp.placed.Pairwise (fun p q => p.offset ≤ q.offset ∧ p.offset + p.size ≤ q.offset)) ∧
    (∀ r, _allocateSharedMemory globals locals instructions = .ok r →
        r.space.placed.Pairwise (fun p q => p.offset ≤ q.offset ∧ p.offset + p.size ≤ q.offset) ∧
        ∀ p ∈ r.space.placed, p.offset + p.size ≤ r.sharedSize) := by
  refine ⟨?_, ?_, ?_, ?_⟩
  · intro sp ps rewritten h
    obtain ⟨h1, _, _, _, _, h6⟩ := allocateParameterMemory_spec h
    refine (parameters_disjoint h6 h1.disjoint).imp ?_
    intro p q hpq
    exact ⟨by omega, hpq⟩
  · intro sp rewritten offset h
    refine (allocateLocalMemory_spec h).1.disjoint.imp ?_
    intro p q hpq
    exact ⟨by omega, hpq⟩
  · intro sp rewritten h
    refine (allocateConstantMemory_spec h).1.disjoint.imp ?_
    intro p q hpq
    exact ⟨by omega, hpq⟩
  · intro r h
    refine ⟨(allocateSharedMemory_laidOut h).disjoint.imp ?_, ?_⟩
    · intro p q hpq
      exact ⟨by omega, hpq⟩
    · intro p hp
      have h1 := ((chained_bounds (allocateSharedMemory_laidOut h).2.1).2 p hp).2
      have h2 := (pad_inv (allocateSharedMemory_spec h).2.2.2.1).2.1
      omega

/-- C4 on the sample kernel: the four allocators return, and the byte ranges
follow one another. -/
theorem allocated_ranges_ordered_and_disjoint_witness :
    (∃ sp ps rewritten,
        _allocateParameterMemory Sample.parameters Sample.instructions = .ok (sp, ps, rewritten) ∧
        ps.Pairwise (fun p q => p.offset ≤ q.offset ∧ p.offset + p.size ≤ q.offset)) ∧
    (∃ sp rewritten offset,
        _allocateLocalMemory Sample.locals Sample.instructions true "resume" 0 =
          .ok (sp, rewritten, offset) ∧
        sp.placed.Pairwise (fun p q => p.offset ≤ q.offset ∧ p.offset + p.size ≤ q.offset)) ∧
    (∃ sp rewritten,
        _allocateConstantMemory Sample.globals Sample.instructions = .ok (sp, rewritten) ∧
        sp.placed.Pairwise (fun p q => p.offset ≤ q.offset ∧ p.offset + p.size ≤ q.offset)) ∧
    (∃ r, _allocateSharedMemory Sample.globals Sample.locals Sample.instructions = .ok r ∧
        r.space.placed.Pairwise (fun p q => p.offset ≤ q.offset ∧ p.offset + p.size ≤ q.offset) ∧
        ∀ p ∈ r.space.placed, p.offset + p.size ≤ r.sharedSize) :=
  have h := allocated_ranges_ordered_and_disjoint Sample.parameters Sample.locals
    Sample.globals Sample.instructions true "resume" 0
  ⟨⟨_, _, _, rfl, h.1 _ _ _ rfl⟩, ⟨_, _, _, rfl, h.2.1 _ _ _ rfl⟩,
    ⟨_, _, rfl, h.2.2.1 _ _ rfl⟩, ⟨_, rfl, h.2.2.2 _ rfl⟩⟩

end LLVMExecutableKernel

/-! ## What the shared allocator does to an operand -/

namespace LLVMExecutableKernel

theorem operandAt_mapSharedOperand (external : List String) (map : AllocationMap)
    (i : PTXInstruction) (s t : Fin 4) :
    operandAt (mapSharedOperand external map i s) t =
      if t = s ∧ ¬ ((operandAt i t).addressMode = AddressMode.Address ∧
          (operandAt i t).identifier ∈ external) then rewriteOperand map (operandAt i t)
      else operandAt i t := by
  by_cases hts : t = s
  · subst hts
    unfold mapSharedOperand
    by_cases hc : (operandAt i t).addressMode = AddressMode.Address ∧
        (operandAt i t).identifier ∈ external
    · simp [hc]
    · simp only [hc, if_false, operandAt_mapOperand, true_and, not_false_eq_true, if_true]
  · rw [operandAt_mapSharedOperand_ne _ _ _ hts]
    simp [hts]

theorem operandAt_mapSharedInstruction (external : List String) (map : AllocationMap)
    (i : PTXInstruction) (t : Fin 4) :
    operandAt (mapSharedInstruction external map i) t =
      if isMovLdSt i = true ∧ ¬ ((operandAt i t).addressMode = AddressMode.Address ∧
          (operandAt i t).identifier ∈ external) then rewriteOperand map (operandAt i t)
      else operandAt i t := by
  unfold mapSharedInstruction
  by_cases hm : isMovLdSt i = true
  · simp only [hm, if_true, true_and]
    fin_cases t <;>
      simp [operandAt_mapSharedOperand, operandAt_mapSharedOperand_ne]
  · simp [hm]

theorem opcode_mapSharedInstruction (external : List String) (map : AllocationMap)
    (i : PTXInstruction) : (mapSharedInstruction external map i).opcode = i.opcode := by
  have h : ∀ (j : PTXInstruction) (s : Fin 4),
      (mapSharedOperand external map j s).opcode = j.opcode := by
    intro j s
    unfold mapSharedOperand
    split
    · rfl
    · exact opcode_mapOperand _ _ _ _
  unfold mapSharedInstruction
  split
  · rw [h, h, h, h]
  · rfl

theorem operandAt_addSharedSize (sharedSize : Nat) (s t : Fin 4) (i : PTXInstruction) :
    operandAt (addSharedSize sharedSize s i) t =
      if t = s then { operandAt i t with offset := (operandAt i t).offset + (sharedSize : Int) }
      else operandAt i t := by
  unfold addSharedSize
  rw [operandAt_setOperandAt]
  by_cases h : t = s
  · subst h; simp
  · simp [h]

theorem operandAt_foldl_addSharedSize (sharedSize : Nat) (slots : List (Fin 4))
    (i : PTXInstruction) (t : Fin 4) :
    operandAt (slots.foldl (fun acc s => addSharedSize sharedSize s acc) i) t =
      { operandAt i t with
        offset := (operandAt i t).offset + ((sharedSize * slots.count t : Nat) : Int) } := by
  induction slots generalizing i with
  | nil => simp
  | cons s rest ih =>
    rw [List.foldl_cons, ih, operandAt_addSharedSize]
    by_cases h : t = s
    · subst h
      simp only [if_true, List.count_cons_self]
      congr 1
      push_cast
      ring
    · have hne : ¬ (s == t) = true := by
        simpa using fun h2 : s = t => h h2.symm
      simp only [h, if_false, List.count_cons, hne]
      simp

theorem opcode_foldl_addSharedSize (sharedSize : Nat) (slots : List (Fin 4))
    (i : PTXInstruction) :
    (slots.foldl (fun acc s => addSharedSize sharedSize s acc) i).opcode = i.opcode ∧
      (slots.foldl (fun acc s => addSharedSize sharedSize s acc) i).addressSpace =
        i.addressSpace := by
  induction slots generalizing i with
  | nil => exact ⟨rfl, rfl⟩
  | cons s rest ih =>
    rw [List.foldl_cons]
    refine ⟨(ih _).1.trans ?_, (ih _).2.trans ?_⟩
    · exact opcode_setOperandAt _ _ _
    · exact addressSpace_setOperandAt _ _ _

theorem count_externalSlots (external : List String) (i : PTXInstruction) (t : Fin 4) :
    (externalSlots external i).count t =
      if isMovLdSt i = true ∧ (operandAt i t).addressMode = AddressMode.Address ∧
          (operandAt i t).identifier ∈ external then 1 else 0 := by
  unfold externalSlots
  by_cases hm : isMovLdSt i = true
  · simp only [hm, if_true, true_and]
    have hnodup : (([0, 1, 2, 3] : List (Fin 4)).filter (fun s =>
        decide ((operandAt i s).addressMode = AddressMode.Address ∧
          (operandAt i s).identifier ∈ external))).Nodup :=
      List.Nodup.filter _ (by decide)
    rw [List.count_eq_of_nodup hnodup]
    have hall : t ∈ ([0, 1, 2, 3] : List (Fin 4)) := by fin_cases t <;> simp
    simp only [List.mem_filter, hall, true_and, decide_eq_true_eq]
  · simp [hm]

/-- The shared allocator, operand by operand: in a `Mov`, `Ld` or `St`
instruction an address-mode operand that names an extern shared variable gets
the final shared size added to its offset, and any other operand is rewritten
through the final allocation map; the operands of any other instruction stay
as they are. -/
theorem operandAt_finishSharedInstruction (external : List String) (map : AllocationMap)
    (sharedSize : Nat) (i : PTXInstruction) (t : Fin 4) :
    operandAt (finishSharedInstruction external map sharedSize i) t =
      if isMovLdSt i = true ∧ (operandAt i t).addressMode = AddressMode.Address ∧
          (operandAt i t).identifier ∈ external then
        { operandAt i t with offset := (operandAt i t).offset + (sharedSize : Int) }
      else if isMovLdSt i = true then rewriteOperand map (operandAt i t)
      else operandAt i t := by
  unfold finishSharedInstruction
  rw [operandAt_foldl_addSharedSize, count_externalSlots, operandAt_mapSharedInstruction]
  by_cases hm : isMovLdSt i = true
  · by_cases hc : (operandAt i t).addressMode = AddressMode.Address ∧
        (operandAt i t).identifier ∈ external
    · simp [hm, hc]
    · have hc2 : ¬ (isMovLdSt i = true ∧ (operandAt i t).addressMode = AddressMode.Address ∧
          (operandAt i t).identifier ∈ external) := fun h => hc h.2
      simp only [hm, hc, hc2, true_and, not_false_eq_true, if_true, if_false, Nat.mul_zero,
        Nat.cast_zero, add_zero]
  · simp [hm]

theorem opcode_finishSharedInstruction (external : List String) (map : AllocationMap)
    (sharedSize : Nat) (i : PTXInstruction) :
    (finishSharedInstruction external map sharedSize i).opcode = i.opcode := by
  unfold finishSharedInstruction
  rw [(opcode_foldl_addSharedSize _ _ _).1, opcode_mapSharedInstruction]

end LLVMExecutableKernel

/-! ## The base of the extern shared variables (C5) -/

namespace LLVMExecutableKernel

end LLVMExecutableKernel

/-! ## Discovery order of the shared variables (C6) -/

namespace LLVMExecutableKernel

theorem names_filterMap_findGlobal (pool : List PTXStatement) (keys : List String)
    (h : ∀ key ∈ keys, (findGlobal pool key).isSome = true) :
    (keys.filterMap (findGlobal pool)).map PTXStatement.name = keys ∧
      ∀ g ∈ keys.filterMap (findGlobal pool), g ∈ pool := by
  induction keys with
  | nil => simp
  | cons k ks ih =>
    obtain ⟨g, hg⟩ := Option.isSome_iff_exists.mp (h k (List.mem_cons_self _ _))
    obtain ⟨i1, i2⟩ := ih (fun key hk => h key (List.mem_cons_of_mem _ hk))
    refine ⟨?_, ?_⟩
    · simp only [List.filterMap_cons, hg, List.map_cons, i1, (findGlobal_some hg).2]
    · intro x hx
      simp only [List.filterMap_cons, hg, List.mem_cons] at hx
      rcases hx with rfl | hx
      · exact (findGlobal_some hg).1
      · exact i2 x hx

/-- The globals found by the instruction loop: their names are the first
occurrences of the references that are no extern name and name a sized shared
global, and each of them is a sized shared global of the module. -/
theorem referencedGlobals_names (external : List String) (pool : List PTXStatement)
    (refs : List String) :
    (referencedGlobals external pool refs).map PTXStatement.name =
        firstOccurrences (refs.filter (fun key =>
          decide (key ∉ external ∧ key ∈ pool.map PTXStatement.name))) ∧
      ∀ g ∈ referencedGlobals external pool refs, g ∈ pool := by
  have hfilter : refs.filter (fun key =>
        decide (key ∉ external ∧ key ∈ pool.map PTXStatement.name)) =
      refs.filter (fun key => decide (key ∉ external ∧ (findGlobal pool key).isSome = true)) := by
    apply List.filter_congr
    intro key _
    have : key ∈ pool.map PTXStatement.name ↔ (findGlobal pool key).isSome = true := by
      rw [← not_iff_not, ← findGlobal_eq_none]
      cases findGlobal pool key <;> simp
    simp only [this]
  rw [hfilter]
  unfold referencedGlobals
  apply names_filterMap_findGlobal
  intro key hk
  have h1 := (mem_firstOccurrences.mp hk)
  have h2 := (List.mem_filter.mp h1).2
  simp only [decide_eq_true_eq] at h2
  exact h2.2

/-- C6, counterexample: on the sample kernel the sized shared global `unused`
is referenced by instruction 10, whose opcode is none of `Mov`, `Ld`, `St`;
the allocator places `tile` and `gbuf` only and gives `unused` no offset. -/
theorem referenced_global_not_allocated :
    ∃ r, _allocateSharedMemory Sample.globals Sample.locals Sample.instructions = .ok r ∧
      Sample.instructions[10]? =
        some (Sample.instruction (Opcode.Other 1) (Sample.register "r9")
          (Sample.address "unused" 0)) ∧
      "unused" ∈ (sizedSharedGlobals Sample.globals).map PTXStatement.name ∧
      r.space.placed.map Placement.name = ["tile", "gbuf"] ∧
      AllocationMap.find r.space.map "unused" = none :=
  ⟨_, rfl, rfl, by decide, rfl, rfl⟩

/-- C6, amended: whenever `_allocateSharedMemory` returns, the shared space is
the layout of the sized shared variables in discovery order: all sized shared
variables of local scope first, then the sized shared globals of the module in
the order of their first reference, a reference being an address-mode operand
(`d`, `a`, `b`, `c` in this order) of a `Mov`, `Ld` or `St` instruction whose
identifier is not the name of an extern shared variable.  A global with such
references is placed exactly once; a sized shared global without one (and not
named like a shared variable of local scope) is given no offset, and the
declared shared size is the size of that layout padded for the extern
variables. -/
theorem shared_variables_laid_out_in_discovery_order
    (globals : List PTXStatement) (locals : List Local) (instructions : List PTXInstruction)
    (r : SharedMemory) (h : _allocateSharedMemory globals locals instructions = .ok r) :
    layout Space.empty
        ((sizedSharedLocals locals).map localDeclaration ++
          (referencedGlobals (externalNames globals locals) (sizedSharedGlobals globals)
            (references instructions)).map globalDeclaration) = .ok r.space ∧
      r.space.placed.map Placement.declaration =
        (sizedSharedLocals locals).map localDeclaration ++
          (referencedGlobals (externalNames globals locals) (sizedSharedGlobals globals)
            (references instructions)).map globalDeclaration ∧
      (referencedGlobals (externalNames globals locals) (sizedSharedGlobals globals)
          (references instructions)).map PTXStatement.name =
        firstOccurrences ((references instructions).filter (fun key =>
          decide (key ∉ externalNames globals locals ∧
            key ∈ (sizedSharedGlobals globals).map PTXStatement.name))) ∧
      (∀ g ∈ referencedGlobals (externalNames globals locals) (sizedSharedGlobals globals)
          (references instructions), g ∈ sizedSharedGlobals globals) ∧
      ((referencedGlobals (externalNames globals locals) (sizedSharedGlobals globals)
          (references instructions)).map PTXStatement.name).Nodup ∧
      (∀ g ∈ sizedSharedGlobals globals, g.name ∉ references instructions →
        g.name ∉ (sizedSharedLocals locals).map Local.name →
        g.name ∉ r.space.placed.map Placement.name ∧
          AllocationMap.find r.space.map g.name = none) ∧
      _pad r.space.size (maximumExternalAlignment globals locals) =
        .ok (r.sharedSize, r.trailingPadding) := by
  obtain ⟨_, _, hlayout, hpad, _, _⟩ := allocateSharedMemory_spec h
  have hlaid := allocateSharedMemory_laidOut h
  obtain ⟨hnames, hmem⟩ := referencedGlobals_names (externalNames globals locals)
    (sizedSharedGlobals globals) (references instructions)
  refine ⟨hlayout, hlaid.1, hnames, hmem, ?_, ?_, hpad⟩
  · rw [hnames]; exact nodup_firstOccurrences _
  · intro g _ hnoref hnolocal
    have hnot : g.name ∉ (discoveryOrder globals locals instructions).map Declaration.name := by
      unfold discoveryOrder
      simp only [List.map_append, List.map_map, List.mem_append, not_or]
      refine ⟨?_, ?_⟩
      · simpa [localDeclaration, Function.comp_def] using hnolocal
      · have hcomp : (Declaration.name ∘ globalDeclaration) = PTXStatement.name := by
          funext x; rfl
        rw [hcomp, hnames]
        intro hin
        exact hnoref (List.mem_filter.mp (mem_firstOccurrences.mp hin)).1
    refine ⟨?_, hlaid.find_eq_none hnot⟩
    rw [placed_names hlaid.1]
    exact hnot

/-- C6, amended, on the sample kernel: the allocator returns and places
`tile`, then `gbuf`. -/
theorem shared_variables_laid_out_in_discovery_order_witness :
    ∃ r, _allocateSharedMemory Sample.globals Sample.locals Sample.instructions = .ok r ∧
      r.space.placed.map Placement.declaration =
        (sizedSharedLocals Sample.locals).map localDeclaration ++
          (referencedGlobals (externalNames Sample.globals Sample.locals)
            (sizedSharedGlobals Sample.globals)
            (references Sample.instructions)).map globalDeclaration ∧
      r.space.placed.map Placement.name = ["tile", "gbuf"] :=
  have h := shared_variables_laid_out_in_discovery_order Sample.globals Sample.locals
    Sample.instructions _ rfl
  ⟨_, rfl, h.2.1, rfl⟩

end LLVMExecutableKernel

/-! ## Operand rewriting (C7) -/

namespace LLVMExecutableKernel

theorem rewritten_mapInstruction (space : Option AddressSpace) {sp : Space} (hm : sp.Mapped)
    (i : PTXInstruction) : Rewritten sp i (mapInstruction space sp.map i) := by
  refine ⟨opcode_mapInstruction _ _ _, ?_⟩
  intro t
  rw [operandAt_mapInstruction]
  refine ⟨?_, ?_⟩
  · intro hmov ha offset hf
    refine ⟨by simp [hmov, rewriteOperand, ha, hf], ?_⟩
    rw [hm] at hf
    exact firstOffset_mem hf
  · intro hnot
    by_cases hmov : isMovLdSt i = true
    · simp only [hmov, if_true]
      rcases hnot with h | h | h
      · rw [hmov] at h; cases h
      · unfold rewriteOperand; simp [h]
      · exact rewriteOperand_of_none h
    · simp [hmov]

/-- C7, counterexample: on the sample kernel the parameter `data` is given
offset 8; instruction 11, whose opcode is none of `Mov`, `Ld`, `St`, names
`data` in its address-mode operand `a`, and keeps the operand offset 0.  And a
load whose operand `a` names `data` with the offset `2 ^ 31 - 1` ends with the
offset `-2 ^ 31 + 7`, which is not 8 more. -/
theorem operand_of_other_opcode_not_rewritten :
    ∃ sp ps rewritten,
      _allocateParameterMemory Sample.parameters Sample.instructions = .ok (sp, ps, rewritten) ∧
      AllocationMap.find sp.map "data" = some 8 ∧
      Sample.instructions[11]? =
        some (Sample.instruction (Opcode.Other 2) (Sample.register "r10")
          (Sample.address "data" 0)) ∧
      rewritten[11]? =
        some (Sample.instruction (Opcode.Other 2) (Sample.register "r10")
          (Sample.address "data" 0)) ∧
      ∃ ps1 rewritten1,
        _allocateParameterMemory Sample.parameters
            [Sample.instruction Opcode.Ld (Sample.register "r11")
              (Sample.address "data" 2147483647)] = .ok (sp, ps1, rewritten1) ∧
          rewritten1 =
            [Sample.instruction Opcode.Ld (Sample.register "r11")
              (Sample.address "data" (-2147483641))] :=
  ⟨_, _, _, rfl, rfl, rfl, rfl, _, _, rfl, rfl⟩

/-- C7, amended: after the parameter, local, constant or shared space is
allocated, every instruction has kept its opcode; in every `Mov`, `Ld` or `St`
instruction each operand `d`, `a`, `b`, `c` that is in address mode and names
a variable with an entry in the allocation map of the space has had that
entry, which is the offset allocated to the first variable of that name, added
to its offset in the arithmetic of `int`: the offset is increased by exactly
that entry when the sum is at most `2 ^ 31 - 1`, and wraps around modulo
`2 ^ 32` otherwise; every other operand, and so every operand of an
instruction with another opcode, is unchanged.  For the shared space this is
said of the operands that name no extern shared variable. -/
theorem operands_of_mov_ld_st_rewritten
    (parameters : List Parameter) (locals : List Local) (globals : List PTXStatement)
    (instructions : List PTXInstruction) (barrierSupport : Bool) (resumePoint : String)
    (previous : Nat) :
    (∀ sp ps rewritten,
        _allocateParameterMemory parameters instructions = .ok (sp, ps, rewritten) →
        ∀ (n : Nat) (i : PTXInstruction), instructions[n]? = some i →
          ∃ j, rewritten[n]? = some j ∧ Rewritten sp i j) ∧
    (∀ sp rewritten offset,
        _allocateLocalMemory locals instructions barrierSupport resumePoint previous =
          .ok (sp, rewritten, offset) →
        ∀ (n : Nat) (i : PTXInstruction), instructions[n]? = some i →
          ∃ j, rewritten[n]? = some j ∧ Rewritten sp i j) ∧
    (∀ sp rewritten,
        _allocateConstantMemory globals instructions = .ok (sp, rewritten) →
        ∀ (n : Nat) (i : PTXInstruction), instructions[n]? = some i →
          ∃ j, rewritten[n]? = some j ∧ Rewritten sp i j) ∧
    (∀ r, _allocateSharedMemory globals locals instructions = .ok r →
        ∀ (n : Nat) (i : PTXInstruction), instructions[n]? = some i →
          ∃ j, r.instructions[n]? = some j ∧ j.opcode = i.opcode ∧
            ∀ t : Fin 4, (operandAt i t).identifier ∉ externalNames globals locals →
              (isMovLdSt i = true → (operandAt i t).addressMode = AddressMode.Address →
                ∀ offset,
                  AllocationMap.find r.space.map (operandAt i t).identifier = some offset →
                  operandAt j t =
                      { operandAt i t with
                        offset := wrapInt ((operandAt i t).offset + (offset : Int)) } ∧
                    ∃ p ∈ r.space.placed,
                      p.name = (operandAt i t).identifier ∧ p.offset = offset) ∧
              (isMovLdSt i = false ∨ (operandAt i t).addressMode ≠ AddressMode.Address ∨
                  AllocationMap.find r.space.map (operandAt i t).identifier = none →
                operandAt j t = operandAt i t)) ∧
    (∀ (offset : Int) (entry : Nat), -2147483648 ≤ offset + (entry : Int) →
      offset + (entry : Int) ≤ 2147483647 →
      wrapInt (offset + (entry : Int)) = offset + (entry : Int)) ∧
    (∀ n : Int, -2147483648 ≤ wrapInt n ∧ wrapInt n ≤ 2147483647 ∧
      (4294967296 : Int) ∣ n - wrapInt n) := by
  refine ⟨?_, ?_, ?_, ?_, ?_, ?_⟩
  rotate_left 4
  · intro offset entry h1 h2
    unfold wrapInt
    omega
  · intro n
    unfold wrapInt
    refine ⟨by omega, by omega, ?_⟩
    exact ⟨(n + 2147483648) / 4294967296, by omega⟩
  · intro sp ps rewritten h n i hi
    obtain ⟨h1, _, _, _, h5, _⟩ := allocateParameterMemory_spec h
    exact ⟨mapInstruction none sp.map i, by rw [h5, List.getElem?_map, hi]; rfl,
      rewritten_mapInstruction none h1.2.2 i⟩
  · intro sp rewritten offset h n i hi
    obtain ⟨h1, h2⟩ := allocateLocalMemory_spec h
    exact ⟨mapInstruction (some AddressSpace.Local) sp.map i,
      by rw [h2, List.getElem?_map, hi]; rfl, rewritten_mapInstruction _ h1.2.2 i⟩
  · intro sp rewritten h n i hi
    obtain ⟨h1, h2⟩ := allocateConstantMemory_spec h
    exact ⟨mapInstruction (some AddressSpace.Const) sp.map i,
      by rw [h2, List.getElem?_map, hi]; rfl, rewritten_mapInstruction _ h1.2.2 i⟩
  · intro r h n i hi
    obtain ⟨_, _, _, _, _, hinstr⟩ := allocateSharedMemory_spec h
    have hlaid := allocateSharedMemory_laidOut h
    refine ⟨finishSharedInstruction (externalNames globals locals) r.space.map r.sharedSize i,
      by rw [hinstr, List.getElem?_map, hi]; rfl, opcode_finishSharedInstruction _ _ _ _, ?_⟩
    intro t hext
    rw [operandAt_finishSharedInstruction]
    refine ⟨?_, ?_⟩
    · intro hmov ha offset hf
      refine ⟨by simp [hmov, hext, rewriteOperand, ha, hf], ?_⟩
      rw [hlaid.2.2] at hf
      exact firstOffset_mem hf
    · intro hnot
      by_cases hmov : isMovLdSt i = true
      · simp only [hmov, hext, and_false, if_false, if_true, true_and]
        rcases hnot with h1 | h1 | h1
        · rw [hmov] at h1; cases h1
        · unfold rewriteOperand; simp [h1]
        · exact rewriteOperand_of_none h1
      · simp [hmov]

/-- C7, amended, on the sample kernel: the parameter allocator returns; the
load number 12 names `data` and ends with its offset 4 increased by 8. -/
theorem operands_of_mov_ld_st_rewritten_witness :
    ∃ sp ps rewritten,
      _allocateParameterMemory Sample.parameters Sample.instructions = .ok (sp, ps, rewritten) ∧
      (∃ j, rewritten[12]? = some j ∧
        Rewritten sp (Sample.instruction Opcode.Ld (Sample.register "r11")
          (Sample.address "data" 4)) j) ∧
      ∃ j, rewritten[12]? = some j ∧ (operandAt j 1).offset = 12 :=
  have h := operands_of_mov_ld_st_rewritten Sample.parameters Sample.locals Sample.globals
    Sample.instructions true "resume" 0
  ⟨_, _, _, rfl, h.1 _ _ _ rfl 12 _ rfl, _, rfl, rfl⟩

end LLVMExecutableKernel

/-! ## Names that are declared nowhere (C8) -/

namespace LLVMExecutableKernel

theorem mapInstruction_of_not_movLdSt (space : Option AddressSpace) (map : AllocationMap)
    {i : PTXInstruction} (h : isMovLdSt i = false) : mapInstruction space map i = i := by
  simp [mapInstruction, h]

theorem finishSharedInstruction_of_not_movLdSt (external : List String) (map : AllocationMap)
    (sharedSize : Nat) {i : PTXInstruction} (h : isMovLdSt i = false) :
    finishSharedInstruction external map sharedSize i = i := by
  simp [finishSharedInstruction, externalSlots, mapSharedInstruction, h]

theorem mapOperand_eq_self (space : Option AddressSpace) (map : AllocationMap)
    (i : PTXInstruction) (s : Fin 4)
    (h : (operandAt i s).addressMode = AddressMode.Address →
      AllocationMap.find map (operandAt i s).identifier = none) :
    mapOperand space map i s = i := by
  unfold mapOperand
  by_cases ha : (operandAt i s).addressMode = AddressMode.Address
  · simp [ha, h ha]
  · simp [ha]

theorem mapInstruction_eq_self (space : Option AddressSpace) (map : AllocationMap)
    (i : PTXInstruction)
    (h : ∀ t, (operandAt i t).addressMode = AddressMode.Address →
      AllocationMap.find map (operandAt i t).identifier = none) :
    mapInstruction space map i = i := by
  unfold mapInstruction
  split
  · rw [mapOperand_eq_self _ _ i 0 (h 0), mapOperand_eq_self _ _ i 1 (h 1),
      mapOperand_eq_self _ _ i 2 (h 2), mapOperand_eq_self _ _ i 3 (h 3)]
  · rfl

theorem finishSharedInstruction_eq_self (external : List String) (map : AllocationMap)
    (sharedSize : Nat) (i : PTXInstruction)
    (h : ∀ t, (operandAt i t).addressMode = AddressMode.Address →
      (operandAt i t).identifier ∉ external ∧
        AllocationMap.find map (operandAt i t).identifier = none) :
    finishSharedInstruction external map sharedSize i = i := by
  have hslots : externalSlots external i = [] := by
    unfold externalSlots
    split
    · apply List.filter_eq_nil_iff.mpr
      intro s _
      simp only [decide_eq_true_eq, not_and]
      intro ha
      exact (h s ha).1
    · rfl
  have hop : ∀ s, mapSharedOperand external map i s = i := by
    intro s
    unfold mapSharedOperand
    split
    · rfl
    · exact mapOperand_eq_self _ _ i s (fun ha => (h s ha).2)
  unfold finishSharedInstruction
  rw [hslots, List.foldl_nil]
  unfold mapSharedInstruction
  split
  · rw [hop 0, hop 1, hop 2, hop 3]
  · rfl

/-- The texture loop keeps the length of the instruction list and changes
texture instructions only. -/
theorem scanTextures_spec {textures : List String} {map : AllocationMap} {index : Nat}
    {bound bound1 : List String} {instructions out : List PTXInstruction}
    (h : scanTextures textures map index bound instructions = .ok (bound1, out)) :
    ∀ (n : Nat) (i : PTXInstruction), instructions[n]? = some i →
      ∃ j, out[n]? = some j ∧ (i.opcode ≠ Opcode.Tex → j = i) := by
  induction instructions generalizing map index bound out with
  | nil => intro n i hi; simp at hi
  | cons x xs ih =>
    unfold scanTextures at h
    have hstep : ∀ {m : AllocationMap} {k : Nat} {b : List String} {y : PTXInstruction}
        {rest : List PTXInstruction}, scanTextures textures m k b xs = .ok (bound1, rest) →
        out = y :: rest → (x.opcode ≠ Opcode.Tex → y = x) →
        ∀ (n : Nat) (i : PTXInstruction), (x :: xs)[n]? = some i →
          ∃ j, out[n]? = some j ∧ (i.opcode ≠ Opcode.Tex → j = i) := by
      intro m k b y rest hrest hout hy n i hi
      subst hout
      cases n with
      | zero =>
        simp only [List.getElem?_cons_zero, Option.some.injEq] at hi
        subst hi
        exact ⟨y, by simp, hy⟩
      | succ n =>
        simp only [List.getElem?_cons_succ] at hi ⊢
        exact ih hrest n i hi
    by_cases htex : x.opcode = Opcode.Tex
    · simp only [htex, if_true] at h
      by_cases hmem : x.a.identifier ∈ textures
      · simp only [hmem, if_true] at h
        cases hf : AllocationMap.find map x.a.identifier with
        | some allocation =>
          simp only [hf] at h
          cases hr : scanTextures textures map index bound xs with
          | error e => simp [hr] at h
          | ok r =>
            obtain ⟨b1, rest⟩ := r
            simp only [hr, Except.ok.injEq, Prod.mk.injEq] at h
            obtain ⟨h1, h2⟩ := h
            subst h1
            exact hstep hr h2.symm (fun hne => absurd htex hne)
        | none =>
          simp only [hf] at h
          cases hr : scanTextures textures (AllocationMap.insert map x.a.identifier index)
              (index + 1) (bound ++ [x.a.identifier]) xs with
          | error e => simp [hr] at h
          | ok r =>
            obtain ⟨b1, rest⟩ := r
            simp only [hr, Except.ok.injEq, Prod.mk.injEq] at h
            obtain ⟨h1, h2⟩ := h
            subst h1
            exact hstep hr h2.symm (fun hne => absurd htex hne)
      · simp [hmem] at h
    · simp only [htex, if_false] at h
      cases hr : scanTextures textures map index bound xs with
      | error e => simp [hr] at h
      | ok r =>
        obtain ⟨b1, rest⟩ := r
        simp only [hr, Except.ok.injEq, Prod.mk.injEq] at h
        obtain ⟨h1, h2⟩ := h
        subst h1
        exact hstep hr h2.symm (fun _ => rfl)

theorem scanTextures_total (textures : List String) (map : AllocationMap) (index : Nat)
    (bound : List String) (instructions : List PTXInstruction)
    (h : ∀ i ∈ instructions, i.opcode = Opcode.Tex → i.a.identifier ∈ textures) :
    ∃ r, scanTextures textures map index bound instructions = .ok r := by
  induction instructions generalizing map index bound with
  | nil => exact ⟨(bound, []), rfl⟩
  | cons x xs ih =>
    have hxs : ∀ i ∈ xs, i.opcode = Opcode.Tex → i.a.identifier ∈ textures :=
      fun i hi => h i (List.mem_cons_of_mem _ hi)
    unfold scanTextures
    by_cases htex : x.opcode = Opcode.Tex
    · have hmem := h x (List.mem_cons_self _ _) htex
      simp only [htex, hmem, if_true]
      cases hf : AllocationMap.find map x.a.identifier with
      | some allocation =>
        obtain ⟨r, hr⟩ := ih map index bound hxs
        simp only [hr]
        exact ⟨_, rfl⟩
      | none =>
        obtain ⟨r, hr⟩ := ih (AllocationMap.insert map x.a.identifier index) (index + 1)
          (bound ++ [x.a.identifier]) hxs
        simp only [hr]
        exact ⟨_, rfl⟩
    · obtain ⟨r, hr⟩ := ih map index bound hxs
      simp only [htex, if_false, hr]
      exact ⟨_, rfl⟩

end LLVMExecutableKernel

namespace LLVMExecutableKernel

theorem operandAt_mapInstruction_of_none (space : Option AddressSpace) (map : AllocationMap)
    (i : PTXInstruction) (t : Fin 4)
    (h : AllocationMap.find map (operandAt i t).identifier = none) :
    operandAt (mapInstruction space map i) t = operandAt i t := by
  rw [operandAt_mapInstruction, rewriteOperand_of_none h]
  simp

theorem operandAt_finishSharedInstruction_of_none (external : List String)
    (map : AllocationMap) (sharedSize : Nat) (i : PTXInstruction) (t : Fin 4)
    (he : (operandAt i t).identifier ∉ external)
    (h : AllocationMap.find map (operandAt i t).identifier = none) :
    operandAt (finishSharedInstruction external map sharedSize i) t = operandAt i t := by
  rw [operandAt_finishSharedInstruction, rewriteOperand_of_none h]
  simp [he]

theorem isMovLdSt_ne_tex {i : PTXInstruction} (h : isMovLdSt i = true) :
    i.opcode ≠ Opcode.Tex := by
  intro htex
  simp [isMovLdSt, htex] at h

theorem isMovLdSt_of_tex {i : PTXInstruction} (h : i.opcode = Opcode.Tex) :
    isMovLdSt i = false := by
  simp [isMovLdSt, h]

theorem externalNames_subset (globals : List PTXStatement) (locals : List Local) {key : String}
    (h : key ∈ externalNames globals locals) :
    key ∈ locals.map Local.name ∨ key ∈ globals.map PTXStatement.name := by
  unfold externalNames externSharedGlobals externSharedLocals at h
  rcases List.mem_append.mp h with h | h
  · obtain ⟨g, hg, rfl⟩ := List.mem_map.mp h
    exact Or.inr (List.mem_map.mpr ⟨g, (List.mem_filter.mp hg).1, rfl⟩)
  · obtain ⟨l, hl, rfl⟩ := List.mem_map.mp h
    exact Or.inl (List.mem_map.mpr ⟨l, (List.mem_filter.mp hl).1, rfl⟩)

theorem discoveryOrder_names_subset (globals : List PTXStatement) (locals : List Local)
    (instructions : List PTXInstruction) {key : String}
    (h : key ∈ (discoveryOrder globals locals instructions).map Declaration.name) :
    key ∈ locals.map Local.name ∨ key ∈ globals.map PTXStatement.name := by
  unfold discoveryOrder at h
  simp only [List.map_append, List.map_map, List.mem_append] at h
  rcases h with h | h
  · obtain ⟨l, hl, rfl⟩ := List.mem_map.mp h
    exact Or.inl (List.mem_map.mpr ⟨l, (List.mem_filter.mp hl).1, rfl⟩)
  · obtain ⟨g, hg, rfl⟩ := List.mem_map.mp h
    have hpool := (referencedGlobals_names _ _ _).2 g hg
    exact Or.inr (List.mem_map.mpr ⟨g, (List.mem_filter.mp hpool).1, rfl⟩)

/-- C8, counterexample: instruction 8 of the sample kernel is a load through
the name `nowhere`, which no parameter, local or global declares;
`_allocateMemory` returns a result all the same, with the instruction as it
was. -/
theorem undeclared_name_is_no_error :
    ∃ m, _allocateMemory Sample.kernel = .ok m ∧
      "nowhere" ∉ Sample.kernel.declaredNames ∧
      Sample.kernel.instructions[8]? =
        some (Sample.instruction Opcode.Ld (Sample.register "r7") (Sample.address "nowhere" 0)) ∧
      m.instructions[8]? =
        some (Sample.instruction Opcode.Ld (Sample.register "r7") (Sample.address "nowhere" 0)) :=
  ⟨_, rfl, by decide, rfl, rfl⟩

/-- C8, amended: an address-mode operand of a `Mov`, `Ld` or `St` instruction
that names a variable declared in no address space raises no error:
`_allocateMemory` returns on every well-formed kernel, and it leaves that
operand as it was; when all address-mode operands of the instruction name
undeclared variables, the instruction, its address space included, is left as
it was. -/
theorem undeclared_operand_left_unrewritten (k : Kernel) (hwf : k.WellFormed) :
    ∃ m, _allocateMemory k = .ok m ∧
      ∀ (n : Nat) (i : PTXInstruction), k.instructions[n]? = some i → isMovLdSt i = true →
        ∃ j, m.instructions[n]? = some j ∧
          (∀ t, (operandAt i t).addressMode = AddressMode.Address →
            (operandAt i t).identifier ∉ k.declaredNames → operandAt j t = operandAt i t) ∧
          ((∀ t, (operandAt i t).addressMode = AddressMode.Address →
            (operandAt i t).identifier ∉ k.declaredNames) → j = i) := by
  obtain ⟨hp, hl, hg, hx, hb, ht⟩ := hwf
  obtain ⟨⟨psp, ps, i1⟩, hP⟩ := allocateParameterMemory_total k.parameters k.instructions hp
  obtain ⟨p1, _, _, _, p5, _⟩ := allocateParameterMemory_spec hP
  obtain ⟨r, hS⟩ := allocateSharedMemory_total k.globals k.locals i1 hx
    (fun l hm => hl l (List.mem_append_right _ hm))
    (fun g hm => hg g (List.mem_append_right _ hm))
  obtain ⟨s1, _, _, _, _, s6⟩ := allocateSharedMemory_spec hS
  have s0 := allocateSharedMemory_laidOut hS
  obtain ⟨⟨lsp, i3, off⟩, hL⟩ := allocateLocalMemory_total k.locals r.instructions
    k.barrierSupport k.resumePoint k.resumePointOffset
    (fun l hm => hl l (List.mem_append_left _ hm)) hb
  obtain ⟨l1, l2⟩ := allocateLocalMemory_spec hL
  obtain ⟨⟨csp, i4⟩, hC⟩ := allocateConstantMemory_total k.globals i3
    (fun g hm => hg g (List.mem_append_left _ hm))
  obtain ⟨c1, c2⟩ := allocateConstantMemory_spec hC
  -- the instructions the texture loop receives
  have hall : i4 = k.instructions.map (fun i =>
      mapInstruction (some AddressSpace.Const) csp.map
        (mapInstruction (some AddressSpace.Local) lsp.map
          (finishSharedInstruction (externalNames k.globals k.locals) r.space.map r.sharedSize
            (mapInstruction none psp.map i)))) := by
    rw [c2, l2, s6, p5]
    simp only [List.map_map, Function.comp_def]
  have htex : ∀ x ∈ i4, x.opcode = Opcode.Tex → x.a.identifier ∈ k.textures := by
    intro x hx hop
    rw [hall] at hx
    obtain ⟨i, hi, rfl⟩ := List.mem_map.mp hx
    have hopi : i.opcode = Opcode.Tex := by
      rw [opcode_mapInstruction, opcode_mapInstruction, opcode_finishSharedInstruction,
        opcode_mapInstruction] at hop
      exact hop
    have hnm := isMovLdSt_of_tex hopi
    rw [mapInstruction_of_not_movLdSt none psp.map hnm,
      finishSharedInstruction_of_not_movLdSt _ _ _ hnm,
      mapInstruction_of_not_movLdSt _ lsp.map hnm,
      mapInstruction_of_not_movLdSt _ csp.map hnm]
    exact ht i hi hopi
  obtain ⟨⟨bound, i5⟩, hT⟩ := scanTextures_total k.textures [] 0 [] i4 htex
  have hTs := scanTextures_spec hT
  have hM : _allocateMemory k = .ok
      { parameters := ps, parameterSpace := psp, shared := r, localSpace := lsp,
        resumePointOffset := off, constantSpace := csp, boundTextures := bound,
        instructions := i5 } := by
    simp only [_allocateMemory, hP, hS, hL, hC, _allocateTextureMemory, hT]
  refine ⟨_, hM, ?_⟩
  intro n i hi hmov
  -- what an undeclared name means for the maps
  have hnone : ∀ key, key ∉ k.declaredNames →
      AllocationMap.find psp.map key = none ∧ key ∉ externalNames k.globals k.locals ∧
      AllocationMap.find r.space.map key = none ∧ AllocationMap.find lsp.map key = none ∧
      AllocationMap.find csp.map key = none := by
    intro key hkey
    unfold Kernel.declaredNames at hkey
    simp only [List.mem_append, not_or] at hkey
    obtain ⟨⟨hk1, hk2⟩, hk3⟩ := hkey
    refine ⟨?_, ?_, ?_, ?_, ?_⟩
    · apply p1.find_eq_none
      simpa [parameterDeclaration, Function.comp_def] using hk1
    · intro hin
      rcases externalNames_subset _ _ hin with h | h
      · exact hk2 h
      · exact hk3 h
    · apply s0.find_eq_none
      intro hin
      rcases discoveryOrder_names_subset _ _ _ hin with h | h
      · exact hk2 h
      · exact hk3 h
    · apply l1.find_eq_none
      intro hin
      simp only [List.map_map] at hin
      obtain ⟨l, hlm, rfl⟩ := List.mem_map.mp hin
      exact hk2 (List.mem_map.mpr ⟨l, (List.mem_filter.mp hlm).1, rfl⟩)
    · apply c1.find_eq_none
      intro hin
      simp only [List.map_map] at hin
      obtain ⟨g, hgm, rfl⟩ := List.mem_map.mp hin
      exact hk3 (List.mem_map.mpr ⟨g, (List.mem_filter.mp hgm).1, rfl⟩)
  have h4 : i4[n]? = some (mapInstruction (some AddressSpace.Const) csp.map
      (mapInstruction (some AddressSpace.Local) lsp.map
        (finishSharedInstruction (externalNames k.globals k.locals) r.space.map r.sharedSize
          (mapInstruction none psp.map i)))) := by
    rw [hall, List.getElem?_map, hi]; rfl
  obtain ⟨j, hj, hjeq⟩ := hTs n _ h4
  have hjx := hjeq (by
    rw [opcode_mapInstruction, opcode_mapInstruction, opcode_finishSharedInstruction,
      opcode_mapInstruction]
    exact isMovLdSt_ne_tex hmov)
  refine ⟨j, hj, ?_, ?_⟩
  · intro t _ hund
    obtain ⟨n1, n2, n3, n4, n5⟩ := hnone _ hund
    have e1 := operandAt_mapInstruction_of_none none psp.map i t n1
    have e2 := operandAt_finishSharedInstruction_of_none (externalNames k.globals k.locals)
      r.space.map r.sharedSize (mapInstruction none psp.map i) t
      (by rw [e1]; exact n2) (by rw [e1]; exact n3)
    have e3 := operandAt_mapInstruction_of_none (some AddressSpace.Local) lsp.map
      (finishSharedInstruction (externalNames k.globals k.locals) r.space.map r.sharedSize
        (mapInstruction none psp.map i)) t (by rw [e2, e1]; exact n4)
    have e4 := operandAt_mapInstruction_of_none (some AddressSpace.Const) csp.map
      (mapInstruction (some AddressSpace.Local) lsp.map
        (finishSharedInstruction (externalNames k.globals k.locals) r.space.map r.sharedSize
          (mapInstruction none psp.map i))) t (by rw [e3, e2, e1]; exact n5)
    rw [hjx, e4, e3, e2, e1]
  · intro hund
    rw [hjx, mapInstruction_eq_self none psp.map i (fun t ha => (hnone _ (hund t ha)).1),
      finishSharedInstruction_eq_self _ _ _ i
        (fun t ha => ⟨(hnone _ (hund t ha)).2.1, (hnone _ (hund t ha)).2.2.1⟩),
      mapInstruction_eq_self _ lsp.map i (fun t ha => (hnone _ (hund t ha)).2.2.2.1),
      mapInstruction_eq_self _ csp.map i (fun t ha => (hnone _ (hund t ha)).2.2.2.2)]

/-- C8, amended, on the sample kernel, which is well-formed and loads through
the undeclared name `nowhere` in instruction 8. -/
theorem undeclared_operand_left_unrewritten_witness :
    Sample.kernel.WellFormed ∧
    ∃ m, _allocateMemory Sample.kernel = .ok m ∧
      ∀ (n : Nat) (i : PTXInstruction), Sample.kernel.instructions[n]? = some i →
        isMovLdSt i = true →
        ∃ j, m.instructions[n]? = some j ∧
          (∀ t, (operandAt i t).addressMode = AddressMode.Address →
            (operandAt i t).identifier ∉ Sample.kernel.declaredNames →
            operandAt j t = operandAt i t) ∧
          ((∀ t, (operandAt i t).addressMode = AddressMode.Address →
            (operandAt i t).identifier ∉ Sample.kernel.declaredNames) → j = i) :=
  ⟨⟨by decide, by decide, by decide, by decide, fun _ => by decide, by decide⟩,
    undeclared_operand_left_unrewritten Sample.kernel
      ⟨by decide, by decide, by decide, by decide, fun _ => by decide, by decide⟩⟩

end LLVMExecutableKernel

/-! ## The launch phase of the scheduler (C9) -/

namespace executive

namespace LLVMCooperativeThreadArray

variable {σ : Type}

theorem SameShape.shape_refl (st : LLVMCooperativeThreadArray σ) : SameShape st st := ⟨rfl, rfl⟩

theorem SameShape.shape_trans {a b c : LLVMCooperativeThreadArray σ} (h1 : SameShape a b)
    (h2 : SameShape b c) : SameShape a c :=
  ⟨h2.1.trans h1.1, h2.2.trans h1.2⟩

theorem initializeNewContext_shape {st st1 : LLVMCooperativeThreadArray σ}
    {threadId ctaId contextId : Nat}
    (h : _initializeNewContext st threadId ctaId = .ok (st1, contextId)) : SameShape st st1 := by
  unfold _initializeNewContext at h
  dsimp only at h
  repeat' split at h
  all_goals first
    | (cases h; done)
    | (simp only [Except.ok.injEq, Prod.mk.injEq] at h
       obtain ⟨h1, _⟩ := h
       subst h1
       exact ⟨rfl, by simp⟩)

theorem executeThread_shape {st st1 : LLVMCooperativeThreadArray σ} {contextId : Nat}
    (h : _executeThread st contextId = .ok st1) : SameShape st st1 := by
  unfold _executeThread at h
  dsimp only at h
  repeat' split at h
  all_goals first
    | (cases h; done)
    | (simp only [Except.ok.injEq] at h
       subst h
       exact ⟨rfl, rfl⟩)

theorem executeWarp_shape {st st1 : LLVMCooperativeThreadArray σ} {warp : List Nat}
    (h : _executeWarp st warp = .ok st1) : SameShape st st1 := by
  induction warp generalizing st with
  | nil =>
    simp only [_executeWarp, Except.ok.injEq] at h
    subst h
    exact SameShape.shape_refl _
  | cons c rest ih =>
    unfold _executeWarp at h
    cases h0 : _executeThread st c with
    | error e => simp [h0] at h
    | ok s0 =>
      simp only [h0] at h
      exact (executeThread_shape h0).shape_trans (ih h)

theorem finishContext_shape {callType : CallType} {st st1 : LLVMCooperativeThreadArray σ}
    {contextId : Nat} {done : Bool}
    (h : _finishContext callType st contextId = .ok (st1, done)) : SameShape st st1 := by
  unfold _finishContext at h
  dsimp only at h
  repeat' split at h
  all_goals first
    | (cases h; done)
    | (simp only [Except.ok.injEq, Prod.mk.injEq] at h
       obtain ⟨h1, _⟩ := h
       subst h1
       exact ⟨rfl, by simp⟩)

theorem reclaimContext_shape {callType : CallType} {st st1 : LLVMCooperativeThreadArray σ}
    {contextId : Nat} (h : _reclaimContext callType st contextId = .ok st1) :
    SameShape st st1 := by
  unfold _reclaimContext at h
  cases h0 : _finishContext callType st contextId with
  | error e => simp [h0] at h
  | ok r =>
    obtain ⟨s0, done⟩ := r
    have hs := finishContext_shape h0
    cases done with
    | true =>
      simp only [h0, Except.ok.injEq] at h
      subst h
      exact hs
    | false =>
      simp only [h0, Except.ok.injEq] at h
      subst h
      exact hs

theorem reclaimWarp_shape {callType : CallType} {st st1 : LLVMCooperativeThreadArray σ}
    {warp : List Nat} (h : reclaimWarp callType st warp = .ok st1) : SameShape st st1 := by
  induction warp generalizing st with
  | nil =>
    simp only [reclaimWarp, Except.ok.injEq] at h
    subst h
    exact SameShape.shape_refl _
  | cons c rest ih =>
    unfold reclaimWarp at h
    cases h0 : _reclaimContext callType st c with
    | error e => simp [h0] at h
    | ok s0 =>
      simp only [h0] at h
      exact (reclaimContext_shape h0).shape_trans (ih h)

/-- The loop that fills `warpList` passes the thread ids `threadId`,
`threadId + 1`, ... in this order. -/
theorem initializeWarp_ids {id : Nat} {st st1 : LLVMCooperativeThreadArray σ}
    {threadId count : Nat} {warpList : List (Nat × Nat)}
    (h : initializeWarp id st threadId count = .ok (st1, warpList)) :
    warpList.map Prod.fst = List.range' threadId count ∧ SameShape st st1 := by
  induction count generalizing st threadId warpList with
  | zero =>
    simp only [initializeWarp, Except.ok.injEq, Prod.mk.injEq] at h
    obtain ⟨h1, h2⟩ := h
    subst h1 h2
    exact ⟨rfl, SameShape.shape_refl _⟩
  | succ count ih =>
    unfold initializeWarp at h
    cases h0 : _initializeNewContext st threadId id with
    | error e => simp [h0] at h
    | ok r0 =>
      obtain ⟨s0, c0⟩ := r0
      simp only [h0] at h
      cases h1 : initializeWarp id s0 (threadId + 1) count with
      | error e => simp [h1] at h
      | ok r1 =>
        obtain ⟨s1, rest⟩ := r1
        simp only [h1, Except.ok.injEq, Prod.mk.injEq] at h
        obtain ⟨h2, h3⟩ := h
        subst h2 h3
        obtain ⟨i1, i2⟩ := ih h1
        exact ⟨by simp [i1, List.range'_succ], (initializeNewContext_shape h0).shape_trans i2⟩

theorem launchWarp_ids {callType : CallType} {id : Nat} {st st1 : LLVMCooperativeThreadArray σ}
    {threadId count : Nat} {group : List (Nat × Nat)}
    (h : launchWarp callType id st threadId count = .ok (st1, group)) :
    group.map Prod.fst = List.range' threadId count ∧ SameShape st st1 := by
  unfold launchWarp at h
  cases h0 : initializeWarp id st threadId count with
  | error e => simp [h0] at h
  | ok r0 =>
    obtain ⟨s0, warpList⟩ := r0
    simp only [h0] at h
    cases h1 : _executeWarp s0 (warpList.map Prod.snd) with
    | error e => simp [h1] at h
    | ok s1 =>
      simp only [h1] at h
      cases h2 : reclaimWarp callType s1 (warpList.map Prod.snd) with
      | error e => simp [h2] at h
      | ok s2 =>
        simp only [h2, Except.ok.injEq, Prod.mk.injEq] at h
        obtain ⟨h3, h4⟩ := h
        subst h3 h4
        obtain ⟨i1, i2⟩ := initializeWarp_ids h0
        exact ⟨i1, (i2.shape_trans (executeWarp_shape h1)).shape_trans (reclaimWarp_shape h2)⟩

theorem launchWarps_ids {callType : CallType} {id : Nat} {st st1 : LLVMCooperativeThreadArray σ}
    {threadId warps : Nat} {groups : List (List (Nat × Nat))}
    (h : launchWarps callType id st threadId warps = .ok (st1, groups)) :
    groups.map (fun g => g.map Prod.fst) =
        (List.range warps).map (fun k => List.range' (threadId + k * st._warpSize) st._warpSize) ∧
      SameShape st st1 := by
  induction warps generalizing st threadId groups with
  | zero =>
    simp only [launchWarps, Except.ok.injEq, Prod.mk.injEq] at h
    obtain ⟨h1, h2⟩ := h
    subst h1 h2
    exact ⟨rfl, SameShape.shape_refl _⟩
  | succ warps ih =>
    unfold launchWarps at h
    cases h0 : launchWarp callType id st threadId st._warpSize with
    | error e => simp [h0] at h
    | ok r0 =>
      obtain ⟨s0, group⟩ := r0
      simp only [h0] at h
      cases h1 : launchWarps callType id s0 (threadId + st._warpSize) warps with
      | error e => simp [h1] at h
      | ok r1 =>
        obtain ⟨s1, rest⟩ := r1
        simp only [h1, Except.ok.injEq, Prod.mk.injEq] at h
        obtain ⟨h2, h3⟩ := h
        subst h2 h3
        obtain ⟨g1, g2⟩ := launchWarp_ids h0
        obtain ⟨i1, i2⟩ := ih h1
        refine ⟨?_, g2.shape_trans i2⟩
        rw [List.map_cons, g1, i1, g2.1, List.range_succ_eq_map, List.map_cons, List.map_map]
        congr 1
        · simp
        · apply List.map_congr_left
          intro k _
          simp only [Function.comp_apply]
          congr 1
          rw [Nat.succ_mul]
          omega

end LLVMCooperativeThreadArray

end executive

namespace executive

namespace LLVMCooperativeThreadArray

variable {σ : Type}

end LLVMCooperativeThreadArray

end executive

/-! ## A block whose threads all finish at once (C10) -/

namespace executive

namespace LLVMCooperativeThreadArray

variable {σ : Type}

/-- A state that an iteration of the drain loop leaves as it is, and whose
free pool does not hold every slot, is never left by the loop. -/
theorem drain_stuck (manager : ModuleManager σ) (callType : CallType)
    (st : LLVMCooperativeThreadArray σ) (iteration : Iteration)
    (hne : st._freeContexts.length ≠ st._contexts.length)
    (hfix : drainIteration manager callType st = .ok (st, iteration)) (fuel : Nat) :
    drain manager callType fuel st = .ok none := by
  induction fuel with
  | zero => simp [drain, hne]
  | succ fuel ih => simp [drain, hne, hfix, ih]

theorem executeThread_pools {st st1 : LLVMCooperativeThreadArray σ} {contextId : Nat}
    (h : _executeThread st contextId = .ok st1) :
    st1._freeContexts = st._freeContexts ∧ st1._reclaimedContexts = st._reclaimedContexts := by
  unfold _executeThread at h
  dsimp only at h
  repeat' split at h
  all_goals first
    | (cases h; done)
    | (simp only [Except.ok.injEq] at h
       subst h
       exact ⟨rfl, rfl⟩)

theorem executeWarp_pools {st st1 : LLVMCooperativeThreadArray σ} {warp : List Nat}
    (h : _executeWarp st warp = .ok st1) :
    st1._freeContexts = st._freeContexts ∧ st1._reclaimedContexts = st._reclaimedContexts := by
  induction warp generalizing st with
  | nil =>
    simp only [_executeWarp, Except.ok.injEq] at h
    subst h
    exact ⟨rfl, rfl⟩
  | cons c rest ih =>
    unfold _executeWarp at h
    cases h0 : _executeThread st c with
    | error e => simp [h0] at h
    | ok s0 =>
      simp only [h0] at h
      obtain ⟨a1, a2⟩ := executeThread_pools h0
      obtain ⟨b1, b2⟩ := ih h
      exact ⟨b1.trans a1, b2.trans a2⟩

theorem finishContext_pools {callType : CallType} {st st1 : LLVMCooperativeThreadArray σ}
    {contextId : Nat} {done : Bool}
    (h : _finishContext callType st contextId = .ok (st1, done)) :
    st1._freeContexts = st._freeContexts ∧ st1._reclaimedContexts = st._reclaimedContexts := by
  unfold _finishContext at h
  dsimp only at h
  repeat' split at h
  all_goals first
    | (cases h; done)
    | (simp only [Except.ok.injEq, Prod.mk.injEq] at h
       obtain ⟨h1, _⟩ := h
       subst h1
       exact ⟨rfl, rfl⟩)

theorem reclaimWarp_free {callType : CallType} {st st1 : LLVMCooperativeThreadArray σ}
    {warp : List Nat} (h : reclaimWarp callType st warp = .ok st1) :
    st1._freeContexts = st._freeContexts := by
  induction warp generalizing st with
  | nil =>
    simp only [reclaimWarp, Except.ok.injEq] at h
    subst h
    rfl
  | cons c rest ih =>
    unfold reclaimWarp at h
    cases h0 : _reclaimContext callType st c with
    | error e => simp [h0] at h
    | ok s0 =>
      simp only [h0] at h
      have hstep : s0._freeContexts = st._freeContexts := by
        unfold _reclaimContext at h0
        cases hf : _finishContext callType st c with
        | error e => simp [hf] at h0
        | ok r =>
          obtain ⟨s, done⟩ := r
          have hp := (finishContext_pools hf).1
          cases done with
          | true =>
            simp only [hf, Except.ok.injEq] at h0
            subst h0
            exact hp
          | false =>
            simp only [hf, Except.ok.injEq] at h0
            subst h0
            exact hp
      exact (ih h).trans hstep

/-- A call of `_initializeNewContext` never adds a slot to the free pool, and
it takes one from it when the reclaimed pool is empty. -/
theorem initializeNewContext_free {st st1 : LLVMCooperativeThreadArray σ}
    {threadId ctaId contextId : Nat}
    (h : _initializeNewContext st threadId ctaId = .ok (st1, contextId)) :
    st1._freeContexts.length ≤ st._freeContexts.length ∧
      (st._reclaimedContexts = [] → st1._freeContexts.length < st._freeContexts.length) := by
  unfold _initializeNewContext at h
  cases hr : st._reclaimedContexts.getLast? with
  | none =>
    simp only [hr] at h
    cases hf : st._freeContexts.getLast? with
    | none => simp [hf] at h
    | some c =>
      have hne : st._freeContexts ≠ [] := by
        intro hnil
        rw [hnil] at hf
        simp at hf
      have hlen : 0 < st._freeContexts.length := List.length_pos.mpr hne
      simp only [hf] at h
      try dsimp only at h
      repeat' split at h
      all_goals first
        | (cases h; done)
        | (simp only [Except.ok.injEq, Prod.mk.injEq] at h
           obtain ⟨h1, _⟩ := h
           subst h1
           simp only [List.length_dropLast]
           exact ⟨by omega, fun _ => by omega⟩)
  | some c =>
    have hne : st._reclaimedContexts ≠ [] := by
      intro hnil
      rw [hnil] at hr
      simp at hr
    simp only [hr] at h
    try dsimp only at h
    repeat' split at h
    all_goals first
      | (cases h; done)
      | (simp only [Except.ok.injEq, Prod.mk.injEq] at h
         obtain ⟨h1, _⟩ := h
         subst h1
         exact ⟨le_refl _, fun hnil => absurd hnil hne⟩)

theorem initializeWarp_free {id : Nat} {st st1 : LLVMCooperativeThreadArray σ}
    {threadId count : Nat} {warpList : List (Nat × Nat)}
    (h : initializeWarp id st threadId count = .ok (st1, warpList)) :
    st1._freeContexts.length ≤ st._freeContexts.length ∧
      (0 < count → st._reclaimedContexts = [] →
        st1._freeContexts.length < st._freeContexts.length) := by
  induction count generalizing st threadId warpList with
  | zero =>
    simp only [initializeWarp, Except.ok.injEq, Prod.mk.injEq] at h
    obtain ⟨h1, _⟩ := h
    subst h1
    exact ⟨le_refl _, fun h0 => absurd h0 (lt_irrefl 0)⟩
  | succ count ih =>
    unfold initializeWarp at h
    cases h0 : _initializeNewContext st threadId id with
    | error e => simp [h0] at h
    | ok r0 =>
      obtain ⟨s0, c0⟩ := r0
      simp only [h0] at h
      cases h1 : initializeWarp id s0 (threadId + 1) count with
      | error e => simp [h1] at h
      | ok r1 =>
        obtain ⟨s1, rest⟩ := r1
        simp only [h1, Except.ok.injEq, Prod.mk.injEq] at h
        obtain ⟨h2, _⟩ := h
        subst h2
        obtain ⟨a1, a2⟩ := initializeNewContext_free h0
        obtain ⟨b1, _⟩ := ih h1
        exact ⟨le_trans b1 a1, fun _ hnil => Nat.lt_of_le_of_lt b1 (a2 hnil)⟩

theorem launchWarp_free {callType : CallType} {id : Nat} {st st1 : LLVMCooperativeThreadArray σ}
    {threadId count : Nat} {group : List (Nat × Nat)}
    (h : launchWarp callType id st threadId count = .ok (st1, group)) :
    st1._freeContexts.length ≤ st._freeContexts.length ∧
      (0 < count → st._reclaimedContexts = [] →
        st1._freeContexts.length < st._freeContexts.length) := by
  unfold launchWarp at h
  cases h0 : initializeWarp id st threadId count with
  | error e => simp [h0] at h
  | ok r0 =>
    obtain ⟨s0, warpList⟩ := r0
    simp only [h0] at h
    cases h1 : _executeWarp s0 (warpList.map Prod.snd) with
    | error e => simp [h1] at h
    | ok s1 =>
      simp only [h1] at h
      cases h2 : reclaimWarp callType s1 (warpList.map Prod.snd) with
      | error e => simp [h2] at h
      | ok s2 =>
        simp only [h2, Except.ok.injEq, Prod.mk.injEq] at h
        obtain ⟨h3, _⟩ := h
        subst h3
        obtain ⟨a1, a2⟩ := initializeWarp_free h0
        have e1 := (executeWarp_pools h1).1
        have e2 := reclaimWarp_free h2
        rw [e2, e1]
        exact ⟨a1, a2⟩

theorem launchWarps_free {callType : CallType} {id : Nat} {st st1 : LLVMCooperativeThreadArray σ}
    {threadId warps : Nat} {groups : List (List (Nat × Nat))}
    (h : launchWarps callType id st threadId warps = .ok (st1, groups)) :
    st1._freeContexts.length ≤ st._freeContexts.length ∧
      (0 < warps → 0 < st._warpSize → st._reclaimedContexts = [] →
        st1._freeContexts.length < st._freeContexts.length) ∧
      (warps = 0 → st1._reclaimedContexts = st._reclaimedContexts) := by
  induction warps generalizing st threadId groups with
  | zero =>
    simp only [launchWarps, Except.ok.injEq, Prod.mk.injEq] at h
    obtain ⟨h1, _⟩ := h
    subst h1
    exact ⟨le_refl _, fun h0 => absurd h0 (lt_irrefl 0), fun _ => rfl⟩
  | succ warps ih =>
    unfold launchWarps at h
    cases h0 : launchWarp callType id st threadId st._warpSize with
    | error e => simp [h0] at h
    | ok r0 =>
      obtain ⟨s0, group⟩ := r0
      simp only [h0] at h
      cases h1 : launchWarps callType id s0 (threadId + st._warpSize) warps with
      | error e => simp [h1] at h
      | ok r1 =>
        obtain ⟨s1, rest⟩ := r1
        simp only [h1, Except.ok.injEq, Prod.mk.injEq] at h
        obtain ⟨h2, _⟩ := h
        subst h2
        obtain ⟨a1, a2⟩ := launchWarp_free h0
        obtain ⟨b1, _, _⟩ := ih h1
        exact ⟨le_trans b1 a1, fun _ hw hnil => Nat.lt_of_le_of_lt b1 (a2 hw hnil),
          fun hz => absurd hz (Nat.succ_ne_zero _)⟩

/-- After the launch phase of a block with at least one thread, started with
an empty reclaimed pool, the free pool is smaller than before, whatever the
native functions do. -/
theorem launch_takes_from_free_pool {callType : CallType} {id : Nat}
    {st st1 : LLVMCooperativeThreadArray σ} {groups : List (List (Nat × Nat))}
    (hnil : st._reclaimedContexts = []) (hpos : 0 < st._contexts.length)
    (h : launch callType st id = .ok (st1, groups)) :
    st1._freeContexts.length < st._freeContexts.length ∧
      st1._contexts.length = st._contexts.length := by
  unfold launch at h
  by_cases hw : st._warpSize = 0
  · simp [hw] at h
  · have hwpos : 0 < st._warpSize := Nat.pos_of_ne_zero hw
    simp only [hw, if_false] at h
    cases h0 : launchWarps callType id st 0 (st._contexts.length / st._warpSize) with
    | error e => simp [h0] at h
    | ok r0 =>
      obtain ⟨s0, full⟩ := r0
      simp only [h0] at h
      cases h1 : launchWarp callType id s0
          (st._contexts.length / st._warpSize * st._warpSize)
          (st._contexts.length % st._warpSize) with
      | error e => simp [h1] at h
      | ok r1 =>
        obtain ⟨s1, last⟩ := r1
        simp only [h1, Except.ok.injEq, Prod.mk.injEq] at h
        obtain ⟨h2, _⟩ := h
        subst h2
        obtain ⟨a1, a2, a3⟩ := launchWarps_free h0
        obtain ⟨b1, b2⟩ := launchWarp_free h1
        have hshape := ((launchWarps_ids h0).2.shape_trans (launchWarp_ids h1).2).2
        refine ⟨?_, hshape⟩
        by_cases hfull : st._contexts.length / st._warpSize = 0
        · have hrem : 0 < st._contexts.length % st._warpSize := by
            have := Nat.div_add_mod st._contexts.length st._warpSize
            rw [hfull] at this
            omega
          have hs0 : s0._reclaimedContexts = [] := by rw [a3 hfull, hnil]
          exact Nat.lt_of_lt_of_le (b2 hrem hs0) a1
        · exact Nat.lt_of_le_of_lt b1 (a2 (Nat.pos_of_ne_zero hfull) hwpos hnil)

/-- C10 on the code.  For every block of `N > 0` threads whose scheduler starts
with every slot in the free pool and an empty reclaimed pool, and whatever the
native functions do, the launch phase leaves fewer than `N` slots in the free
pool, so a run of `executeCta` that returns has gone through at least one
iteration of the drain loop.  For `N = 10`, `W = 4` and native functions that
write the finished sentinel at once: the launch phase puts the finished slots
into the reclaimed pool, after it the free pool holds 6 of the 10 slots and
every queue is empty; every iteration of the drain loop takes the empty queue
of function 1, and `executeCta` does not return, whatever the number of
iterations granted. -/
theorem all_finishing_block_never_returns :
    (∀ (σ : Type) (manager : ModuleManager σ) (callType : CallType) (fuel id : Nat)
        (st st1 : LLVMCooperativeThreadArray σ) (run : Run),
        st._reclaimedContexts = [] → st._freeContexts.length = st._contexts.length →
        0 < st._contexts.length →
        executeCta manager callType fuel st id = .ok (some (st1, run)) →
        run.drained ≠ []) ∧
    Sample.ready = .ok Sample.afterSetup ∧
    launch Sample.callType Sample.afterSetup 0 =
      .ok (Sample.afterLaunch,
        [[(0, 9), (1, 8), (2, 7), (3, 6)], [(4, 6), (5, 7), (6, 8), (7, 9)], [(8, 9), (9, 8)]]) ∧
    Sample.afterLaunch._contexts.length = 10 ∧
    Sample.afterLaunch._freeContexts = [0, 1, 2, 3, 4, 5] ∧
    Sample.afterLaunch._reclaimedContexts = [6, 7, 9, 8] ∧
    Sample.afterLaunch._queuedThreads = [[], [], []] ∧
    drainIteration Sample.manager Sample.callType Sample.afterLaunch =
      .ok (Sample.afterIteration, { function := 1, warpList := [], groups := [[]] }) ∧
    drainIteration Sample.manager Sample.callType Sample.afterIteration =
      .ok (Sample.afterIteration, { function := 1, warpList := [], groups := [[]] }) ∧
    ∀ fuel, executeCta Sample.manager Sample.callType fuel Sample.afterSetup 0 = .ok none := by
  have hlaunch : launch Sample.callType Sample.afterSetup 0 =
      .ok (Sample.afterLaunch,
        [[(0, 9), (1, 8), (2, 7), (3, 6)], [(4, 6), (5, 7), (6, 8), (7, 9)], [(8, 9), (9, 8)]]) :=
    rfl
  have hfirst : drainIteration Sample.manager Sample.callType Sample.afterLaunch =
      .ok (Sample.afterIteration, { function := 1, warpList := [], groups := [[]] }) := rfl
  have hfix : drainIteration Sample.manager Sample.callType Sample.afterIteration =
      .ok (Sample.afterIteration, { function := 1, warpList := [], groups := [[]] }) := rfl
  have hne1 : Sample.afterLaunch._freeContexts.length ≠ Sample.afterLaunch._contexts.length := by
    decide
  have hne2 : Sample.afterIteration._freeContexts.length ≠
      Sample.afterIteration._contexts.length := by
    decide
  refine ⟨?_, rfl, hlaunch, rfl, rfl, rfl, rfl, hfirst, hfix, ?_⟩
  · intro σ manager callType fuel id st st1 run hnil hfull hpos h
    unfold executeCta at h
    cases h0 : launch callType st id with
    | error e => simp [h0] at h
    | ok r0 =>
      obtain ⟨s0, launched⟩ := r0
      simp only [h0] at h
      obtain ⟨hlt, hlen⟩ := launch_takes_from_free_pool hnil hpos h0
      have hne : s0._freeContexts.length ≠ s0._contexts.length := by omega
      cases fuel with
      | zero => simp [drain, hne] at h
      | succ fuel =>
        simp only [drain, hne, ne_eq, not_false_eq_true, if_true] at h
        cases h1 : drainIteration manager callType s0 with
        | error e => simp [h1] at h
        | ok r1 =>
          obtain ⟨s1, iteration⟩ := r1
          simp only [h1] at h
          cases h2 : drain manager callType fuel s1 with
          | error e => simp [h2] at h
          | ok r2 =>
            cases r2 with
            | none => simp [h2] at h
            | some r3 =>
              obtain ⟨s2, iterations⟩ := r3
              simp only [h2, Except.ok.injEq, Option.some.injEq, Prod.mk.injEq] at h
              obtain ⟨_, h4⟩ := h
              subst h4
              simp
  · intro fuel
    unfold executeCta
    rw [hlaunch]
    cases fuel with
    | zero => simp [drain, hne1]
    | succ fuel =>
      have hstuck :=
        drain_stuck Sample.manager Sample.callType Sample.afterIteration _ hne2 hfix fuel
      simp [drain, hne1, hfirst, hstuck]

end LLVMCooperativeThreadArray

end executive

/-! ## What the scheduler does with a header -/

namespace executive

namespace LLVMCooperativeThreadArray

variable {σ : Type}

theorem header_eq_some {st : LLVMCooperativeThreadArray σ} {contextId : Nat} {words : List Nat}
    (h : header st contextId = some words) :
    ∃ context stack frame, st._contexts[contextId]? = some context ∧
      st._stacks[contextId]? = some stack ∧ stack.frameAt context.local_ = some frame ∧
      frame.words = words := by
  unfold header at h
  split at h
  · rename_i context stack hc hs
    split at h
    · rename_i frame hf
      simp only [Option.some.injEq] at h
      exact ⟨context, stack, frame, hc, hs, hf, h⟩
    · cases h
  · cases h

theorem header_of_frame {st : LLVMCooperativeThreadArray σ} {contextId : Nat}
    {context : LLVMContext} {stack : LLVMFunctionCallStack} {frame : Frame}
    (hc : st._contexts[contextId]? = some context) (hs : st._stacks[contextId]? = some stack)
    (hf : stack.frameAt context.local_ = some frame) :
    header st contextId = some frame.words := by
  simp only [header, hc, hs, hf]

/-- The header of a slot depends on the context and the stack of that slot
only. -/
theorem header_congr {st st1 : LLVMCooperativeThreadArray σ} {contextId : Nat}
    (hc : st1._contexts[contextId]? = st._contexts[contextId]?)
    (hs : st1._stacks[contextId]? = st._stacks[contextId]?) :
    header st1 contextId = header st contextId := by
  simp only [header, hc, hs]

/-- What `_finishContext` changes: never the pools; the queues only by
appending the slot to the queue of function 0; the stack and the context of
the slot only; nothing at all when it returns `true`. -/
theorem finishContext_effect {callType : CallType} {st st1 : LLVMCooperativeThreadArray σ}
    {contextId : Nat} {done : Bool}
    (h : _finishContext callType st contextId = .ok (st1, done)) :
    st1._freeContexts = st._freeContexts ∧ st1._reclaimedContexts = st._reclaimedContexts ∧
      (st1._queuedThreads = st._queuedThreads ∨
        (done = false ∧ ∃ queue, st._queuedThreads[0]? = some queue ∧
          st1._queuedThreads = st._queuedThreads.set 0 (queue ++ [contextId]))) ∧
      (∀ other, other ≠ contextId → st1._stacks[other]? = st._stacks[other]? ∧
        st1._contexts[other]? = st._contexts[other]?) ∧
      (done = true → st1 = st) := by
  unfold _finishContext at h
  dsimp only at h
  repeat' split at h
  all_goals first
    | (cases h; done)
    | (simp only [Except.ok.injEq, Prod.mk.injEq] at h
       obtain ⟨h1, h2⟩ := h
       subst h1
       subst h2
       refine ⟨rfl, rfl, ?_, ?_, ?_⟩
       · first
           | (left; rfl)
           | (right; exact ⟨rfl, _, by assumption, rfl⟩)
       · intro other hne
         first
           | exact ⟨rfl, rfl⟩
           | exact ⟨List.getElem?_set_ne (Ne.symm hne), List.getElem?_set_ne (Ne.symm hne)⟩
       · first
           | (intro _; rfl)
           | (intro hd; cases hd))

/-- What `_initializeNewContext` changes in the pools: it takes the last slot
of the reclaimed pool, or of the free pool when the reclaimed pool is empty;
the queues and the stacks stay as they are, and so do the contexts of the
other slots. -/
theorem initializeNewContext_effect {st st1 : LLVMCooperativeThreadArray σ}
    {threadId ctaId contextId : Nat}
    (h : _initializeNewContext st threadId ctaId = .ok (st1, contextId)) :
    st1._queuedThreads = st._queuedThreads ∧ st1._stacks = st._stacks ∧
      (∀ other, other ≠ contextId → st1._contexts[other]? = st._contexts[other]?) ∧
      ((st._reclaimedContexts = [] ∧ st1._reclaimedContexts = [] ∧
          st1._freeContexts ++ [contextId] = st._freeContexts) ∨
        (st1._reclaimedContexts ++ [contextId] = st._reclaimedContexts ∧
          st1._freeContexts = st._freeContexts)) := by
  unfold _initializeNewContext at h
  cases hr : st._reclaimedContexts.getLast? with
  | none =>
    have hnil : st._reclaimedContexts = [] := List.getLast?_eq_none_iff.mp hr
    simp only [hr] at h
    cases hf : st._freeContexts.getLast? with
    | none => simp [hf] at h
    | some c =>
      have hlast : st._freeContexts.dropLast ++ [c] = st._freeContexts :=
        List.dropLast_append_getLast? c (by simp [hf])
      simp only [hf] at h
      try dsimp only at h
      repeat' split at h
      all_goals first
        | (cases h; done)
        | (simp only [Except.ok.injEq, Prod.mk.injEq] at h
           obtain ⟨h1, h2⟩ := h
           subst h1
           subst h2
           exact ⟨rfl, rfl, fun other hne => List.getElem?_set_ne (Ne.symm hne),
             Or.inl ⟨hnil, hnil, hlast⟩⟩)
  | some c =>
    have hlast : st._reclaimedContexts.dropLast ++ [c] = st._reclaimedContexts :=
      List.dropLast_append_getLast? c (by simp [hr])
    simp only [hr] at h
    try dsimp only at h
    repeat' split at h
    all_goals first
      | (cases h; done)
      | (simp only [Except.ok.injEq, Prod.mk.injEq] at h
         obtain ⟨h1, h2⟩ := h
         subst h1
         subst h2
         exact ⟨rfl, rfl, fun other hne => List.getElem?_set_ne (Ne.symm hne),
           Or.inr ⟨hlast, rfl⟩⟩)

/-- Running a thread changes the world and the words of a frame of its own
stack, nothing else. -/
theorem executeThread_effect {st st1 : LLVMCooperativeThreadArray σ} {contextId : Nat}
    (h : _executeThread st contextId = .ok st1) :
    st1._freeContexts = st._freeContexts ∧ st1._reclaimedContexts = st._reclaimedContexts ∧
      st1._queuedThreads = st._queuedThreads ∧ st1._contexts = st._contexts ∧
      (∀ other, other ≠ contextId → st1._stacks[other]? = st._stacks[other]?) := by
  unfold _executeThread at h
  dsimp only at h
  repeat' split at h
  all_goals first
    | (cases h; done)
    | (simp only [Except.ok.injEq] at h
       subst h
       exact ⟨rfl, rfl, rfl, rfl, fun other hne => List.getElem?_set_ne (Ne.symm hne)⟩)

/-- The choice of the next function changes `_nextFunction` and the table of
resident functions, nothing else. -/
theorem computeNextFunction_effect {manager : ModuleManager σ}
    {st st1 : LLVMCooperativeThreadArray σ} (h : _computeNextFunction manager st = .ok st1) :
    st1._freeContexts = st._freeContexts ∧ st1._reclaimedContexts = st._reclaimedContexts ∧
      st1._queuedThreads = st._queuedThreads ∧ st1._contexts = st._contexts ∧
      st1._stacks = st._stacks ∧ st1._warpSize = st._warpSize := by
  unfold _computeNextFunction at h
  dsimp only at h
  repeat' split at h
  all_goals first
    | (cases h; done)
    | (simp only [Except.ok.injEq] at h
       subst h
       exact ⟨rfl, rfl, rfl, rfl, rfl, rfl⟩)

/-- What `_reclaimContext` changes: the slot is appended to the reclaimed pool
when `_finishContext` says it has finished. -/
theorem reclaimContext_effect {callType : CallType} {st st1 : LLVMCooperativeThreadArray σ}
    {contextId : Nat} (h : _reclaimContext callType st contextId = .ok st1) :
    ∃ st0 done, _finishContext callType st contextId = .ok (st0, done) ∧
      st1._freeContexts = st0._freeContexts ∧
      st1._reclaimedContexts =
        (if done then st0._reclaimedContexts ++ [contextId] else st0._reclaimedContexts) ∧
      st1._queuedThreads = st0._queuedThreads ∧ st1._contexts = st0._contexts ∧
      st1._stacks = st0._stacks := by
  unfold _reclaimContext at h
  cases hf : _finishContext callType st contextId with
  | error e => simp [hf] at h
  | ok r =>
    obtain ⟨st0, done⟩ := r
    cases done with
    | true =>
      simp only [hf, Except.ok.injEq] at h
      subst h
      exact ⟨st0, true, rfl, rfl, rfl, rfl, rfl, rfl⟩
    | false =>
      simp only [hf, Except.ok.injEq] at h
      subst h
      exact ⟨_, false, rfl, rfl, rfl, rfl, rfl, rfl⟩

/-- What `_destroyContext` changes: the slot is appended to the free pool when
`_finishContext` says it has finished. -/
theorem destroyContext_effect {callType : CallType} {st st1 : LLVMCooperativeThreadArray σ}
    {contextId : Nat} (h : _destroyContext callType st contextId = .ok st1) :
    ∃ st0 done, _finishContext callType st contextId = .ok (st0, done) ∧
      st1._freeContexts =
        (if done then st0._freeContexts ++ [contextId] else st0._freeContexts) ∧
      st1._reclaimedContexts = st0._reclaimedContexts ∧
      st1._queuedThreads = st0._queuedThreads ∧ st1._contexts = st0._contexts ∧
      st1._stacks = st0._stacks := by
  unfold _destroyContext at h
  cases hf : _finishContext callType st contextId with
  | error e => simp [hf] at h
  | ok r =>
    obtain ⟨st0, done⟩ := r
    cases done with
    | true =>
      simp only [hf, Except.ok.injEq] at h
      subst h
      exact ⟨st0, true, rfl, rfl, rfl, rfl, rfl, rfl⟩
    | false =>
      simp only [hf, Except.ok.injEq] at h
      subst h
      exact ⟨_, false, rfl, rfl, rfl, rfl, rfl, rfl⟩

end LLVMCooperativeThreadArray

end executive

/-! ## Where a slot is: pools, queues, slots in flight -/

namespace executive

namespace LLVMCooperativeThreadArray

variable {σ : Type}

theorem count_flatten_set (x : Nat) (l : List (List Nat)) (i : Nat) (q q1 : List Nat)
    (h : l[i]? = some q) :
    (l.set i q1).flatten.count x + q.count x = l.flatten.count x + q1.count x := by
  induction l generalizing i with
  | nil => simp at h
  | cons a l ih =>
    cases i with
    | zero =>
      simp only [List.getElem?_cons_zero, Option.some.injEq] at h
      subst h
      simp only [List.set_cons_zero, List.flatten_cons, List.count_append]
      omega
    | succ i =>
      simp only [List.getElem?_cons_succ] at h
      have := ih i h
      simp only [List.set_cons_succ, List.flatten_cons, List.count_append]
      omega

theorem count_le_count_flatten (x : Nat) (l : List (List Nat)) (i : Nat) (q : List Nat)
    (h : l[i]? = some q) : q.count x ≤ l.flatten.count x := by
  have := count_flatten_set x l i q [] h
  simp only [List.count_nil] at this
  omega

/-- Two different queues together hold a slot no more often than all the
queues do. -/
theorem count_add_count_le_count_flatten (x : Nat) (l : List (List Nat)) (i j : Nat)
    (qi qj : List Nat) (hi : l[i]? = some qi) (hj : l[j]? = some qj) (hij : i ≠ j) :
    qi.count x + qj.count x ≤ l.flatten.count x := by
  have h1 := count_flatten_set x l i qi [] hi
  have hj1 : (l.set i [])[j]? = some qj := by
    rw [List.getElem?_set_ne hij]
    exact hj
  have h2 := count_le_count_flatten x (l.set i []) j qj hj1
  simp only [List.count_nil] at h1
  omega

theorem count_erase_add (x c : Nat) (l : List Nat) (h : c ∈ l) :
    (l.erase c).count x + [c].count x = l.count x := by
  by_cases hx : x = c
  · subst hx
    have hpos : 0 < l.count x := List.count_pos_iff.mpr h
    rw [List.count_erase_self]
    simp only [List.count_singleton_self]
    omega
  · rw [List.count_erase_of_ne hx]
    simp [List.count_singleton, Ne.symm hx]

/-- No step of `executeCta` makes a slot occur more often in the pools, the
queues and the slots in flight. -/
theorem Step.occurrences_le {manager : ModuleManager σ} {callType : CallType}
    {st st1 : LLVMCooperativeThreadArray σ} {active active1 : List Nat}
    (h : Step manager callType st active st1 active1) (x : Nat) :
    occurrences st1 active1 x ≤ occurrences st active x := by
  cases h with
  | allocate hi =>
    obtain ⟨hq, _, _, hp⟩ := initializeNewContext_effect hi
    unfold occurrences
    rcases hp with ⟨h0, h1, hf⟩ | ⟨hr, hf⟩
    · rw [hq, h0, h1, ← hf]
      simp only [List.count_append]
      omega
    · rw [hq, hf, ← hr]
      simp only [List.count_append]
      omega
  | execute he =>
    obtain ⟨hf, hr, hq, _, _⟩ := executeThread_effect he
    unfold occurrences
    rw [hf, hr, hq]
  | reclaim hmem hr =>
    rename_i contextId
    obtain ⟨st0, done, hfin, h1, h2, h3, _, _⟩ := reclaimContext_effect hr
    obtain ⟨e1, e2, e3, _, e5⟩ := finishContext_effect hfin
    have herase := count_erase_add x _ _ hmem
    unfold occurrences
    rw [h1, h2, h3, e1]
    cases done with
    | true =>
      rw [e5 rfl] at e2 ⊢
      simp only [if_true, List.count_append]
      omega
    | false =>
      simp only [Bool.false_eq_true, if_false]
      rw [e2]
      rcases e3 with e3 | ⟨_, queue, hq0, e3⟩
      · rw [e3]
        omega
      · have hset := count_flatten_set x st._queuedThreads 0 queue (queue ++ [contextId]) hq0
        rw [e3]
        simp only [List.count_append] at hset
        omega
  | destroy hmem hd =>
    rename_i contextId
    obtain ⟨st0, done, hfin, h1, h2, h3, _, _⟩ := destroyContext_effect hd
    obtain ⟨e1, e2, e3, _, e5⟩ := finishContext_effect hfin
    have herase := count_erase_add x _ _ hmem
    unfold occurrences
    rw [h1, h2, h3, e2]
    cases done with
    | true =>
      rw [e5 rfl] at e1 ⊢
      simp only [if_true, List.count_append]
      omega
    | false =>
      simp only [Bool.false_eq_true, if_false]
      rw [e1]
      rcases e3 with e3 | ⟨_, queue, hq0, e3⟩
      · rw [e3]
        omega
      · have hset := count_flatten_set x st._queuedThreads 0 queue (queue ++ [contextId]) hq0
        rw [e3]
        simp only [List.count_append] at hset
        omega
  | select hc hw =>
    obtain ⟨hf, hr, hq, _, _, _⟩ := computeNextFunction_effect hc
    have hset := count_flatten_set x _ _ _ [] hw
    unfold occurrences
    simp only [List.count_nil] at hset ⊢
    rw [hf, hr, ← hq]
    omega
  | shutdown =>
    unfold occurrences _destroyContexts
    simp only [List.count_append, List.count_nil]
    omega

theorem count_flatten_of_empty (x : Nat) (l : List (List Nat)) (h : ∀ queue ∈ l, queue = []) :
    l.flatten.count x = 0 := by
  induction l with
  | nil => rfl
  | cons a l ih =>
    have ha : a = [] := h a (List.mem_cons_self a l)
    subst ha
    simp only [List.flatten_cons, List.nil_append]
    exact ih (fun queue hq => h queue (List.mem_cons_of_mem _ hq))

theorem resize_empty (l : List (List Nat)) (n : Nat) (h : ∀ queue ∈ l, queue = []) :
    ∀ queue ∈ resize l n [], queue = [] := by
  intro queue hq
  unfold resize at hq
  rcases List.mem_append.mp hq with hq | hq
  · exact h queue (List.mem_of_mem_take hq)
  · exact (List.mem_replicate.mp hq).2

/-- After `setup` of a thread array with an empty reclaimed pool and empty
queues, every slot occurs at most once: in the free pool. -/
theorem setup_occurrences {manager : ModuleManager σ} {moduleLoaded : Bool}
    {st0 st : LLVMCooperativeThreadArray σ} {kernel : KernelInfo}
    (hr : st0._reclaimedContexts = []) (hq : ∀ queue ∈ st0._queuedThreads, queue = [])
    (h : setup manager moduleLoaded st0 kernel = .ok st) (x : Nat) :
    occurrences st [] x ≤ 1 := by
  unfold setup at h
  dsimp only at h
  repeat' split at h
  all_goals first
    | (cases h; done)
    | (simp only [Except.ok.injEq] at h
       subst h
       unfold occurrences
       simp only [hr, List.count_nil, add_zero]
       have hrange := List.nodup_iff_count_le_one.mp
         (List.nodup_range (kernel.blockDim.x * kernel.blockDim.y * kernel.blockDim.z)) x
       first
         | (rw [count_flatten_of_empty x _ hq]
            omega)
         | (rw [count_flatten_of_empty x _ (resize_empty _ _ hq)]
            omega))

/-- In every state `executeCta` can be in, every slot occurs at most once in
the free pool, the reclaimed pool, the queues and the slots in flight taken
together. -/
theorem Reachable.occurrences_le_one {manager : ModuleManager σ} {callType : CallType}
    {st : LLVMCooperativeThreadArray σ} {active : List Nat}
    (h : Reachable manager callType st active) (x : Nat) : occurrences st active x ≤ 1 := by
  induction h with
  | setup hr hq hs => exact setup_occurrences hr hq hs x
  | step _ hstep ih => exact le_trans (hstep.occurrences_le x) ih

end LLVMCooperativeThreadArray

end executive

/-! ## A thread that has finished (C11) -/

namespace executive

namespace LLVMCooperativeThreadArray

variable {σ : Type}

theorem queued_iff_count {st : LLVMCooperativeThreadArray σ} {contextId : Nat} :
    Queued st contextId ↔ 0 < st._queuedThreads.flatten.count contextId := by
  unfold Queued
  rw [List.count_pos_iff, List.mem_flatten]

/-- The scheduler, reading a header whose word 0 is the finished sentinel in
`_reclaimContext`, appends the slot to the reclaimed pool and changes nothing
else. -/
theorem reclaimContext_of_finished (callType : CallType) {st : LLVMCooperativeThreadArray σ}
    {contextId : Nat} {words : List Nat} (hheader : header st contextId = some words)
    (hfinished : words.getD 0 0 = finished) :
    _reclaimContext callType st contextId =
      .ok { st with _reclaimedContexts := st._reclaimedContexts ++ [contextId] } := by
  obtain ⟨context, stack, frame, hc, hs, hf, hw⟩ := header_eq_some hheader
  subst hw
  have hfin : _finishContext callType st contextId = .ok (st, true) := by
    unfold _finishContext
    simp only [hc, hs, hf, hfinished, if_true]
  unfold _reclaimContext
  simp only [hfin]

/-- Processing the header of another slot leaves a slot where it is: its
stack, its context and its header are unchanged, it stays in the reclaimed
pool, and it is put into no queue. -/
theorem reclaimContext_other {callType : CallType} {st st1 : LLVMCooperativeThreadArray σ}
    {contextId other : Nat} (hne : other ≠ contextId)
    (h : _reclaimContext callType st contextId = .ok st1) :
    st1._stacks[other]? = st._stacks[other]? ∧ st1._contexts[other]? = st._contexts[other]? ∧
      header st1 other = header st other ∧
      (other ∈ st._reclaimedContexts → other ∈ st1._reclaimedContexts) ∧
      st1._queuedThreads.flatten.count other = st._queuedThreads.flatten.count other := by
  obtain ⟨st0, done, hfin, _, h2, h3, h4, h5⟩ := reclaimContext_effect h
  obtain ⟨_, e2, e3, e4, _⟩ := finishContext_effect hfin
  obtain ⟨hs, hc⟩ := e4 other hne
  have hs1 : st1._stacks[other]? = st._stacks[other]? := by rw [h5]; exact hs
  have hc1 : st1._contexts[other]? = st._contexts[other]? := by rw [h4]; exact hc
  refine ⟨hs1, hc1, header_congr hc1 hs1, ?_, ?_⟩
  · intro hmem
    rw [h2, e2]
    cases done with
    | true => simp [hmem]
    | false => simpa using hmem
  · rw [h3]
    rcases e3 with e3 | ⟨_, queue, hq0, e3⟩
    · rw [e3]
    · have hset := count_flatten_set other st._queuedThreads 0 queue (queue ++ [contextId]) hq0
      rw [e3]
      have hsingle : [contextId].count other = 0 := by
        simp [List.count_singleton, Ne.symm hne]
      simp only [List.count_append, hsingle] at hset
      omega

theorem reclaimWarp_append {callType : CallType} {st st2 : LLVMCooperativeThreadArray σ}
    {first second : List Nat} (h : reclaimWarp callType st (first ++ second) = .ok st2) :
    ∃ st1, reclaimWarp callType st first = .ok st1 ∧ reclaimWarp callType st1 second = .ok st2 := by
  induction first generalizing st with
  | nil => exact ⟨st, rfl, h⟩
  | cons c rest ih =>
    simp only [List.cons_append] at h
    rw [reclaimWarp] at h
    cases h0 : _reclaimContext callType st c with
    | error e => simp [h0] at h
    | ok s0 =>
      simp only [h0] at h
      obtain ⟨s1, h1, h2⟩ := ih h
      refine ⟨s1, ?_, h2⟩
      rw [reclaimWarp]
      simp only [h0]
      exact h1

theorem reclaimWarp_other {callType : CallType} {st st1 : LLVMCooperativeThreadArray σ}
    {warp : List Nat} {other : Nat} (hne : other ∉ warp)
    (h : reclaimWarp callType st warp = .ok st1) :
    st1._stacks[other]? = st._stacks[other]? ∧ st1._contexts[other]? = st._contexts[other]? ∧
      header st1 other = header st other ∧
      (other ∈ st._reclaimedContexts → other ∈ st1._reclaimedContexts) ∧
      st1._queuedThreads.flatten.count other = st._queuedThreads.flatten.count other := by
  induction warp generalizing st with
  | nil =>
    simp only [reclaimWarp, Except.ok.injEq] at h
    subst h
    exact ⟨rfl, rfl, rfl, id, rfl⟩
  | cons c rest ih =>
    unfold reclaimWarp at h
    cases h0 : _reclaimContext callType st c with
    | error e => simp [h0] at h
    | ok s0 =>
      simp only [h0] at h
      have hc : other ≠ c := fun e => hne (e ▸ List.mem_cons_self _ _)
      have hrest : other ∉ rest := fun e => hne (List.mem_cons_of_mem _ e)
      obtain ⟨a1, a2, a3, a4, a5⟩ := reclaimContext_other hc h0
      obtain ⟨b1, b2, b3, b4, b5⟩ := ih hrest h
      exact ⟨b1.trans a1, b2.trans a2, b3.trans a3, fun hm => b4 (a4 hm), b5.trans a5⟩

/-- No step of `executeCta` puts a slot of the reclaimed pool into a queue. -/
theorem Step.not_queued_of_reclaimed {manager : ModuleManager σ} {callType : CallType}
    {st st1 : LLVMCooperativeThreadArray σ} {active active1 : List Nat}
    (h : Step manager callType st active st1 active1) {x : Nat}
    (hmem : x ∈ st._reclaimedContexts) (hone : occurrences st active x ≤ 1) :
    st1._queuedThreads.flatten.count x = 0 := by
  have hpos : 0 < st._reclaimedContexts.count x := List.count_pos_iff.mpr hmem
  unfold occurrences at hone
  have hq : st._queuedThreads.flatten.count x = 0 := by omega
  have ha : active.count x = 0 := by omega
  cases h with
  | allocate hi =>
    obtain ⟨e, _, _, _⟩ := initializeNewContext_effect hi
    rw [e]
    exact hq
  | execute he =>
    obtain ⟨_, _, e, _, _⟩ := executeThread_effect he
    rw [e]
    exact hq
  | reclaim hm hr =>
    rename_i contextId
    have hne : x ≠ contextId := by
      intro e
      subst e
      have := List.count_pos_iff.mpr hm
      omega
    rw [(reclaimContext_other hne hr).2.2.2.2]
    exact hq
  | destroy hm hd =>
    rename_i contextId
    have hne : x ≠ contextId := by
      intro e
      subst e
      have := List.count_pos_iff.mpr hm
      omega
    obtain ⟨st0, done, hfin, _, _, h3, _, _⟩ := destroyContext_effect hd
    obtain ⟨_, _, e3, _, _⟩ := finishContext_effect hfin
    rw [h3]
    rcases e3 with e3 | ⟨_, queue, hq0, e3⟩
    · rw [e3]
      exact hq
    · have hset := count_flatten_set x st._queuedThreads 0 queue (queue ++ [contextId]) hq0
      rw [e3]
      have hsingle : [contextId].count x = 0 := by
        simp [List.count_singleton, Ne.symm hne]
      simp only [List.count_append, hsingle] at hset
      omega
  | select hc hw =>
    obtain ⟨_, _, e, _, _, _⟩ := computeNextFunction_effect hc
    have hset := count_flatten_set x _ _ _ [] hw
    simp only [List.count_nil] at hset
    have hq1 := hq
    rw [← e] at hq1
    show (List.set _ _ _).flatten.count x = 0
    omega
  | shutdown => exact hq

/-- C11: in the launch phase, the header of a thread whose word 0 reads the
finished sentinel makes `_reclaimContext` append the slot of the thread to the
reclaimed pool and change nothing else: no queue, no call stack, no context
(so no local-memory base).  The same holds for the whole loop that processes
the headers of a warp: whatever the other threads of the warp wrote, the slot
is in the reclaimed pool afterwards, in no queue it was not in before, with
its stack and context unchanged.  And the thread is never queued again: in
every state `executeCta` can be in, a slot of the reclaimed pool is in no
queue, and no step puts it into one. -/
theorem finished_thread_goes_to_reclaimed_pool (manager : ModuleManager σ) (callType : CallType)
    (st : LLVMCooperativeThreadArray σ) (contextId : Nat) (words : List Nat)
    (hheader : header st contextId = some words) (hfinished : words.getD 0 0 = finished) :
    (∃ st1, _reclaimContext callType st contextId = .ok st1 ∧
      st1._reclaimedContexts = st._reclaimedContexts ++ [contextId] ∧
      st1._queuedThreads = st._queuedThreads ∧ st1._freeContexts = st._freeContexts ∧
      st1._stacks = st._stacks ∧ st1._contexts = st._contexts) ∧
    (∀ (before after : List Nat) (st2 : LLVMCooperativeThreadArray σ),
      contextId ∉ before → contextId ∉ after →
      reclaimWarp callType st (before ++ contextId :: after) = .ok st2 →
      contextId ∈ st2._reclaimedContexts ∧
      (¬ Queued st contextId → ¬ Queued st2 contextId) ∧
      st2._stacks[contextId]? = st._stacks[contextId]? ∧
      st2._contexts[contextId]? = st._contexts[contextId]?) ∧
    (∀ (s s1 : LLVMCooperativeThreadArray σ) (active active1 : List Nat) (slot : Nat),
      Reachable manager callType s active → slot ∈ s._reclaimedContexts →
      ¬ Queued s slot ∧ (Step manager callType s active s1 active1 → ¬ Queued s1 slot)) := by
  refine ⟨⟨_, reclaimContext_of_finished callType hheader hfinished, rfl, rfl, rfl, rfl, rfl⟩,
    ?_, ?_⟩
  · intro before after st2 hb ha hwarp
    obtain ⟨s1, h1, h2⟩ := reclaimWarp_append hwarp
    obtain ⟨a1, a2, a3, _, a5⟩ := reclaimWarp_other hb h1
    unfold reclaimWarp at h2
    have hstep := reclaimContext_of_finished callType (a3.trans hheader) hfinished
    simp only [hstep] at h2
    obtain ⟨b1, b2, _, b4, b5⟩ := reclaimWarp_other ha h2
    refine ⟨b4 (by simp), ?_, b1.trans a1, b2.trans a2⟩
    intro hnq hq
    rw [queued_iff_count] at hnq hq
    rw [b5] at hq
    exact hnq (a5 ▸ hq)
  · intro s s1 active active1 slot hreach hmem
    have hone := hreach.occurrences_le_one slot
    constructor
    · rw [queued_iff_count]
      have hpos : 0 < s._reclaimedContexts.count slot := List.count_pos_iff.mpr hmem
      unfold occurrences at hone
      omega
    · intro hstep
      rw [queued_iff_count, hstep.not_queued_of_reclaimed hmem hone]
      exact lt_irrefl 0

theorem finished_thread_goes_to_reclaimed_pool_witness :
    header (Sample.suspendedState [finished]) 0 = some [finished] ∧
      (∃ st1, _reclaimContext Sample.callType (Sample.suspendedState [finished]) 0 = .ok st1 ∧
        st1._reclaimedContexts = (Sample.suspendedState [finished])._reclaimedContexts ++ [0] ∧
        st1._queuedThreads = (Sample.suspendedState [finished])._queuedThreads ∧
        st1._freeContexts = (Sample.suspendedState [finished])._freeContexts ∧
        st1._stacks = (Sample.suspendedState [finished])._stacks ∧
        st1._contexts = (Sample.suspendedState [finished])._contexts) :=
  ⟨rfl, (finished_thread_goes_to_reclaimed_pool (Sample.writingManager [finished])
    Sample.callType (Sample.suspendedState [finished]) 0 [finished] rfl rfl).1⟩

end LLVMCooperativeThreadArray

end executive

/-! ## A thread that goes on in another function (C12, C13, C14) -/

namespace executive

namespace LLVMCooperativeThreadArray

variable {σ : Type}

/-- A header whose word 0 is neither 0 nor the finished sentinel leaves every
queue as it is. -/
theorem finishContext_queues_of_ne_zero {callType : CallType}
    {st st1 : LLVMCooperativeThreadArray σ} {contextId : Nat} {words : List Nat} {done : Bool}
    (hheader : header st contextId = some words) (hne : words.getD 0 0 ≠ 0)
    (h : _finishContext callType st contextId = .ok (st1, done)) :
    st1._queuedThreads = st._queuedThreads := by
  obtain ⟨context, stack, frame, hc, hs, hf, hw⟩ := header_eq_some hheader
  subst hw
  unfold _finishContext at h
  simp only [hc, hs, hf, hne, if_false] at h
  repeat' split at h
  all_goals first
    | (cases h; done)
    | (simp only [Except.ok.injEq, Prod.mk.injEq] at h
       obtain ⟨h1, _⟩ := h
       subst h1
       rfl)

/-- A header whose word 0 is 0 puts the slot at the back of the queue of
function 0. -/
theorem finishContext_of_zero (callType : CallType) {st : LLVMCooperativeThreadArray σ}
    {contextId : Nat} {words queue : List Nat} (hheader : header st contextId = some words)
    (hzero : words.getD 0 0 = 0) (hqueue : st._queuedThreads[0]? = some queue) :
    _finishContext callType st contextId =
      .ok ({ st with
             _guessFunction := 0
             _queuedThreads := st._queuedThreads.set 0 (queue ++ [contextId]) }, false) := by
  obtain ⟨context, stack, frame, hc, hs, hf, hw⟩ := header_eq_some hheader
  subst hw
  have hne : (0 : Nat) ≠ finished := by decide
  unfold _finishContext
  simp only [hc, hs, hf, hzero, hne, if_false, if_true, hqueue]

/-- C12 on the code.  `_finishContext` puts a slot into a queue only when word
0 of its header is 0: then the slot goes to the back of the queue of function
0.  For every other function id, whatever the call kind, every queue is left
as it is, so the slot is in no queue.  On a block of one thread that wrote the
header of a tail call, or of a normal call, of function 2, the three queues
are empty before and after `_finishContext`. -/
theorem nonzero_function_id_is_not_enqueued :
    (∀ (σ : Type) (callType : CallType) (st st1 : LLVMCooperativeThreadArray σ)
        (contextId : Nat) (words : List Nat) (done : Bool),
        header st contextId = some words → words.getD 0 0 ≠ 0 →
        _finishContext callType st contextId = .ok (st1, done) →
        st1._queuedThreads = st._queuedThreads) ∧
    (∀ (σ : Type) (callType : CallType) (st : LLVMCooperativeThreadArray σ)
        (contextId : Nat) (words queue : List Nat),
        header st contextId = some words → words.getD 0 0 = 0 →
        st._queuedThreads[0]? = some queue →
        ∃ st1, _finishContext callType st contextId = .ok (st1, false) ∧
          st1._queuedThreads = st._queuedThreads.set 0 (queue ++ [contextId])) ∧
    header (Sample.suspendedState [2, Sample.callType.TailCall]) 0 =
      some [2, Sample.callType.TailCall] ∧
    (Sample.suspendedState [2, Sample.callType.TailCall])._queuedThreads = [[], [], []] ∧
    (∃ st1, _finishContext Sample.callType (Sample.suspendedState [2, Sample.callType.TailCall]) 0
        = .ok (st1, false) ∧ st1._queuedThreads = [[], [], []]) ∧
    header (Sample.suspendedState [2, Sample.callType.NormalCall, 64, 0]) 0 =
      some [2, Sample.callType.NormalCall, 64, 0] ∧
    (∃ st1,
      _finishContext Sample.callType (Sample.suspendedState [2, Sample.callType.NormalCall, 64, 0]) 0
        = .ok (st1, false) ∧ st1._queuedThreads = [[], [], []]) := by
  refine ⟨?_, ?_, rfl, rfl, ⟨_, rfl, rfl⟩, rfl, ⟨_, rfl, rfl⟩⟩
  · intro σ callType st st1 contextId words done hheader hne h
    exact finishContext_queues_of_ne_zero hheader hne h
  · intro σ callType st contextId words queue hheader hzero hqueue
    exact ⟨_, finishContext_of_zero callType hheader hzero hqueue, rfl⟩

/-- C13 on the code.  A block of 4 threads with warp width 4 whose threads
write, on their first dispatch, the header of a normal call of function 2 with
a callee frame of 64 bytes: the launch phase runs the 4 threads as one warp,
pushes a frame on each of the 4 stacks and puts no slot into a queue; after it
the free pool, the reclaimed pool and the three queues are empty.  Every
iteration of the drain loop then chooses function 1 and takes its empty queue,
no thread is dispatched a second time, and `executeCta` does not return,
whatever the number of iterations granted. -/
theorem normal_call_block_never_returns :
    Sample.callReady = .ok Sample.callSetup ∧
    launch Sample.callType Sample.callSetup 0 =
      .ok (Sample.callLaunched, [[(0, 3), (1, 2), (2, 1), (3, 0)], []]) ∧
    Sample.callLaunched._contexts.length = 4 ∧
    Sample.callLaunched._freeContexts = [] ∧
    Sample.callLaunched._reclaimedContexts = [] ∧
    Sample.callLaunched._queuedThreads = [[], [], []] ∧
    Sample.callLaunched._guessFunction = 2 ∧
    Sample.callLaunched._stacks.map (fun stack => (stack.depth, stack.top.size)) =
      [(2, 64), (2, 64), (2, 64), (2, 64)] ∧
    drainIteration Sample.callManager Sample.callType Sample.callLaunched =
      .ok (Sample.callIteration, { function := 1, warpList := [], groups := [[]] }) ∧
    drainIteration Sample.callManager Sample.callType Sample.callIteration =
      .ok (Sample.callIteration, { function := 1, warpList := [], groups := [[]] }) ∧
    ∀ fuel, executeCta Sample.callManager Sample.callType fuel Sample.callSetup 0 = .ok none := by
  have hlaunch : launch Sample.callType Sample.callSetup 0 =
      .ok (Sample.callLaunched, [[(0, 3), (1, 2), (2, 1), (3, 0)], []]) := rfl
  have hfirst : drainIteration Sample.callManager Sample.callType Sample.callLaunched =
      .ok (Sample.callIteration, { function := 1, warpList := [], groups := [[]] }) := rfl
  have hfix : drainIteration Sample.callManager Sample.callType Sample.callIteration =
      .ok (Sample.callIteration, { function := 1, warpList := [], groups := [[]] }) := rfl
  have hne1 : Sample.callLaunched._freeContexts.length ≠ Sample.callLaunched._contexts.length := by
    decide
  have hne2 : Sample.callIteration._freeContexts.length ≠
      Sample.callIteration._contexts.length := by
    decide
  refine ⟨rfl, hlaunch, rfl, rfl, rfl, rfl, rfl, rfl, hfirst, hfix, ?_⟩
  intro fuel
  unfold executeCta
  rw [hlaunch]
  cases fuel with
  | zero => simp [drain, hne1]
  | succ fuel =>
    have hstuck :=
      drain_stuck Sample.callManager Sample.callType Sample.callIteration _ hne2 hfix fuel
    simp [drain, hne1, hfirst, hstuck]

/-- C14 on the code.  When the header of a dispatched slot names a function
other than 0 and is not the finished sentinel, `_reclaimContext` and
`_destroyContext` add the slot to no pool and to no queue: with `others` slots
dispatched besides it, the slots accounted for are one less after the call
than before it.  On the block of 4 threads whose threads write the
header of a normal call of function 2, the 4 slots are in the free pool after
`setup`, and after the launch phase, when no thread is dispatched, the free
pool, the reclaimed pool and the queues hold no slot at all. -/
theorem slots_lost_after_call_header :
    (∀ (σ : Type) (callType : CallType) (st st1 : LLVMCooperativeThreadArray σ)
        (contextId : Nat) (words : List Nat),
        header st contextId = some words → words.getD 0 0 ≠ 0 → words.getD 0 0 ≠ finished →
        (_reclaimContext callType st contextId = .ok st1 ∨
          _destroyContext callType st contextId = .ok st1) →
        ∀ others, accounted st1 others + 1 = accounted st (others + 1)) ∧
    Sample.callReady = .ok Sample.callSetup ∧
    Sample.callSetup._contexts.length = 4 ∧
    accounted Sample.callSetup 0 = 4 ∧
    launch Sample.callType Sample.callSetup 0 =
      .ok (Sample.callLaunched, [[(0, 3), (1, 2), (2, 1), (3, 0)], []]) ∧
    Sample.callLaunched._contexts.length = 4 ∧
    accounted Sample.callLaunched 0 = 0 := by
  refine ⟨?_, rfl, rfl, rfl, rfl, rfl, rfl⟩
  intro σ callType st st1 contextId words hheader h0 hfin h others
  have hdone : ∀ (st0 : LLVMCooperativeThreadArray σ) (done : Bool),
      _finishContext callType st contextId = .ok (st0, done) → done = false := by
    intro st0 done hf
    obtain ⟨context, stack, frame, hc, hs, hfr, hw⟩ := header_eq_some hheader
    subst hw
    unfold _finishContext at hf
    simp only [hc, hs, hfr, h0, hfin, if_false] at hf
    repeat' split at hf
    all_goals first
      | (cases hf; done)
      | (simp only [Except.ok.injEq, Prod.mk.injEq] at hf
         exact hf.2.symm)
  rcases h with h | h
  · obtain ⟨st0, done, hf, h1, h2, h3, _, _⟩ := reclaimContext_effect h
    obtain ⟨e1, e2, _, _, _⟩ := finishContext_effect hf
    have hq := finishContext_queues_of_ne_zero hheader h0 hf
    have hd := hdone st0 done hf
    subst hd
    unfold accounted
    simp only [Bool.false_eq_true, if_false] at h2
    rw [h1, h2, h3, e1, e2, hq]
    omega
  · obtain ⟨st0, done, hf, h1, h2, h3, _, _⟩ := destroyContext_effect h
    obtain ⟨e1, e2, _, _, _⟩ := finishContext_effect hf
    have hq := finishContext_queues_of_ne_zero hheader h0 hf
    have hd := hdone st0 done hf
    subst hd
    unfold accounted
    simp only [Bool.false_eq_true, if_false] at h1
    rw [h1, h2, h3, e1, e2, hq]
    omega

end LLVMCooperativeThreadArray

end executive

/-! ## A slot waits in one queue at most (C15) -/

namespace executive

namespace LLVMCooperativeThreadArray

variable {σ : Type}

theorem initializeWarp_reachable {manager : ModuleManager σ} {callType : CallType} {id : Nat}
    {st st1 : LLVMCooperativeThreadArray σ} {active : List Nat} {threadId count : Nat}
    {warpList : List (Nat × Nat)} (hr : Reachable manager callType st active)
    (h : initializeWarp id st threadId count = .ok (st1, warpList)) :
    Reachable manager callType st1 (active ++ warpList.map Prod.snd) := by
  induction count generalizing st threadId warpList active with
  | zero =>
    simp only [initializeWarp, Except.ok.injEq, Prod.mk.injEq] at h
    obtain ⟨h1, h2⟩ := h
    subst h1
    subst h2
    simpa using hr
  | succ count ih =>
    unfold initializeWarp at h
    cases h0 : _initializeNewContext st threadId id with
    | error e => simp [h0] at h
    | ok r0 =>
      obtain ⟨s0, c0⟩ := r0
      simp only [h0] at h
      cases h1 : initializeWarp id s0 (threadId + 1) count with
      | error e => simp [h1] at h
      | ok r1 =>
        obtain ⟨s1, rest⟩ := r1
        simp only [h1, Except.ok.injEq, Prod.mk.injEq] at h
        obtain ⟨h2, h3⟩ := h
        subst h2
        subst h3
        have hstep := ih (Reachable.step hr (Step.allocate h0)) h1
        simpa using hstep

theorem executeWarp_reachable {manager : ModuleManager σ} {callType : CallType}
    {st st1 : LLVMCooperativeThreadArray σ} {active warp : List Nat}
    (hr : Reachable manager callType st active) (h : _executeWarp st warp = .ok st1) :
    Reachable manager callType st1 active := by
  induction warp generalizing st with
  | nil =>
    simp only [_executeWarp, Except.ok.injEq] at h
    subst h
    exact hr
  | cons c rest ih =>
    unfold _executeWarp at h
    cases h0 : _executeThread st c with
    | error e => simp [h0] at h
    | ok s0 =>
      simp only [h0] at h
      exact ih (Reachable.step hr (Step.execute h0)) h

theorem reclaimWarp_reachable {manager : ModuleManager σ} {callType : CallType}
    {st st1 : LLVMCooperativeThreadArray σ} {warp : List Nat}
    (hr : Reachable manager callType st warp) (h : reclaimWarp callType st warp = .ok st1) :
    Reachable manager callType st1 [] := by
  induction warp generalizing st with
  | nil =>
    simp only [reclaimWarp, Except.ok.injEq] at h
    subst h
    exact hr
  | cons c rest ih =>
    unfold reclaimWarp at h
    cases h0 : _reclaimContext callType st c with
    | error e => simp [h0] at h
    | ok s0 =>
      simp only [h0] at h
      have hstep := Reachable.step hr (Step.reclaim (List.mem_cons_self c rest) h0)
      rw [List.erase_cons_head] at hstep
      exact ih hstep h

theorem launchWarp_reachable {manager : ModuleManager σ} {callType : CallType} {id : Nat}
    {st st1 : LLVMCooperativeThreadArray σ} {threadId count : Nat} {group : List (Nat × Nat)}
    (hr : Reachable manager callType st [])
    (h : launchWarp callType id st threadId count = .ok (st1, group)) :
    Reachable manager callType st1 [] := by
  unfold launchWarp at h
  cases h0 : initializeWarp id st threadId count with
  | error e => simp [h0] at h
  | ok r0 =>
    obtain ⟨s0, warpList⟩ := r0
    simp only [h0] at h
    cases h1 : _executeWarp s0 (warpList.map Prod.snd) with
    | error e => simp [h1] at h
    | ok s1 =>
      simp only [h1] at h
      cases h2 : reclaimWarp callType s1 (warpList.map Prod.snd) with
      | error e => simp [h2] at h
      | ok s2 =>
        simp only [h2, Except.ok.injEq, Prod.mk.injEq] at h
        obtain ⟨h3, _⟩ := h
        subst h3
        have r0 := initializeWarp_reachable hr h0
        rw [List.nil_append] at r0
        exact reclaimWarp_reachable (executeWarp_reachable r0 h1) h2

theorem launchWarps_reachable {manager : ModuleManager σ} {callType : CallType} {id : Nat}
    {st st1 : LLVMCooperativeThreadArray σ} {threadId warps : Nat}
    {groups : List (List (Nat × Nat))} (hr : Reachable manager callType st [])
    (h : launchWarps callType id st threadId warps = .ok (st1, groups)) :
    Reachable manager callType st1 [] := by
  induction warps generalizing st threadId groups with
  | zero =>
    simp only [launchWarps, Except.ok.injEq, Prod.mk.injEq] at h
    obtain ⟨h1, _⟩ := h
    subst h1
    exact hr
  | succ warps ih =>
    unfold launchWarps at h
    cases h0 : launchWarp callType id st threadId st._warpSize with
    | error e => simp [h0] at h
    | ok r0 =>
      obtain ⟨s0, group⟩ := r0
      simp only [h0] at h
      cases h1 : launchWarps callType id s0 (threadId + st._warpSize) warps with
      | error e => simp [h1] at h
      | ok r1 =>
        obtain ⟨s1, rest⟩ := r1
        simp only [h1, Except.ok.injEq, Prod.mk.injEq] at h
        obtain ⟨h2, _⟩ := h
        subst h2
        exact ih (launchWarp_reachable hr h0) h1

/-- The launch phase of `executeCta` goes through the steps of `Step`. -/
theorem launch_reachable {manager : ModuleManager σ} {callType : CallType} {id : Nat}
    {st st1 : LLVMCooperativeThreadArray σ} {groups : List (List (Nat × Nat))}
    (hr : Reachable manager callType st []) (h : launch callType st id = .ok (st1, groups)) :
    Reachable manager callType st1 [] := by
  unfold launch at h
  by_cases hw : st._warpSize = 0
  · simp [hw] at h
  · simp only [hw, if_false] at h
    cases h0 : launchWarps callType id st 0 (st._contexts.length / st._warpSize) with
    | error e => simp [h0] at h
    | ok r0 =>
      obtain ⟨s0, full⟩ := r0
      simp only [h0] at h
      cases h1 : launchWarp callType id s0
          (st._contexts.length / st._warpSize * st._warpSize)
          (st._contexts.length % st._warpSize) with
      | error e => simp [h1] at h
      | ok r1 =>
        obtain ⟨s1, last⟩ := r1
        simp only [h1, Except.ok.injEq, Prod.mk.injEq] at h
        obtain ⟨h2, _⟩ := h
        subst h2
        exact launchWarp_reachable (launchWarps_reachable hr h0) h1

/-- C15: in every state `executeCta` can be in, starting from `setup`, a slot
is in at most one function queue, at most once in it, and a slot that is in a
function queue is neither in the free pool nor in the reclaimed pool (nor
among the slots in flight). -/
theorem queued_slot_in_one_queue_only (manager : ModuleManager σ) (callType : CallType)
    (st : LLVMCooperativeThreadArray σ) (active : List Nat) (contextId : Nat)
    (hreach : Reachable manager callType st active) :
    (∀ (i j : Nat) (qi qj : List Nat), st._queuedThreads[i]? = some qi →
      st._queuedThreads[j]? = some qj → contextId ∈ qi → contextId ∈ qj → i = j) ∧
    (∀ queue ∈ st._queuedThreads, queue.count contextId ≤ 1) ∧
    (Queued st contextId → contextId ∉ st._freeContexts ∧
      contextId ∉ st._reclaimedContexts ∧ contextId ∉ active) := by
  have hone := hreach.occurrences_le_one contextId
  unfold occurrences at hone
  refine ⟨?_, ?_, ?_⟩
  · intro i j qi qj hi hj hmi hmj
    by_contra hij
    have h1 := count_add_count_le_count_flatten contextId st._queuedThreads i j qi qj hi hj hij
    have h2 : 0 < qi.count contextId := List.count_pos_iff.mpr hmi
    have h3 : 0 < qj.count contextId := List.count_pos_iff.mpr hmj
    omega
  · intro queue hq
    obtain ⟨i, hi⟩ := List.mem_iff_getElem?.mp hq
    have h1 := count_le_count_flatten contextId st._queuedThreads i queue hi
    omega
  · intro hq
    rw [queued_iff_count] at hq
    refine ⟨?_, ?_, ?_⟩
    · intro hm
      have := List.count_pos_iff.mpr hm
      omega
    · intro hm
      have := List.count_pos_iff.mpr hm
      omega
    · intro hm
      have := List.count_pos_iff.mpr hm
      omega

theorem queued_slot_in_one_queue_only_witness :
    Reachable Sample.yieldManager Sample.callType Sample.yieldLaunched [] ∧
    Sample.yieldLaunched._queuedThreads = [[1, 0], [], []] ∧
    Sample.yieldLaunched._reclaimedContexts = [3, 2] ∧
    ((∀ (i j : Nat) (qi qj : List Nat), Sample.yieldLaunched._queuedThreads[i]? = some qi →
      Sample.yieldLaunched._queuedThreads[j]? = some qj → 1 ∈ qi → 1 ∈ qj → i = j) ∧
    (∀ queue ∈ Sample.yieldLaunched._queuedThreads, queue.count 1 ≤ 1) ∧
    (Queued Sample.yieldLaunched 1 → 1 ∉ Sample.yieldLaunched._freeContexts ∧
      1 ∉ Sample.yieldLaunched._reclaimedContexts ∧ 1 ∉ ([] : List Nat))) :=
  have hsetup : Reachable Sample.yieldManager Sample.callType Sample.yieldSetup [] :=
    @Reachable.setup Nat Sample.yieldManager Sample.callType
      (construct 4 0 0 Sample.fourThreads 0) Sample.yieldSetup false Sample.fourThreads
      rfl (fun _ hq => by cases hq) rfl
  have hlaunch : launch Sample.callType Sample.yieldSetup 0 =
      .ok (Sample.yieldLaunched, [[(0, 3), (1, 2), (2, 1), (3, 0)], []]) := rfl
  have hreach := launch_reachable hsetup hlaunch
  ⟨hreach, rfl, rfl,
    queued_slot_in_one_queue_only Sample.yieldManager Sample.callType Sample.yieldLaunched [] 1
      hreach⟩

end LLVMCooperativeThreadArray

end executive

/-! ## The call kinds (C16, C17) -/

namespace executive

namespace LLVMCooperativeThreadArray

variable {σ : Type}

theorem lt_length_of_getElem? {α : Type} {l : List α} {i : Nat} {a : α} (h : l[i]? = some a) :
    i < l.length := by
  by_contra hlt
  rw [List.getElem?_eq_none (Nat.le_of_not_lt hlt)] at h
  cases h

/-- C16 as it is written fails for function id 0: a thread that wrote the
header of a normal call of function 0, with a callee frame of 64 bytes, gets
no new frame; its stack keeps its depth 1, its context is unchanged, and the
slot is put into the queue of function 0. -/
theorem call_kind_ignored_for_function_zero :
    header (Sample.suspendedState [0, Sample.callType.NormalCall, 64, 0]) 0 =
      some [0, Sample.callType.NormalCall, 64, 0] ∧
    (0 : Nat) ≠ finished ∧
    (Sample.suspendedState [0, Sample.callType.NormalCall, 64, 0])._stacks.map
      LLVMFunctionCallStack.depth = [1] ∧
    ∃ st1,
      _finishContext Sample.callType
        (Sample.suspendedState [0, Sample.callType.NormalCall, 64, 0]) 0 = .ok (st1, false) ∧
      st1._stacks = (Sample.suspendedState [0, Sample.callType.NormalCall, 64, 0])._stacks ∧
      st1._stacks.map LLVMFunctionCallStack.depth = [1] ∧
      st1._contexts = (Sample.suspendedState [0, Sample.callType.NormalCall, 64, 0])._contexts ∧
      st1._queuedThreads = [[0], [], []] :=
  ⟨rfl, by decide, rfl, _, rfl, rfl, rfl, rfl, rfl⟩

/-- C16, amended: when the scheduler processes a header whose word 0 is a
function id other than 0 (and not the finished sentinel), a tail call leaves
the stacks and the contexts as they are; a normal call makes one call of
`call` with words 2 and 3 of the header, which makes the stack of the thread
one frame deeper, and the local base of the thread becomes the new top frame;
a return call makes the stack one frame less deep and the local base becomes
the frame of the caller, and at root depth it is fatal.  The other slots keep
their stacks and contexts. -/
theorem call_kinds_adjust_stack_for_nonzero_function (callType : CallType)
    (st : LLVMCooperativeThreadArray σ) (contextId : Nat) (context : LLVMContext)
    (stack : LLVMFunctionCallStack) (frame : Frame)
    (hcontext : st._contexts[contextId]? = some context)
    (hstack : st._stacks[contextId]? = some stack)
    (hframe : stack.frameAt context.local_ = some frame)
    (hfunction : frame.words.getD 0 0 ≠ finished) (hnonzero : frame.words.getD 0 0 ≠ 0)
    (hkinds : callType.TailCall ≠ callType.NormalCall ∧
      callType.TailCall ≠ callType.ReturnCall ∧ callType.NormalCall ≠ callType.ReturnCall) :
    (frame.words.getD 1 0 = callType.TailCall →
      ∃ st1, _finishContext callType st contextId = .ok (st1, false) ∧
        st1._stacks = st._stacks ∧ st1._contexts = st._contexts) ∧
    (frame.words.getD 1 0 = callType.NormalCall →
      ∃ st1 stack1, _finishContext callType st contextId = .ok (st1, false) ∧
        stack1 = stack.call (frame.words.getD 2 0) (frame.words.getD 3 0) ∧
        st1._stacks[contextId]? = some stack1 ∧
        stack1.depth = stack.depth + 1 ∧
        st1._contexts[contextId]? = some { context with local_ := stack1.localMemory } ∧
        stack1.frameAt stack1.localMemory = some stack1.top) ∧
    (frame.words.getD 1 0 = callType.ReturnCall →
      (∀ (caller : Frame) (callers : List Frame), stack.callers = caller :: callers →
        ∃ st1 stack1, _finishContext callType st contextId = .ok (st1, false) ∧
          stack.returned = .ok stack1 ∧
          st1._stacks[contextId]? = some stack1 ∧
          stack1.depth + 1 = stack.depth ∧
          st1._contexts[contextId]? = some { context with local_ := stack1.localMemory } ∧
          stack1.frameAt stack1.localMemory = some caller) ∧
      (stack.callers = [] → _finishContext callType st contextId = .error .stackFault)) ∧
    (∀ (st1 : LLVMCooperativeThreadArray σ) (done : Bool) (other : Nat),
      _finishContext callType st contextId = .ok (st1, done) → other ≠ contextId →
      st1._stacks[other]? = st._stacks[other]? ∧ st1._contexts[other]? = st._contexts[other]?) := by
  obtain ⟨hk1, hk2, hk3⟩ := hkinds
  have hlc := lt_length_of_getElem? hcontext
  have hls := lt_length_of_getElem? hstack
  refine ⟨?_, ?_, ?_, ?_⟩
  · intro hkind
    refine ⟨{ st with _guessFunction := frame.words.getD 0 0 }, ?_, rfl, rfl⟩
    unfold _finishContext
    simp only [hcontext, hstack, hframe, hfunction, hnonzero, hkind, if_false, if_true]
  · intro hkind
    have hne : callType.NormalCall ≠ callType.TailCall := Ne.symm hk1
    refine ⟨{ st with
              _guessFunction := frame.words.getD 0 0
              _stacks := st._stacks.set contextId
                (stack.call (frame.words.getD 2 0) (frame.words.getD 3 0))
              _contexts := st._contexts.set contextId
                { context with
                  local_ :=
                    (stack.call (frame.words.getD 2 0) (frame.words.getD 3 0)).localMemory } },
      stack.call (frame.words.getD 2 0) (frame.words.getD 3 0), ?_, rfl, ?_, ?_, ?_, ?_⟩
    · unfold _finishContext
      simp only [hcontext, hstack, hframe, hfunction, hnonzero, hkind, hne, if_false, if_true]
    · exact List.getElem?_set_self hls
    · simp [LLVMFunctionCallStack.depth, LLVMFunctionCallStack.call]
    · exact List.getElem?_set_self hlc
    · simp [LLVMFunctionCallStack.frameAt, LLVMFunctionCallStack.localMemory]
  · intro hkind
    have hne1 : callType.ReturnCall ≠ callType.TailCall := Ne.symm hk2
    have hne2 : callType.ReturnCall ≠ callType.NormalCall := Ne.symm hk3
    constructor
    · intro caller callers hcallers
      have hret : stack.returned = .ok { top := caller, callers := callers } := by
        simp only [LLVMFunctionCallStack.returned, hcallers]
      refine ⟨{ st with
                _guessFunction := frame.words.getD 0 0
                _stacks := st._stacks.set contextId { top := caller, callers := callers }
                _contexts := st._contexts.set contextId
                  { context with
                    local_ :=
                      LLVMFunctionCallStack.localMemory { top := caller, callers := callers } } },
        { top := caller, callers := callers }, ?_, hret, ?_, ?_, ?_, ?_⟩
      · unfold _finishContext
        simp only [hcontext, hstack, hframe, hfunction, hnonzero, hkind, hne1, hne2, hret,
          if_false, if_true]
      · exact List.getElem?_set_self hls
      · simp [LLVMFunctionCallStack.depth, hcallers]
      · exact List.getElem?_set_self hlc
      · simp [LLVMFunctionCallStack.frameAt, LLVMFunctionCallStack.localMemory]
    · intro hroot
      have hret : stack.returned = .error .stackFault := by
        simp only [LLVMFunctionCallStack.returned, hroot]
      unfold _finishContext
      simp only [hcontext, hstack, hframe, hfunction, hnonzero, hkind, hne1, hne2, hret,
        if_false, if_true]
  · intro st1 done other hfin hother
    exact (finishContext_effect hfin).2.2.2.1 other hother

theorem call_kinds_adjust_stack_for_nonzero_function_witness :
    (Sample.suspendedState [2, Sample.callType.NormalCall, 64, 0])._stacks.map
      LLVMFunctionCallStack.depth = [1] ∧
    ∃ st1 stack1,
      _finishContext Sample.callType
        (Sample.suspendedState [2, Sample.callType.NormalCall, 64, 0]) 0 = .ok (st1, false) ∧
      stack1 = LLVMFunctionCallStack.call
        ((Sample.suspendedState [2, Sample.callType.NormalCall, 64, 0])._stacks.getD 0
          LLVMFunctionCallStack.root) 64 0 ∧
      st1._stacks[0]? = some stack1 ∧
      stack1.depth = 1 + 1 ∧
      st1._contexts[0]? = some
        { (Sample.suspendedState [2, Sample.callType.NormalCall, 64, 0])._contexts.getD 0
            LLVMContext.zero with local_ := stack1.localMemory } ∧
      stack1.frameAt stack1.localMemory = some stack1.top :=
  ⟨rfl,
    (call_kinds_adjust_stack_for_nonzero_function Sample.callType
      (Sample.suspendedState [2, Sample.callType.NormalCall, 64, 0]) 0
      ((Sample.suspendedState [2, Sample.callType.NormalCall, 64, 0])._contexts.getD 0
        LLVMContext.zero)
      ((Sample.suspendedState [2, Sample.callType.NormalCall, 64, 0])._stacks.getD 0
        LLVMFunctionCallStack.root)
      { size := 0, argumentSize := 0, words := [2, Sample.callType.NormalCall, 64, 0] }
      rfl rfl rfl (by decide) (by decide) (by decide)).2.1 rfl⟩

/-- C17 as it is written fails: a header that names function 2 with the call
kind 7, which is none of the three kinds, makes `_finishContext` return
`false` like every header of a thread that goes on; nothing is fatal. -/
theorem unknown_call_kind_is_no_error :
    header (Sample.suspendedState [2, 7]) 0 = some [2, 7] ∧
    (2 : Nat) ≠ finished ∧
    (7 : Nat) ≠ Sample.callType.TailCall ∧ (7 : Nat) ≠ Sample.callType.NormalCall ∧
    (7 : Nat) ≠ Sample.callType.ReturnCall ∧
    ∃ st1, _finishContext Sample.callType (Sample.suspendedState [2, 7]) 0 = .ok (st1, false) :=
  ⟨rfl, by decide, by decide, by decide, by decide, _, rfl⟩

/-- C17, amended: when the header of a thread names a function id (not the
finished sentinel) and its call kind is none of the three kinds,
`_finishContext` raises no error: it returns `false`, as for every thread
that goes on, it records the function id as the guessed function, and it
leaves every call stack and every context (so every local-memory base) as it
is. -/
theorem unknown_call_kind_leaves_stack_unchanged (callType : CallType)
    (st : LLVMCooperativeThreadArray σ) (contextId : Nat) (words : List Nat)
    (hheader : header st contextId = some words) (hfunction : words.getD 0 0 ≠ finished)
    (hqueues : st._queuedThreads ≠ [])
    (htail : words.getD 1 0 ≠ callType.TailCall) (hnormal : words.getD 1 0 ≠ callType.NormalCall)
    (hreturn : words.getD 1 0 ≠ callType.ReturnCall) :
    ∃ st1, _finishContext callType st contextId = .ok (st1, false) ∧
      st1._guessFunction = words.getD 0 0 ∧
      st1._stacks = st._stacks ∧ st1._contexts = st._contexts := by
  obtain ⟨context, stack, frame, hc, hs, hf, hw⟩ := header_eq_some hheader
  subst hw
  by_cases hzero : frame.words.getD 0 0 = 0
  · obtain ⟨queue, hq⟩ : ∃ queue, st._queuedThreads[0]? = some queue := by
      cases hl : st._queuedThreads with
      | nil => exact absurd hl hqueues
      | cons queue rest => exact ⟨queue, by simp⟩
    refine ⟨_, finishContext_of_zero callType hheader hzero hq, hzero.symm, rfl, rfl⟩
  · refine ⟨{ st with _guessFunction := frame.words.getD 0 0 }, ?_, rfl, rfl, rfl⟩
    unfold _finishContext
    simp only [hc, hs, hf, hfunction, hzero, htail, hnormal, hreturn, if_false]

theorem unknown_call_kind_leaves_stack_unchanged_witness :
    header (Sample.suspendedState [2, 7]) 0 = some [2, 7] ∧
    ∃ st1, _finishContext Sample.callType (Sample.suspendedState [2, 7]) 0 = .ok (st1, false) ∧
      st1._guessFunction = 2 ∧
      st1._stacks = (Sample.suspendedState [2, 7])._stacks ∧
      st1._contexts = (Sample.suspendedState [2, 7])._contexts :=
  ⟨rfl, unknown_call_kind_leaves_stack_unchanged Sample.callType (Sample.suspendedState [2, 7]) 0
    [2, 7] rfl (by decide) (by decide) (by decide) (by decide) (by decide)⟩

end LLVMCooperativeThreadArray

end executive

/-! ## The choice of the next function (C18, C19, C20) -/

namespace executive

namespace LLVMCooperativeThreadArray

variable {σ : Type}

theorem residentFunction_next {manager : ModuleManager σ} {st st1 : LLVMCooperativeThreadArray σ}
    {next : Nat} (h : residentFunction manager st next = .ok st1) : st1._nextFunction = next := by
  unfold residentFunction at h
  repeat' split at h
  all_goals first
    | (cases h; done)
    | (simp only [Except.ok.injEq] at h
       subst h
       rfl)

/-- The first fast path: the queue of function 0 holds as many slots as the
block has threads. -/
theorem computeNextFunction_of_full {manager : ModuleManager σ}
    {st : LLVMCooperativeThreadArray σ} {queue0 : List Nat}
    (h0 : st._queuedThreads[0]? = some queue0) (hfull : queue0.length = st._contexts.length) :
    _computeNextFunction manager st = residentFunction manager st 0 := by
  unfold _computeNextFunction residentFunction
  simp only [h0, hfull, if_true]

/-- The second fast path: the queue of the guessed function holds as many
slots as the block has threads. -/
theorem computeNextFunction_of_guess {manager : ModuleManager σ}
    {st : LLVMCooperativeThreadArray σ} {queue0 guessed : List Nat}
    (h0 : st._queuedThreads[0]? = some queue0) (hfull : queue0.length ≠ st._contexts.length)
    (hg : st._queuedThreads[st._guessFunction]? = some guessed)
    (hguess : guessed.length = st._contexts.length) :
    _computeNextFunction manager st = residentFunction manager st st._guessFunction := by
  unfold _computeNextFunction residentFunction
  simp only [h0, hfull, if_false, hg, hguess, if_true]

/-- The scan: neither fast path applies. -/
theorem computeNextFunction_of_scan {manager : ModuleManager σ}
    {st : LLVMCooperativeThreadArray σ} {queue0 guessed queue1 : List Nat}
    (h0 : st._queuedThreads[0]? = some queue0) (hfull : queue0.length ≠ st._contexts.length)
    (hg : st._queuedThreads[st._guessFunction]? = some guessed)
    (hguess : guessed.length ≠ st._contexts.length)
    (h1 : st._queuedThreads[1]? = some queue1) :
    _computeNextFunction manager st =
      residentFunction manager st
        (scanQueues (st._contexts.length / 2) (st._queuedThreads.drop 2) 2 1 queue1.length 0) := by
  unfold _computeNextFunction residentFunction
  simp only [h0, hfull, if_false, hg, hguess, h1]

/-- The scan returns the candidate it starts with or the index of a queue it
examines. -/
theorem scanQueues_range (half : Nat) (queues : List (List Nat)) (index next count total : Nat) :
    scanQueues half queues index next count total = next ∨
      (index ≤ scanQueues half queues index next count total ∧
        scanQueues half queues index next count total < index + queues.length) := by
  induction queues generalizing index next count total with
  | nil => exact Or.inl rfl
  | cons queue rest ih =>
    unfold scanQueues
    dsimp only
    split
    · split
      · right
        simp
      · left
        rfl
    · rcases ih (index + 1) (if queue.length > count then index else next)
          (if queue.length > count then queue.length else count) (total + queue.length) with h | h
      · rw [h]
        split
        · right
          simp
        · left
          rfl
      · right
        simp only [List.length_cons]
        omega

/-- The test that guards function 0: `_computeNextFunction` selects function
id 0 when the queue of function 0 holds as many slots as the block has
threads; when that queue holds another number of slots, the function selected
is not function 0. -/
theorem function_zero_selected_iff_queue_full (manager : ModuleManager σ)
    (st : LLVMCooperativeThreadArray σ) (queue0 : List Nat)
    (hqueue : st._queuedThreads[0]? = some queue0) :
    (queue0.length = st._contexts.length →
      (∀ st1, _computeNextFunction manager st = .ok st1 → st1._nextFunction = 0) ∧
      (∀ f, st._functions[0]? = some (some f) →
        _computeNextFunction manager st = .ok { st with _nextFunction := 0 }) ∧
      (∀ f, st._functions[0]? = some none → manager.getFunction 0 = some f →
        _computeNextFunction manager st =
          .ok { st with _nextFunction := 0, _functions := st._functions.set 0 (some f) })) ∧
    (queue0.length ≠ st._contexts.length →
      ∀ st1, _computeNextFunction manager st = .ok st1 → st1._nextFunction ≠ 0) := by
  constructor
  · intro hfull
    have hpath := @computeNextFunction_of_full σ manager st queue0 hqueue hfull
    refine ⟨?_, ?_, ?_⟩
    · intro st1 h
      rw [hpath] at h
      exact residentFunction_next h
    · intro f hf
      rw [hpath]
      simp only [residentFunction, hf]
    · intro f hf hm
      rw [hpath]
      simp only [residentFunction, hf, hm]
  · intro hfull st1 h
    cases hg : st._queuedThreads[st._guessFunction]? with
    | none =>
      unfold _computeNextFunction at h
      simp only [hqueue, hfull, if_false, hg] at h
      cases h
    | some guessed =>
      by_cases hguess : guessed.length = st._contexts.length
      · rw [computeNextFunction_of_guess hqueue hfull hg hguess] at h
        rw [residentFunction_next h]
        intro hzero
        rw [hzero, hqueue] at hg
        simp only [Option.some.injEq] at hg
        subst hg
        exact hfull hguess
      · cases h1 : st._queuedThreads[1]? with
        | none =>
          unfold _computeNextFunction at h
          simp only [hqueue, hfull, if_false, hg, hguess, h1] at h
          cases h
        | some queue1 =>
          rw [computeNextFunction_of_scan hqueue hfull hg hguess h1] at h
          rw [residentFunction_next h]
          rcases scanQueues_range (st._contexts.length / 2) (st._queuedThreads.drop 2) 2 1
            queue1.length 0 with hr | hr
          · rw [hr]
            exact Nat.one_ne_zero
          · omega

/-- C18 on the code.  `_computeNextFunction` never selects function 0 when the
queue of function 0 holds another number of slots than the block has threads.
In the block of 4 threads of which the first two dispatched finish and the
others go on in function 0, the launch phase leaves the slots 3 and 2 of the
finished threads in the reclaimed pool and the slots 1 and 0 in the queue of
function 0: that queue is not empty and holds every thread that has not
finished, and every other queue is empty.  `_computeNextFunction` selects
function 1, whose queue is empty. -/
theorem function_zero_not_selected_after_finish :
    (∀ (σ : Type) (manager : ModuleManager σ) (st st1 : LLVMCooperativeThreadArray σ)
        (queue0 : List Nat), st._queuedThreads[0]? = some queue0 →
        queue0.length ≠ st._contexts.length →
        _computeNextFunction manager st = .ok st1 → st1._nextFunction ≠ 0) ∧
    launch Sample.callType Sample.yieldSetup 0 =
      .ok (Sample.yieldLaunched, [[(0, 3), (1, 2), (2, 1), (3, 0)], []]) ∧
    Sample.yieldLaunched._contexts.length = 4 ∧
    Sample.yieldLaunched._freeContexts = [] ∧
    Sample.yieldLaunched._reclaimedContexts = [3, 2] ∧
    header Sample.yieldLaunched 3 = some [finished] ∧
    header Sample.yieldLaunched 2 = some [finished] ∧
    Sample.yieldLaunched._queuedThreads = [[1, 0], [], []] ∧
    ∃ st1, _computeNextFunction Sample.yieldManager Sample.yieldLaunched = .ok st1 ∧
      st1._nextFunction = 1 ∧ st1._queuedThreads[st1._nextFunction]? = some [] :=
  ⟨fun _ manager st st1 queue0 hqueue hne h =>
      (function_zero_selected_iff_queue_full manager st queue0 hqueue).2 hne st1 h,
    rfl, rfl, rfl, rfl, rfl, rfl, rfl, _, rfl, rfl, rfl⟩

end LLVMCooperativeThreadArray

end executive

/-! ## The atomic operations on 32-bit words (C30) -/

namespace LLVMExecutableKernel

/-- C30: for a 32-bit old value `d` at the address and a 32-bit operand `b`,
`__ocelot_atom_b32` returns `d` and stores `d & b`, `d | b`, `d ^ b`,
`(d + b) mod 2^32`, `min d b`, `max d b`, `b`, `0 if d >= b else d + 1`,
`b if d = 0 or d > b else d - 1` for the operations And, Or, Xor, Add, Min,
Max, Exch, Inc, Dec; the value stored is a 32-bit value, and after Inc and
Dec it is at most `b`; for every other operation the assertion fails and the
memory is left as it is. -/
theorem atom_b32_stores_operation_result (shared : Nat) (space : AddressSpace)
    (address b : Nat) (memory : Words) (hb : b < 2 ^ 32)
    (hd : memory (atomAddress shared space address) < 2 ^ 32) :
    (∀ op stored,
      (op, stored) ∈
        [(AtomicOperation.AtomicAnd, memory (atomAddress shared space address) &&& b),
         (AtomicOperation.AtomicOr, memory (atomAddress shared space address) ||| b),
         (AtomicOperation.AtomicXor, memory (atomAddress shared space address) ^^^ b),
         (AtomicOperation.AtomicAdd, (memory (atomAddress shared space address) + b) % 2 ^ 32),
         (AtomicOperation.AtomicMin, min (memory (atomAddress shared space address)) b),
         (AtomicOperation.AtomicMax, max (memory (atomAddress shared space address)) b),
         (AtomicOperation.AtomicExch, b),
         (AtomicOperation.AtomicInc,
           if memory (atomAddress shared space address) ≥ b then 0
           else memory (atomAddress shared space address) + 1),
         (AtomicOperation.AtomicDec,
           if memory (atomAddress shared space address) = 0 ∨
               memory (atomAddress shared space address) > b then b
           else memory (atomAddress shared space address) - 1)] →
      __ocelot_atom_b32 shared space op address b memory =
        (Function.update memory (atomAddress shared space address) stored,
          .ok (memory (atomAddress shared space address))) ∧
      stored < 2 ^ 32 ∧
      (op = AtomicOperation.AtomicInc ∨ op = AtomicOperation.AtomicDec → stored ≤ b)) ∧
    (∀ op, op ∉ [AtomicOperation.AtomicAnd, AtomicOperation.AtomicOr,
        AtomicOperation.AtomicXor, AtomicOperation.AtomicAdd, AtomicOperation.AtomicMin,
        AtomicOperation.AtomicMax, AtomicOperation.AtomicExch, AtomicOperation.AtomicInc,
        AtomicOperation.AtomicDec] →
      __ocelot_atom_b32 shared space op address b memory = (memory, .error .assertion)) := by
  constructor
  · intro op stored hmem
    simp only [List.mem_cons, Prod.mk.injEq, List.mem_singleton, List.not_mem_nil, or_false] at hmem
    rcases hmem with ⟨h1, h2⟩ | ⟨h1, h2⟩ | ⟨h1, h2⟩ | ⟨h1, h2⟩ | ⟨h1, h2⟩ | ⟨h1, h2⟩ |
      ⟨h1, h2⟩ | ⟨h1, h2⟩ | ⟨h1, h2⟩
    all_goals subst h1; subst h2
    · exact ⟨rfl, Nat.and_lt_two_pow _ hb, by simp⟩
    · exact ⟨rfl, Nat.or_lt_two_pow hd hb, by simp⟩
    · exact ⟨rfl, Nat.xor_lt_two_pow hd hb, by simp⟩
    · exact ⟨rfl, Nat.mod_lt _ (by decide), by simp⟩
    · exact ⟨rfl, lt_of_le_of_lt (min_le_right _ _) hb, by simp⟩
    · exact ⟨rfl, max_lt hd hb, by simp⟩
    · exact ⟨rfl, hb, by simp⟩
    · refine ⟨rfl, ?_, fun _ => ?_⟩
      · split <;> omega
      · split <;> omega
    · refine ⟨rfl, ?_, fun _ => ?_⟩
      · split <;> omega
      · split <;> omega
  · intro op hop
    cases op <;> first | rfl | (simp at hop)

theorem atom_b32_stores_operation_result_witness :
    (7 : Nat) < 2 ^ 32 ∧ (fun _ => 12 : Words) (atomAddress 64 AddressSpace.Shared 8) < 2 ^ 32 ∧
    __ocelot_atom_b32 64 AddressSpace.Shared AtomicOperation.AtomicInc 8 7 (fun _ => 12) =
      (Function.update (fun _ => 12) (atomAddress 64 AddressSpace.Shared 8) 0, .ok 12) ∧
    __ocelot_atom_b32 64 AddressSpace.Shared AtomicOperation.AtomicCas 8 7 (fun _ => 12) =
      ((fun _ => 12), .error .assertion) :=
  have h := atom_b32_stores_operation_result 64 AddressSpace.Shared 8 7 (fun _ => 12)
    (by decide) (by decide)
  ⟨by decide, by decide,
    (h.1 AtomicOperation.AtomicInc 0 (by simp [atomAddress])).1,
    h.2 AtomicOperation.AtomicCas (by simp)⟩

end LLVMExecutableKernel

/-! ## The thread index and the block index of a context (C25, C26) -/

namespace executive

namespace LLVMCooperativeThreadArray

variable {σ : Type}

theorem threadIndex_eq {threadId : Nat} {n tid : Dim3} (h : threadIndex threadId n = .ok tid) :
    tid = { x := threadId % n.x, y := (threadId / n.x) % n.y, z := threadId / (n.x * n.y) } := by
  unfold threadIndex at h
  split at h
  · cases h
  · simp only [Except.ok.injEq] at h
    exact h.symm

/-- The indices `_initializeNewContext` writes into the context of the slot it
hands out: for a slot of the free pool, the thread index is computed from the
dimensions of the grid and the block index from the CTA id; for a slot of the
reclaimed pool, the thread index is computed from the `nctaid` the context
holds, and the other fields are kept. -/
theorem initializeNewContext_indices {st st1 : LLVMCooperativeThreadArray σ}
    {threadId ctaId contextId : Nat}
    (h : _initializeNewContext st threadId ctaId = .ok (st1, contextId)) :
    ∃ context, st1._contexts[contextId]? = some context ∧
      ((st._reclaimedContexts = [] ∧
          context.tid =
            { x := threadId % st._kernel.gridDim.x
              y := (threadId / st._kernel.gridDim.x) % st._kernel.gridDim.y
              z := threadId / (st._kernel.gridDim.x * st._kernel.gridDim.y) } ∧
          context.ctaid =
            { x := ctaId % st._kernel.gridDim.x, y := ctaId / st._kernel.gridDim.y, z := 0 } ∧
          context.ntid = st._kernel.blockDim ∧ context.nctaid = st._kernel.gridDim) ∨
        (st._reclaimedContexts ≠ [] ∧ ∃ old, st._contexts[contextId]? = some old ∧
          context =
            { old with
              tid :=
                { x := threadId % old.nctaid.x
                  y := (threadId / old.nctaid.x) % old.nctaid.y
                  z := threadId / (old.nctaid.x * old.nctaid.y) } })) := by
  unfold _initializeNewContext at h
  cases hr : st._reclaimedContexts.getLast? with
  | none =>
    have hnil : st._reclaimedContexts = [] := List.getLast?_eq_none_iff.mp hr
    simp only [hr] at h
    cases hf : st._freeContexts.getLast? with
    | none => simp [hf] at h
    | some c =>
      simp only [hf] at h
      cases hc : st._contexts[c]? with
      | none => simp [hc] at h
      | some context =>
        cases hs : st._stacks[c]? with
        | none => simp [hc, hs] at h
        | some stack =>
          simp only [hc, hs] at h
          split at h
          · cases h
          · cases ht : threadIndex threadId st._kernel.gridDim with
            | error e => simp [ht] at h
            | ok tid =>
              simp only [ht, Except.ok.injEq, Prod.mk.injEq] at h
              obtain ⟨h1, h2⟩ := h
              subst h1
              subst h2
              have hlt : c < st._contexts.length := by
                by_contra hge
                rw [List.getElem?_eq_none (Nat.le_of_not_lt hge)] at hc
                cases hc
              exact ⟨_, List.getElem?_set_self hlt, Or.inl ⟨hnil, threadIndex_eq ht, rfl, rfl, rfl⟩⟩
  | some c =>
    have hne : st._reclaimedContexts ≠ [] := by
      intro hnil
      rw [hnil] at hr
      simp at hr
    simp only [hr] at h
    cases hc : st._contexts[c]? with
    | none => simp [hc] at h
    | some context =>
      simp only [hc] at h
      cases ht : threadIndex threadId context.nctaid with
      | error e => simp [ht] at h
      | ok tid =>
        simp only [ht, Except.ok.injEq, Prod.mk.injEq] at h
        obtain ⟨h1, h2⟩ := h
        subst h1
        subst h2
        have hlt : c < st._contexts.length := by
          by_contra hge
          rw [List.getElem?_eq_none (Nat.le_of_not_lt hge)] at hc
          cases hc
        refine ⟨_, List.getElem?_set_self hlt, Or.inr ⟨hne, context, hc, ?_⟩⟩
        rw [threadIndex_eq ht]

/-- C25 on the code.  `_initializeNewContext` computes the thread index from
the dimensions of the grid (`nctaid`), not from those of the block: for a slot
of the free pool and a grid of shape `(gx, gy)` the index of thread `t` is
`(t mod gx, (t / gx) mod gy, t / (gx * gy))`, and for a slot of the reclaimed
pool it is computed in the same way from the `nctaid` of the context.  In
blocks of shape (3, 2, 1) on a grid of shape (2, 3), thread 4 gets the index
(0, 2, 0) in a fresh slot, where `tid.y` is not below 2 and
`tid.x + 3 * tid.y + 6 * tid.z` is 6, and after the launch phase of
`executeCta(2)` the threads 4 and 5, which run in the reused slots 2 and 3,
have the indices (0, 2, 0) and (1, 2, 0). -/
theorem thread_index_computed_from_grid_shape :
    (∀ (σ : Type) (st st1 : LLVMCooperativeThreadArray σ) (threadId ctaId contextId : Nat),
      _initializeNewContext st threadId ctaId = .ok (st1, contextId) →
      ∃ context, st1._contexts[contextId]? = some context ∧ ∃ n : Dim3,
        context.tid =
          { x := threadId % n.x, y := (threadId / n.x) % n.y, z := threadId / (n.x * n.y) } ∧
        ((st._reclaimedContexts = [] ∧ n = st._kernel.gridDim) ∨
          (st._reclaimedContexts ≠ [] ∧ ∃ old, st._contexts[contextId]? = some old ∧
            n = old.nctaid))) ∧
    Sample.shapedReady = .ok Sample.shapedSetup ∧
    Sample.shapedSetup._kernel.blockDim = ⟨3, 2, 1⟩ ∧
    Sample.shapedSetup._kernel.gridDim = ⟨2, 3, 1⟩ ∧
    (∃ st1, _initializeNewContext Sample.shapedSetup 4 2 = .ok (st1, 5) ∧
      (st1._contexts.map (fun context => (context.ntid, context.tid)))[5]? =
        some (⟨3, 2, 1⟩, ⟨0, 2, 0⟩)) ∧
    launch Sample.callType Sample.shapedSetup 2 =
      .ok (Sample.shapedLaunched, [[(0, 5), (1, 4), (2, 3), (3, 2)], [(4, 2), (5, 3)]]) ∧
    Sample.shapedLaunched._contexts.map (fun context => (context.ntid, context.tid)) =
      [(⟨0, 0, 0⟩, ⟨0, 0, 0⟩), (⟨0, 0, 0⟩, ⟨0, 0, 0⟩), (⟨3, 2, 1⟩, ⟨0, 2, 0⟩),
        (⟨3, 2, 1⟩, ⟨1, 2, 0⟩), (⟨3, 2, 1⟩, ⟨1, 0, 0⟩), (⟨3, 2, 1⟩, ⟨0, 0, 0⟩)] := by
  refine ⟨?_, rfl, rfl, rfl, ⟨_, rfl, rfl⟩, rfl, rfl⟩
  intro σ st st1 threadId ctaId contextId h
  obtain ⟨context, hc, hcases⟩ := initializeNewContext_indices h
  refine ⟨context, hc, ?_⟩
  rcases hcases with ⟨hnil, htid, _, _, _⟩ | ⟨hne, old, hold, hctx⟩
  · exact ⟨st._kernel.gridDim, htid, Or.inl ⟨hnil, rfl⟩⟩
  · refine ⟨old.nctaid, ?_, Or.inr ⟨hne, old, hold, rfl⟩⟩
    rw [hctx]

/-- C26 on the code.  For a slot of the free pool `_initializeNewContext`
computes the block index of CTA `c` on a grid of shape `(gx, gy)` as
`(c mod gx, c / gy, 0)`: the CTA id is divided by `gy`, not by `gx`.  On a
grid of shape (2, 3) the CTA 2 gets the block index (0, 0, 0), for which
`ctaid.x + 2 * ctaid.y` is 0, and the CTA 5 gets the block index (1, 1, 0),
for which it is 3. -/
theorem block_index_divides_by_grid_height :
    (∀ (σ : Type) (st st1 : LLVMCooperativeThreadArray σ) (threadId ctaId contextId : Nat),
      _initializeNewContext st threadId ctaId = .ok (st1, contextId) →
      st._reclaimedContexts = [] →
      ∃ context, st1._contexts[contextId]? = some context ∧
        context.nctaid = st._kernel.gridDim ∧
        context.ctaid =
          { x := ctaId % st._kernel.gridDim.x, y := ctaId / st._kernel.gridDim.y, z := 0 }) ∧
    Sample.shapedReady = .ok Sample.shapedSetup ∧
    Sample.shapedSetup._kernel.gridDim = ⟨2, 3, 1⟩ ∧
    (∃ st1, _initializeNewContext Sample.shapedSetup 0 2 = .ok (st1, 5) ∧
      (st1._contexts.map (fun context => (context.nctaid, context.ctaid)))[5]? =
        some (⟨2, 3, 1⟩, ⟨0, 0, 0⟩)) ∧
    (∃ st1, _initializeNewContext Sample.shapedSetup 0 5 = .ok (st1, 5) ∧
      (st1._contexts.map (fun context => (context.nctaid, context.ctaid)))[5]? =
        some (⟨2, 3, 1⟩, ⟨1, 1, 0⟩)) := by
  refine ⟨?_, rfl, rfl, ⟨_, rfl, rfl⟩, ⟨_, rfl, rfl⟩⟩
  intro σ st st1 threadId ctaId contextId h hnil
  obtain ⟨context, hc, hcases⟩ := initializeNewContext_indices h
  refine ⟨context, hc, ?_⟩
  rcases hcases with ⟨_, _, hcta, _, hn⟩ | ⟨hne, _⟩
  · exact ⟨hn, hcta⟩
  · exact absurd hnil hne

end LLVMCooperativeThreadArray

end executive

/-! ## The header after it has been read (C24) -/

namespace executive

namespace LLVMCooperativeThreadArray

variable {σ : Type}

/-- A call pushes a frame and leaves the frames below it as they are. -/
theorem frameAt_call (s : LLVMFunctionCallStack) (calleeFrameSize argBytes base : Nat)
    (h : base ≤ s.callers.length) :
    (s.call calleeFrameSize argBytes).frameAt base = s.frameAt base := by
  unfold LLVMFunctionCallStack.frameAt LLVMFunctionCallStack.call
  simp only [List.length_cons]
  have h1 : base ≠ s.callers.length + 1 := by omega
  have h2 : base < s.callers.length + 1 := by omega
  simp only [h1, h2, if_false, if_true]
  by_cases heq : base = s.callers.length
  · subst heq
    simp
  · have hlt : base < s.callers.length := by omega
    simp only [heq, hlt, if_false, if_true]
    have hidx : s.callers.length + 1 - 1 - base = (s.callers.length - 1 - base) + 1 := by omega
    rw [hidx, List.getElem?_cons_succ]

theorem frameAt_le {s : LLVMFunctionCallStack} {base : Nat} {frame : Frame}
    (h : s.frameAt base = some frame) : base ≤ s.callers.length := by
  unfold LLVMFunctionCallStack.frameAt at h
  by_contra hgt
  have h1 : base ≠ s.callers.length := by omega
  have h2 : ¬ base < s.callers.length := by omega
  simp [h1, h2] at h

/-- C24 as it is written fails.  After `_finishContext` has read the finished
sentinel in the header of slot 0, the header still holds it, and a second call
reads the finished sentinel again; after it has read function id 0 for a tail
call, the header still names function 0. -/
theorem header_not_cleared_after_read :
    header (Sample.suspendedState [finished]) 0 = some [finished] ∧
    (∃ st1, _finishContext Sample.callType (Sample.suspendedState [finished]) 0 =
        .ok (st1, true) ∧
      header st1 0 = some [finished] ∧
      _finishContext Sample.callType st1 0 = .ok (st1, true)) ∧
    header (Sample.suspendedState [0, Sample.callType.TailCall]) 0 =
      some [0, Sample.callType.TailCall] ∧
    (∃ st1, _finishContext Sample.callType (Sample.suspendedState [0, Sample.callType.TailCall]) 0 =
        .ok (st1, false) ∧
      header st1 0 = some [0, Sample.callType.TailCall]) :=
  ⟨rfl, ⟨_, rfl, rfl, rfl⟩, rfl, ⟨_, rfl, rfl⟩⟩

/-- C24, amended: the scheduler reads the header and does not clear it.  When
`_finishContext` has processed the header of a thread, and the header was the
finished sentinel, or named function 0, or was a tail call or of a call kind
that is none of the three, reading the header of the thread again gives the
same words.  After a normal call the local base points to the new frame, and
the frame that was read still holds the words read.  (A return call pops the
frame that was read.) -/
theorem header_words_kept_after_processing (callType : CallType)
    (st st1 : LLVMCooperativeThreadArray σ) (contextId : Nat) (words : List Nat) (done : Bool)
    (hheader : header st contextId = some words)
    (hfin : _finishContext callType st contextId = .ok (st1, done)) :
    (words.getD 0 0 = finished ∨ words.getD 0 0 = 0 ∨ words.getD 1 0 = callType.TailCall ∨
        (words.getD 1 0 ≠ callType.NormalCall ∧ words.getD 1 0 ≠ callType.ReturnCall) →
      header st1 contextId = some words) ∧
    (words.getD 1 0 = callType.NormalCall →
      ∀ context, st._contexts[contextId]? = some context →
        ∃ stack1 frame1, st1._stacks[contextId]? = some stack1 ∧
          stack1.frameAt context.local_ = some frame1 ∧ frame1.words = words) := by
  obtain ⟨context, stack, frame, hc, hs, hf, hw⟩ := header_eq_some hheader
  subst hw
  have hlc := lt_length_of_getElem? hc
  have hls := lt_length_of_getElem? hs
  have hsame : ∀ s : LLVMCooperativeThreadArray σ, s._stacks = st._stacks →
      s._contexts = st._contexts → header s contextId = some frame.words := by
    intro s h1 h2
    rw [← hheader]
    exact header_congr (by rw [h2]) (by rw [h1])
  unfold _finishContext at hfin
  simp only [hc, hs, hf] at hfin
  by_cases hfinished : frame.words.getD 0 0 = finished
  · simp only [hfinished, if_true, Except.ok.injEq, Prod.mk.injEq] at hfin
    obtain ⟨h1, _⟩ := hfin
    subst h1
    exact ⟨fun _ => hheader, fun _ context' hc' => ⟨stack, frame, hs, by
      rw [hc] at hc'
      cases hc'
      exact hf, rfl⟩⟩
  · simp only [hfinished, if_false] at hfin
    by_cases hzero : frame.words.getD 0 0 = 0
    · simp only [hzero, if_true] at hfin
      split at hfin
      · cases hfin
      · simp only [Except.ok.injEq, Prod.mk.injEq] at hfin
        obtain ⟨h1, _⟩ := hfin
        subst h1
        exact ⟨fun _ => hsame _ rfl rfl, fun _ context' hc' => ⟨stack, frame, hs, by
          rw [hc] at hc'
          cases hc'
          exact hf, rfl⟩⟩
    · simp only [hzero, if_false] at hfin
      by_cases htail : frame.words.getD 1 0 = callType.TailCall
      · simp only [htail, if_true, Except.ok.injEq, Prod.mk.injEq] at hfin
        obtain ⟨h1, _⟩ := hfin
        subst h1
        exact ⟨fun _ => hsame _ rfl rfl, fun _ context' hc' => ⟨stack, frame, hs, by
          rw [hc] at hc'
          cases hc'
          exact hf, rfl⟩⟩
      · simp only [htail, if_false] at hfin
        by_cases hnormal : frame.words.getD 1 0 = callType.NormalCall
        · simp only [hnormal, if_true, Except.ok.injEq, Prod.mk.injEq] at hfin
          obtain ⟨h1, _⟩ := hfin
          subst h1
          constructor
          · intro hcase
            rcases hcase with h | h | h | ⟨h, _⟩
            · exact absurd h hfinished
            · exact absurd h hzero
            · exact absurd h htail
            · exact absurd hnormal h
          · intro _ context' hc'
            rw [hc] at hc'
            cases hc'
            refine ⟨_, frame, List.getElem?_set_self hls, ?_, rfl⟩
            rw [frameAt_call _ _ _ _ (frameAt_le hf)]
            exact hf
        · simp only [hnormal, if_false] at hfin
          by_cases hreturn : frame.words.getD 1 0 = callType.ReturnCall
          · constructor
            · intro hcase
              rcases hcase with h | h | h | ⟨_, h⟩
              · exact absurd h hfinished
              · exact absurd h hzero
              · exact absurd h htail
              · exact absurd hreturn h
            · intro h
              exact absurd h hnormal
          · simp only [hreturn, if_false, Except.ok.injEq, Prod.mk.injEq] at hfin
            obtain ⟨h1, _⟩ := hfin
            subst h1
            exact ⟨fun _ => hsame _ rfl rfl, fun h => absurd h hnormal⟩

theorem header_words_kept_after_processing_witness :
    header (Sample.suspendedState [finished]) 0 = some [finished] ∧
    _finishContext Sample.callType (Sample.suspendedState [finished]) 0 =
      .ok (Sample.suspendedState [finished], true) ∧
    header (Sample.suspendedState [finished]) 0 = some [finished] :=
  ⟨rfl, rfl,
    (header_words_kept_after_processing Sample.callType (Sample.suspendedState [finished])
      (Sample.suspendedState [finished]) 0 [finished] true rfl rfl).1 (Or.inl rfl)⟩

end LLVMCooperativeThreadArray

end executive

/-! ## Progress of the drain loop (C27) -/

namespace executive

namespace LLVMCooperativeThreadArray

variable {σ : Type}

/-- When the queue of function 0 does not hold as many slots as the block has
threads, the function chosen is not function 0. -/
theorem computeNextFunction_ne_zero {manager : ModuleManager σ}
    {st st1 : LLVMCooperativeThreadArray σ} {queue0 : List Nat}
    (hqueue : st._queuedThreads[0]? = some queue0)
    (hfull : queue0.length ≠ st._contexts.length)
    (h : _computeNextFunction manager st = .ok st1) : st1._nextFunction ≠ 0 := by
  cases hg : st._queuedThreads[st._guessFunction]? with
  | none =>
    unfold _computeNextFunction at h
    simp only [hqueue, hfull, if_false, hg] at h
    cases h
  | some guessed =>
    by_cases hguess : guessed.length = st._contexts.length
    · rw [computeNextFunction_of_guess hqueue hfull hg hguess] at h
      rw [residentFunction_next h]
      intro hzero
      rw [hzero, hqueue] at hg
      simp only [Option.some.injEq] at hg
      subst hg
      exact hfull hguess
    · cases h1 : st._queuedThreads[1]? with
      | none =>
        unfold _computeNextFunction at h
        simp only [hqueue, hfull, if_false, hg, hguess, h1] at h
        cases h
      | some queue1 =>
        rw [computeNextFunction_of_scan hqueue hfull hg hguess h1] at h
        rw [residentFunction_next h]
        rcases scanQueues_range (st._contexts.length / 2) (st._queuedThreads.drop 2) 2 1
          queue1.length 0 with hr | hr
        · rw [hr]
          exact Nat.one_ne_zero
        · omega

/-- An iteration of the drain loop takes the queue of the function that
`_computeNextFunction` has chosen. -/
theorem drainIteration_warpList {manager : ModuleManager σ} {callType : CallType}
    {st st1 : LLVMCooperativeThreadArray σ} {iteration : Iteration}
    (h : drainIteration manager callType st = .ok (st1, iteration)) :
    ∃ chosen, _computeNextFunction manager st = .ok chosen ∧
      iteration.function = chosen._nextFunction ∧
      chosen._queuedThreads[chosen._nextFunction]? = some iteration.warpList := by
  unfold drainIteration at h
  cases h0 : _computeNextFunction manager st with
  | error e => simp [h0] at h
  | ok s0 =>
    simp only [h0] at h
    cases h1 : s0._queuedThreads[s0._nextFunction]? with
    | none => simp [h1] at h
    | some warpList =>
      simp only [h1] at h
      repeat' split at h
      all_goals first
        | (cases h; done)
        | (simp only [Except.ok.injEq, Prod.mk.injEq] at h
           obtain ⟨_, h3⟩ := h
           subst h3
           exact ⟨s0, rfl, rfl, h1⟩)

/-- C27 on the code.  When the queue of function 0 is not empty, holds fewer
slots than the block has threads, and every other queue is empty,
`_computeNextFunction` chooses a function other than 0, whose queue is empty,
and the iteration of the drain loop dispatches no thread.  In the block of 4
threads of which two finish in the launch phase and two go on in function 0,
every iteration of the drain loop chooses function 1 and dispatches no thread,
the two slots stay in the queue of function 0, and `executeCta` does not
return, whatever the number of iterations granted. -/
theorem drain_loop_makes_no_progress :
    (∀ (σ : Type) (manager : ModuleManager σ) (callType : CallType)
        (st st1 : LLVMCooperativeThreadArray σ) (iteration : Iteration),
        0 < population st 0 → population st 0 ≠ st._contexts.length →
        (∀ id, 1 ≤ id → population st id = 0) →
        drainIteration manager callType st = .ok (st1, iteration) →
        iteration.function ≠ 0 ∧ iteration.warpList = []) ∧
    launch Sample.callType Sample.yieldSetup 0 =
      .ok (Sample.yieldLaunched, [[(0, 3), (1, 2), (2, 1), (3, 0)], []]) ∧
    Sample.yieldLaunched._contexts.length = 4 ∧
    Sample.yieldLaunched._queuedThreads = [[1, 0], [], []] ∧
    drainIteration Sample.yieldManager Sample.callType Sample.yieldLaunched =
      .ok (Sample.yieldIteration, { function := 1, warpList := [], groups := [[]] }) ∧
    Sample.yieldIteration._queuedThreads = [[1, 0], [], []] ∧
    drainIteration Sample.yieldManager Sample.callType Sample.yieldIteration =
      .ok (Sample.yieldIteration, { function := 1, warpList := [], groups := [[]] }) ∧
    ∀ fuel, executeCta Sample.yieldManager Sample.callType fuel Sample.yieldSetup 0 =
      .ok none := by
  have hlaunch : launch Sample.callType Sample.yieldSetup 0 =
      .ok (Sample.yieldLaunched, [[(0, 3), (1, 2), (2, 1), (3, 0)], []]) := rfl
  have hfirst : drainIteration Sample.yieldManager Sample.callType Sample.yieldLaunched =
      .ok (Sample.yieldIteration, { function := 1, warpList := [], groups := [[]] }) := rfl
  have hfix : drainIteration Sample.yieldManager Sample.callType Sample.yieldIteration =
      .ok (Sample.yieldIteration, { function := 1, warpList := [], groups := [[]] }) := rfl
  have hne1 : Sample.yieldLaunched._freeContexts.length ≠
      Sample.yieldLaunched._contexts.length := by decide
  have hne2 : Sample.yieldIteration._freeContexts.length ≠
      Sample.yieldIteration._contexts.length := by decide
  refine ⟨?_, hlaunch, rfl, rfl, hfirst, rfl, hfix, ?_⟩
  · intro σ manager callType st st1 iteration hpos hfull hempty h
    obtain ⟨chosen, hc, hfun, hw⟩ := drainIteration_warpList h
    obtain ⟨_, _, hq, _, _, _⟩ := computeNextFunction_effect hc
    unfold population at hpos hfull hempty
    cases h0 : st._queuedThreads[0]? with
    | none => simp [h0] at hpos
    | some queue0 =>
      have hlen : (st._queuedThreads.getD 0 []).length = queue0.length := by simp [h0]
      have hnz := computeNextFunction_ne_zero h0 (by omega) hc
      refine ⟨by rw [hfun]; exact hnz, ?_⟩
      have hpop := hempty chosen._nextFunction (Nat.pos_of_ne_zero hnz)
      rw [hq] at hw
      simp only [List.getD_eq_getElem?_getD, hw, Option.getD_some] at hpop
      exact List.length_eq_zero.mp hpop
  · intro fuel
    unfold executeCta
    rw [hlaunch]
    cases fuel with
    | zero => simp [drain, hne1]
    | succ fuel =>
      have hstuck :=
        drain_stuck Sample.yieldManager Sample.callType Sample.yieldIteration _ hne2 hfix fuel
      simp [drain, hne1, hfirst, hstuck]

end LLVMCooperativeThreadArray

end executive

/-! ## One iteration of the drain loop (C21) -/

namespace executive

namespace LLVMCooperativeThreadArray

variable {σ : Type}

end LLVMCooperativeThreadArray

end executive

/-! ## The pools when `executeCta` returns (C22) -/

namespace executive

namespace LLVMCooperativeThreadArray

variable {σ : Type}

end LLVMCooperativeThreadArray

end executive

/-! ## The shape of the blocks (C23) -/

namespace LLVMExecutableKernel

/-- C23: `setKernelShape(x, y, z)` sets the block dimensions to `(x, y, z)`,
so that `threads()` is `x * y * z` modulo `2 ^ 32`, which is `x * y * z` for a
thread count below `2 ^ 32`.  It replaces the local-memory buffer by a new one
of `threads() * localSize` bytes (a `size_t` product, so modulo `2 ^ 64`) when
`threads()` has changed and there is a buffer, and only then; when `threads()`
is the same, or there is no buffer, the buffer is left as it is.  Every other
field is left as it is in both cases, and when the thread count `x * y * z` is
the one of the shape before, nothing but the dimensions has changed. -/
theorem setKernelShape_reallocates_on_thread_count_change {σ : Type} (k : Executable σ)
    (x y z address : Nat) (garbage : Region) :
    (Machine.setKernelShape k x y z address garbage)._context.ntid =
      { x := x, y := y, z := z } ∧
    Machine.threads (Machine.setKernelShape k x y z address garbage)._context =
      (x * y * z) % 2 ^ 32 ∧
    (x * y * z < 2 ^ 32 →
      Machine.threads (Machine.setKernelShape k x y z address garbage)._context = x * y * z) ∧
    ((Machine.setKernelShape k x y z address garbage)._context.tid = k._context.tid ∧
      (Machine.setKernelShape k x y z address garbage)._context.ctaid = k._context.ctaid ∧
      (Machine.setKernelShape k x y z address garbage)._context.nctaid = k._context.nctaid ∧
      (Machine.setKernelShape k x y z address garbage)._context.localSize =
        k._context.localSize ∧
      (Machine.setKernelShape k x y z address garbage)._context.shared = k._context.shared ∧
      (Machine.setKernelShape k x y z address garbage)._context.parameter =
        k._context.parameter ∧
      (Machine.setKernelShape k x y z address garbage)._context.constant =
        k._context.constant ∧
      (Machine.setKernelShape k x y z address garbage)._resumePointOffset =
        k._resumePointOffset ∧
      (Machine.setKernelShape k x y z address garbage).world = k.world) ∧
    ((x * y * z) % 2 ^ 32 ≠ Machine.threads k._context → k._context.local_ ≠ 0 →
      (Machine.setKernelShape k x y z address garbage)._context.local_ = address ∧
      (Machine.setKernelShape k x y z address garbage).localBytes =
        ((x * y * z) % 2 ^ 32 * k._context.localSize) % 2 ^ 64 ∧
      (Machine.setKernelShape k x y z address garbage).localMemory =
        List.replicate
          (if k._context.localSize = 0 then (x * y * z) % 2 ^ 32
            else ((x * y * z) % 2 ^ 32 * k._context.localSize) % 2 ^ 64 /
              k._context.localSize)
          garbage ∧
      (x * y * z < 2 ^ 32 → x * y * z * k._context.localSize < 2 ^ 64 →
        (Machine.setKernelShape k x y z address garbage).localBytes =
          x * y * z * k._context.localSize ∧
        (Machine.setKernelShape k x y z address garbage).localMemory =
          List.replicate (x * y * z) garbage)) ∧
    ((x * y * z) % 2 ^ 32 = Machine.threads k._context ∨ k._context.local_ = 0 →
      (Machine.setKernelShape k x y z address garbage)._context.local_ = k._context.local_ ∧
      (Machine.setKernelShape k x y z address garbage).localBytes = k.localBytes ∧
      (Machine.setKernelShape k x y z address garbage).localMemory = k.localMemory) ∧
    (x * y * z = k._context.ntid.x * k._context.ntid.y * k._context.ntid.z →
      Machine.setKernelShape k x y z address garbage =
        { k with _context := { k._context with ntid := { x := x, y := y, z := z } } }) := by
  have hcount : ∀ (n size : Nat), n < 2 ^ 32 → n * size < 2 ^ 64 →
      (if size = 0 then n else n * size % 2 ^ 64 / size) = n := by
    intro n size _ hfit
    by_cases h0 : size = 0
    · simp [h0]
    · simp only [h0, if_false, Nat.mod_eq_of_lt hfit]
      exact Nat.mul_div_cancel n (Nat.pos_of_ne_zero h0)
  by_cases hsame : Machine.threads k._context = (x * y * z) % 2 ^ 32
  · have hk : Machine.setKernelShape k x y z address garbage =
        { k with _context := { k._context with ntid := { x := x, y := y, z := z } } } := by
      unfold Machine.setKernelShape
      unfold Machine.threads at hsame ⊢
      simp only [hsame, ne_eq, not_true_eq_false, if_false]
    rw [hk]
    refine ⟨rfl, rfl, fun h => Nat.mod_eq_of_lt h,
      ⟨rfl, rfl, rfl, rfl, rfl, rfl, rfl, rfl, rfl⟩, ?_, ?_, ?_⟩
    · intro hne
      exact absurd hsame.symm hne
    · intro _
      exact ⟨rfl, rfl, rfl⟩
    · intro _
      rfl
  · by_cases hnull : k._context.local_ = 0
    · have hk : Machine.setKernelShape k x y z address garbage =
          { k with _context := { k._context with ntid := { x := x, y := y, z := z } } } := by
        unfold Machine.setKernelShape
        unfold Machine.threads at hsame ⊢
        simp only [hsame, hnull, ne_eq, not_false_eq_true, not_true_eq_false, if_true,
          if_false]
      rw [hk]
      refine ⟨rfl, rfl, fun h => Nat.mod_eq_of_lt h,
        ⟨rfl, rfl, rfl, rfl, rfl, rfl, rfl, rfl, rfl⟩, ?_, ?_, ?_⟩
      · intro _ hne
        exact absurd hnull hne
      · intro _
        exact ⟨rfl, rfl, rfl⟩
      · intro _
        rfl
    · have hk : Machine.setKernelShape k x y z address garbage =
          { k with
            _context :=
              { k._context with ntid := { x := x, y := y, z := z }, local_ := address }
            localBytes := ((x * y * z) % 2 ^ 32 * k._context.localSize) % 2 ^ 64
            localMemory :=
              List.replicate
                (if k._context.localSize = 0 then (x * y * z) % 2 ^ 32
                  else ((x * y * z) % 2 ^ 32 * k._context.localSize) % 2 ^ 64 /
                    k._context.localSize)
                garbage } := by
        unfold Machine.setKernelShape
        unfold Machine.threads at hsame ⊢
        simp only [hsame, hnull, ne_eq, not_false_eq_true, if_true]
      rw [hk]
      refine ⟨rfl, rfl, fun h => Nat.mod_eq_of_lt h,
        ⟨rfl, rfl, rfl, rfl, rfl, rfl, rfl, rfl, rfl⟩, ?_, ?_, ?_⟩
      · intro _ _
        refine ⟨rfl, rfl, rfl, ?_⟩
        intro hshape hfit
        show ((x * y * z) % 2 ^ 32 * k._context.localSize) % 2 ^ 64 = _ ∧
          List.replicate _ garbage = _
        rw [Nat.mod_eq_of_lt hshape, hcount _ _ hshape hfit, Nat.mod_eq_of_lt hfit]
        exact ⟨rfl, rfl⟩
      · intro hcase
        rcases hcase with hcase | hcase
        · exact absurd hcase.symm hsame
        · exact absurd hcase hnull
      · intro hproduct
        exfalso
        apply hsame
        unfold Machine.threads
        rw [hproduct]

/-- C23 on a kernel with blocks of shape (2, 3, 1), 8 bytes of local memory for
each thread and a buffer at address 4096: the shape (3, 2, 1) leaves the
buffer as it is; the shape (4, 2, 1) gives a new buffer of 64 bytes; the shape
(65536, 65536, 1), for which `threads()` is 0, gives a new buffer of no
bytes. -/
theorem setKernelShape_reallocates_on_thread_count_change_witness :
    Machine.threads Sample.executable._context = 2 * 3 * 1 ∧
    (Machine.setKernelShape Sample.executable 3 2 1 8192 (fun _ => 0))._context.ntid =
      ⟨3, 2, 1⟩ ∧
    (Machine.setKernelShape Sample.executable 3 2 1 8192 (fun _ => 0))._context.local_ =
      4096 ∧
    (Machine.setKernelShape Sample.executable 3 2 1 8192 (fun _ => 0)).localBytes = 48 ∧
    (Machine.setKernelShape Sample.executable 3 2 1 8192 (fun _ => 0)).localMemory =
      Sample.executable.localMemory ∧
    (Machine.setKernelShape Sample.executable 4 2 1 8192 (fun _ => 0))._context.local_ =
      8192 ∧
    (Machine.setKernelShape Sample.executable 4 2 1 8192 (fun _ => 0)).localBytes = 64 ∧
    (Machine.setKernelShape Sample.executable 4 2 1 8192 (fun _ => 0)).localMemory.length =
      8 ∧
    Machine.threads
      (Machine.setKernelShape Sample.executable 65536 65536 1 8192 (fun _ => 0))._context =
        0 ∧
    (Machine.setKernelShape Sample.executable 65536 65536 1 8192 (fun _ => 0)).localBytes =
      0 :=
  have h1 := setKernelShape_reallocates_on_thread_count_change Sample.executable 3 2 1 8192
    (fun _ => 0)
  have h2 := setKernelShape_reallocates_on_thread_count_change Sample.executable 4 2 1 8192
    (fun _ => 0)
  ⟨rfl, h1.1, (h1.2.2.2.2.2.1 (Or.inl rfl)).1, (h1.2.2.2.2.2.1 (Or.inl rfl)).2.1,
    (h1.2.2.2.2.2.1 (Or.inl rfl)).2.2, (h2.2.2.2.2.1 (by decide) (by decide)).1,
    (h2.2.2.2.2.1 (by decide) (by decide)).2.1, rfl, rfl, rfl⟩

end LLVMExecutableKernel

/-! ## The loops over the threads of a block -/

namespace LLVMExecutableKernel

/-- A loop keeps an invariant that each of its iterations keeps. -/
theorem forLoop_spec {S : Type} (body : Nat → S → Except Abort S) (I : Nat → S → Prop)
    (count first : Nat) (s s1 : S) (h0 : I first s)
    (hstep : ∀ i t t1, first ≤ i → i < first + count → I i t → body i t = .ok t1 → I (i + 1) t1)
    (h : forLoop body first count s = .ok s1) : I (first + count) s1 := by
  induction count generalizing first s with
  | zero =>
    simp only [forLoop, Except.ok.injEq] at h
    subst h
    exact h0
  | succ count ih =>
    unfold forLoop at h
    cases hb : body first s with
    | error e => simp [hb] at h
    | ok t =>
      simp only [hb] at h
      have h1 := hstep first s t (le_refl _) (by omega) h0 hb
      have h2 := ih (first + 1) t h1 (fun i u u1 hi hlt => hstep i u u1 (by omega) (by omega)) h
      have heq : first + 1 + count = first + (count + 1) := by omega
      rw [heq] at h2
      exact h2

/-- A loop whose iterations return, as long as an invariant holds, returns, and
the invariant holds of what it returns. -/
theorem forLoop_total {S : Type} (body : Nat → S → Except Abort S) (I : Nat → S → Prop)
    (count first : Nat) (s : S) (Q : S → Prop) (h0 : I first s)
    (hstep : ∀ i t, first ≤ i → i < first + count → I i t →
      ∃ t1, body i t = .ok t1 ∧ I (i + 1) t1)
    (hQ : ∀ s1, I (first + count) s1 → Q s1) :
    ∃ s1, forLoop body first count s = .ok s1 ∧ Q s1 := by
  induction count generalizing first s with
  | zero => exact ⟨s, rfl, hQ s h0⟩
  | succ count ih =>
    obtain ⟨t, hb, h1⟩ := hstep first s (le_refl _) (by omega) h0
    have heq : first + 1 + count = first + (count + 1) := by omega
    obtain ⟨s1, h2, h3⟩ :=
      ih (first + 1) t h1 (fun i u hi hlt => hstep i u (by omega) (by omega))
        (fun s1 h => hQ s1 (heq ▸ h))
    refine ⟨s1, ?_, h3⟩
    unfold forLoop
    simp only [hb]
    exact h2

theorem index_lt (X Y Z x y z : Nat) (hx : x < X) (hy : y < Y) (hz : z < Z) :
    X * Y * z + X * y + x < X * Y * Z := by
  have h1 : X * (y + 1) ≤ X * Y := Nat.mul_le_mul_left X hy
  have h2 : X * Y * (z + 1) ≤ X * Y * Z := Nat.mul_le_mul_left (X * Y) hz
  have e1 : X * (y + 1) = X * y + X := Nat.mul_succ X y
  have e2 : X * Y * (z + 1) = X * Y * z + X * Y := Nat.mul_succ (X * Y) z
  omega

/-- The three nested loops run the body once for each of the thread ids
`0, 1, ..., threads() - 1`, in this order, and return if the body does:
`P s n` says of the state `s` that the threads below `n` have run. -/
theorem threadLoops_total {σ : Type} (body : Launch σ → Except Abort (Launch σ))
    (P : Launch σ → Nat → Prop) (N : executive.Dim3)
    (hretid : ∀ (s : Launch σ) (n : Nat) (t : executive.Dim3), P s n →
      P { s with kernel := { s.kernel with _context := { s.kernel._context with tid := t } } } n)
    (hntid : ∀ s n, P s n → s.kernel._context.ntid = N)
    (hstep : ∀ s n, P s n → threadId s.kernel._context = n → n < N.x * N.y * N.z →
      ∃ s1, body s = .ok s1 ∧ P s1 (n + 1) ∧
        s1.kernel._context.tid = s.kernel._context.tid)
    (s : Launch σ) (h0 : P s 0) :
    ∃ s1, threadLoops body s = .ok s1 ∧ P s1 (N.x * N.y * N.z) := by
  unfold threadLoops
  rw [hntid s 0 h0]
  refine forLoop_total _ (fun z t => P t (N.x * N.y * z)) _ _ _ _ (by simpa using h0) ?_
    (fun s1 h => by simpa using h)
  intro z t _ hzlt hI
  beta_reduce at hI
  have hP2 := hretid t _ { t.kernel._context.tid with z := z } hI
  have hN2 := hntid _ _ hP2
  dsimp only at hN2 ⊢
  refine forLoop_total _
    (fun y u => P u (N.x * N.y * z + N.x * y) ∧ u.kernel._context.tid.z = z) _ _ _ _
    ⟨by simpa using hP2, rfl⟩ ?_ ?_
  swap
  · intro s1 h
    have e : N.x * N.y * (z + 1) = N.x * N.y * z + N.x * (0 + N.y) := by
      rw [Nat.mul_succ, Nat.zero_add]
    rw [hN2] at h
    rw [e]
    exact h.1
  intro y u _ hylt hIy
  rw [hN2] at hylt
  obtain ⟨hPu, htz⟩ := hIy
  have hP4 := hretid u _ { u.kernel._context.tid with y := y } hPu
  have hN4 := hntid _ _ hP4
  dsimp only at hN4 ⊢
  refine forLoop_total _
    (fun x v => P v (N.x * N.y * z + N.x * y + x) ∧ v.kernel._context.tid.y = y ∧
      v.kernel._context.tid.z = z) _ _ _ _
    ⟨by simpa using hP4, rfl, htz⟩ ?_ ?_
  swap
  · intro s1 h
    have e : N.x * N.y * z + N.x * (y + 1) = N.x * N.y * z + N.x * y + (0 + N.x) := by
      rw [Nat.mul_succ, Nat.zero_add, Nat.add_assoc]
    rw [hN4] at h
    rw [e]
    exact ⟨h.1, h.2.2⟩
  intro x v _ hxlt hIx
  rw [hN4] at hxlt
  obtain ⟨hPv, hty, htz⟩ := hIx
  have hP5 := hretid v _ { v.kernel._context.tid with x := x } hPv
  have hid : threadId
      { v with kernel := { v.kernel with
          _context := { v.kernel._context with
            tid := { v.kernel._context.tid with x := x } } } }.kernel._context =
      N.x * N.y * z + N.x * y + x := by
    unfold threadId
    simp only [hntid _ _ hPv, hty, htz]
  obtain ⟨v1, hbody, hP6, htid⟩ := hstep _ _ hP5 hid
    (index_lt _ _ _ _ _ _ (by omega) (by omega) (by omega))
  refine ⟨v1, hbody, hP6, ?_, ?_⟩
  · rw [htid]
    exact hty
  · rw [htid]
    exact htz

end LLVMExecutableKernel

/-! ## The thread ids of a block and the launch without barriers (C28) -/

namespace LLVMExecutableKernel

theorem index_injective (X Y x y z x1 y1 z1 : Nat) (hx : x < X) (hy : y < Y)
    (hx1 : x1 < X) (hy1 : y1 < Y)
    (h : X * Y * z + X * y + x = X * Y * z1 + X * y1 + x1) : x = x1 ∧ y = y1 ∧ z = z1 := by
  have e : ∀ a b c : Nat, X * Y * c + X * b + a = a + X * (b + Y * c) := by
    intro a b c
    rw [Nat.mul_add, ← Nat.mul_assoc]
    omega
  rw [e, e] at h
  have hX : 0 < X := by omega
  have hY : 0 < Y := by omega
  have hmod := congrArg (fun n => n % X) h
  simp only [Nat.add_mul_mod_self_left, Nat.mod_eq_of_lt hx, Nat.mod_eq_of_lt hx1] at hmod
  have hdiv := congrArg (fun n => n / X) h
  simp only [Nat.add_mul_div_left _ _ hX, Nat.div_eq_of_lt hx, Nat.div_eq_of_lt hx1,
    Nat.zero_add] at hdiv
  have hmod2 := congrArg (fun n => n % Y) hdiv
  simp only [Nat.add_mul_mod_self_left, Nat.mod_eq_of_lt hy, Nat.mod_eq_of_lt hy1] at hmod2
  have hdiv2 := congrArg (fun n => n / Y) hdiv
  simp only [Nat.add_mul_div_left _ _ hY, Nat.div_eq_of_lt hy, Nat.div_eq_of_lt hy1,
    Nat.zero_add] at hdiv2
  exact ⟨hmod, hmod2, hdiv2⟩

theorem index_surjective (X Y Z n : Nat) (h : n < X * Y * Z) :
    n % X < X ∧ n / X % Y < Y ∧ n / (X * Y) < Z ∧
      X * Y * (n / (X * Y)) + X * (n / X % Y) + n % X = n := by
  have hX : 0 < X := by
    rcases Nat.eq_zero_or_pos X with h0 | h0
    · simp [h0] at h
    · exact h0
  have hY : 0 < Y := by
    rcases Nat.eq_zero_or_pos Y with h0 | h0
    · simp [h0] at h
    · exact h0
  refine ⟨Nat.mod_lt _ hX, Nat.mod_lt _ hY, ?_, ?_⟩
  · exact (Nat.div_lt_iff_lt_mul (Nat.mul_pos hX hY)).mpr (by rw [Nat.mul_comm]; exact h)
  · have h1 := Nat.div_add_mod n X
    have h2 := Nat.div_add_mod (n / X) Y
    have h3 : n / X / Y = n / (X * Y) := Nat.div_div_eq_div_mul n X Y
    rw [h3] at h2
    have h4 : X * (Y * (n / (X * Y)) + n / X % Y) = X * (n / X) := by rw [h2]
    rw [Nat.mul_add, ← Nat.mul_assoc] at h4
    omega

theorem threadNoBarriers_step {σ : Type} (f : Function σ) (k : Executable σ) (localBase : Nat)
    (hshape : k._context.ntid.x * k._context.ntid.y * k._context.ntid.z < 2 ^ 32)
    (hbuffer : Machine.threads k._context ≤ k.localMemory.length) (s : Launch σ) (n : Nat)
    (hP : Machine.Launched k localBase s n) (hid : threadId s.kernel._context = n)
    (hn : n < k._context.ntid.x * k._context.ntid.y * k._context.ntid.z) :
    ∃ s1, Machine.threadNoBarriers f localBase s = .ok s1 ∧
      Machine.Launched k localBase s1 (n + 1) ∧
      s1.kernel._context.tid = s.kernel._context.tid := by
  obtain ⟨h1, h2, h4, h5, h6⟩ := hP
  have hthreads : Machine.threads k._context =
      k._context.ntid.x * k._context.ntid.y * k._context.ntid.z :=
    Nat.mod_eq_of_lt hshape
  have hlt : n < s.kernel.localMemory.length := by
    rw [h4]
    omega
  have hmid : Machine.threadId s.kernel._context = n := by
    unfold threadId at hid
    unfold Machine.threadId
    rw [hid]
    exact Nat.mod_eq_of_lt (by omega)
  unfold Machine.threadNoBarriers
  rw [hmid]
  simp only [List.getElem?_eq_getElem hlt]
  refine ⟨_, rfl, ⟨h1, h2, ?_, ?_, ?_⟩, rfl⟩
  · simp only [List.length_set]
    exact h4
  · simp only [List.map_append, h5, List.range_succ, List.map_cons, List.map_nil, h2]
  · simp only [List.all_append, h6, List.all_cons, List.all_nil, Bool.and_true]

theorem launchNoBarriers_calls {σ : Type} (f : Function σ) (k : Executable σ)
    (hshape : k._context.ntid.x * k._context.ntid.y * k._context.ntid.z < 2 ^ 32)
    (hbuffer : Machine.threads k._context ≤ k.localMemory.length) :
    ∃ s, Machine.launchNoBarriers f k = .ok s ∧
      s.calls.map (fun call => (call.1, call.2.1)) =
        (List.range (Machine.threads k._context)).map
          (fun id => (id, (k._context.local_ + k._context.localSize * id) % 2 ^ 64)) ∧
      s.done = s.calls.all (fun call => decide (call.2.2 = 0)) ∧
      s.kernel._context.local_ = k._context.local_ := by
  obtain ⟨s1, hrun, hP⟩ := threadLoops_total (Machine.threadNoBarriers f k._context.local_)
    (Machine.Launched k k._context.local_) k._context.ntid
    (fun s n t h => h) (fun s n h => h.1)
    (threadNoBarriers_step f k k._context.local_ hshape hbuffer)
    { kernel := k, done := true, calls := [] } ⟨rfl, rfl, rfl, rfl, rfl⟩
  unfold Machine.launchNoBarriers
  simp only [hrun]
  have hthreads : Machine.threads k._context =
      k._context.ntid.x * k._context.ntid.y * k._context.ntid.z :=
    Nat.mod_eq_of_lt hshape
  rw [hthreads]
  exact ⟨_, rfl, hP.2.2.2.1, hP.2.2.2.2, rfl⟩

/-- C28 as it is written fails.  In a block of shape (65536, 65536, 1), whose
dimensions are positive, `threads()` is 0, and the id 0 of the thread index
(0, 0, 0) is not below it; in a block of shape (65536, 65536, 2) the thread
indices (0, 0, 0) and (0, 0, 1) have the same id 0. -/
theorem threadId_wraps_around_for_large_blocks :
    Machine.threads { Sample.executable._context with ntid := ⟨65536, 65536, 1⟩ } = 0 ∧
    Machine.threadId
      { Sample.executable._context with ntid := ⟨65536, 65536, 1⟩, tid := ⟨0, 0, 0⟩ } = 0 ∧
    Machine.threadId
      { Sample.executable._context with ntid := ⟨65536, 65536, 2⟩, tid := ⟨0, 0, 0⟩ } = 0 ∧
    Machine.threadId
      { Sample.executable._context with ntid := ⟨65536, 65536, 2⟩, tid := ⟨0, 0, 1⟩ } = 0 :=
  ⟨rfl, rfl, rfl, rfl⟩

/-- C28, amended: for every block shape whose thread count `x * y * z` is below
`2 ^ 32`, `threadId` maps the thread indices in the range of the block shape
one-to-one onto the numbers below `threads()`, which is `x * y * z`: the id of
an index in range is below `threads()`, two indices in range with the same id
are the same, and every number below `threads()` is the id of an index in
range.  So the regions `[localSize * id, localSize * (id + 1))` of local
memory of two different threads have no byte in common and lie inside the
first `threads() * localSize` bytes.  With a buffer that holds the regions of
all its threads, `_launchCtaNoBarriers` reaches its last statement, having
called the translated function for the ids `0, 1, ..., threads() - 1` in this
order, each with `local` pointing to the region of its id.  The translated
function is taken not to write to the context. -/
theorem threadId_bijection_and_launch_in_id_order {σ : Type} (f : Function σ)
    (k : Executable σ)
    (hshape : k._context.ntid.x * k._context.ntid.y * k._context.ntid.z < 2 ^ 32)
    (hbuffer : Machine.threads k._context ≤ k.localMemory.length) :
    Machine.threads k._context =
      k._context.ntid.x * k._context.ntid.y * k._context.ntid.z ∧
    (∀ t : executive.Dim3, t.x < k._context.ntid.x → t.y < k._context.ntid.y →
      t.z < k._context.ntid.z →
      Machine.threadId { k._context with tid := t } < Machine.threads k._context ∧
      k._context.localSize * (Machine.threadId { k._context with tid := t } + 1) ≤
        Machine.threads k._context * k._context.localSize) ∧
    (∀ t u : executive.Dim3, t.x < k._context.ntid.x → t.y < k._context.ntid.y →
      t.z < k._context.ntid.z → u.x < k._context.ntid.x → u.y < k._context.ntid.y →
      u.z < k._context.ntid.z →
      (Machine.threadId { k._context with tid := t } =
          Machine.threadId { k._context with tid := u } → t = u) ∧
      (t ≠ u → ∀ byte,
        k._context.localSize * Machine.threadId { k._context with tid := t } ≤ byte →
        byte < k._context.localSize * (Machine.threadId { k._context with tid := t } + 1) →
        ¬ (k._context.localSize * Machine.threadId { k._context with tid := u } ≤ byte ∧
          byte <
            k._context.localSize * (Machine.threadId { k._context with tid := u } + 1)))) ∧
    (∀ id, id < Machine.threads k._context → ∃ t : executive.Dim3,
      t.x < k._context.ntid.x ∧ t.y < k._context.ntid.y ∧ t.z < k._context.ntid.z ∧
      Machine.threadId { k._context with tid := t } = id) ∧
    ∃ s, Machine.launchNoBarriers f k = .ok s ∧
      s.calls.map (fun call => (call.1, call.2.1)) =
        (List.range (Machine.threads k._context)).map
          (fun id => (id, (k._context.local_ + k._context.localSize * id) % 2 ^ 64)) := by
  have hthreads : Machine.threads k._context =
      k._context.ntid.x * k._context.ntid.y * k._context.ntid.z :=
    Nat.mod_eq_of_lt hshape
  have hid : ∀ t : executive.Dim3, t.x < k._context.ntid.x → t.y < k._context.ntid.y →
      t.z < k._context.ntid.z →
      Machine.threadId { k._context with tid := t } =
        k._context.ntid.x * k._context.ntid.y * t.z + k._context.ntid.x * t.y + t.x := by
    intro t hx hy hz
    have hlt0 := index_lt _ _ _ _ _ _ hx hy hz
    show (k._context.ntid.x * k._context.ntid.y * t.z + k._context.ntid.x * t.y + t.x) %
      2 ^ 32 = _
    exact Nat.mod_eq_of_lt (Nat.lt_trans hlt0 hshape)
  have hlt : ∀ t : executive.Dim3, t.x < k._context.ntid.x → t.y < k._context.ntid.y →
      t.z < k._context.ntid.z →
      Machine.threadId { k._context with tid := t } < Machine.threads k._context := by
    intro t hx hy hz
    rw [hid t hx hy hz, hthreads]
    exact index_lt _ _ _ _ _ _ hx hy hz
  have hinj : ∀ t u : executive.Dim3, t.x < k._context.ntid.x → t.y < k._context.ntid.y →
      t.z < k._context.ntid.z → u.x < k._context.ntid.x → u.y < k._context.ntid.y →
      u.z < k._context.ntid.z →
      Machine.threadId { k._context with tid := t } =
        Machine.threadId { k._context with tid := u } → t = u := by
    intro t u hx hy hz hx1 hy1 hz1 h
    rw [hid t hx hy hz, hid u hx1 hy1 hz1] at h
    obtain ⟨e1, e2, e3⟩ := index_injective _ _ _ _ _ _ _ _ hx hy hx1 hy1 h
    cases t
    cases u
    simp only at e1 e2 e3
    rw [e1, e2, e3]
  refine ⟨hthreads, ?_, ?_, ?_, ?_⟩
  · intro t hx hy hz
    refine ⟨hlt t hx hy hz, ?_⟩
    rw [Nat.mul_comm]
    exact Nat.mul_le_mul_right _ (hlt t hx hy hz)
  · intro t u hx hy hz hx1 hy1 hz1
    refine ⟨hinj t u hx hy hz hx1 hy1 hz1, ?_⟩
    intro hne byte h1 h2 h3
    have hids : Machine.threadId { k._context with tid := t } ≠
        Machine.threadId { k._context with tid := u } :=
      fun h => hne (hinj t u hx hy hz hx1 hy1 hz1 h)
    rcases Nat.lt_or_gt_of_ne hids with hlt1 | hlt1
    · have h4 : k._context.localSize * (Machine.threadId { k._context with tid := t } + 1) ≤
          k._context.localSize * Machine.threadId { k._context with tid := u } :=
        Nat.mul_le_mul_left _ hlt1
      omega
    · have h4 : k._context.localSize * (Machine.threadId { k._context with tid := u } + 1) ≤
          k._context.localSize * Machine.threadId { k._context with tid := t } :=
        Nat.mul_le_mul_left _ hlt1
      omega
  · intro id hlt0
    rw [hthreads] at hlt0
    obtain ⟨h1, h2, h3, h4⟩ := index_surjective _ _ _ id hlt0
    refine ⟨⟨id % k._context.ntid.x, id / k._context.ntid.x % k._context.ntid.y,
      id / (k._context.ntid.x * k._context.ntid.y)⟩, h1, h2, h3, ?_⟩
    rw [hid _ h1 h2 h3]
    exact h4
  · obtain ⟨s, h1, h2, _⟩ := launchNoBarriers_calls f k hshape hbuffer
    exact ⟨s, h1, h2⟩

/-- C28, amended, on a kernel with blocks of shape (2, 3, 1), 8 bytes of local
memory for each thread and a buffer at address 4096: the six threads are
called in the order of their ids, with the pointers 4096, 4104, ..., 4136. -/
theorem threadId_bijection_and_launch_in_id_order_witness :
    Sample.executable._context.ntid.x * Sample.executable._context.ntid.y *
      Sample.executable._context.ntid.z < 2 ^ 32 ∧
    Machine.threads Sample.executable._context ≤ Sample.executable.localMemory.length ∧
    (Machine.launchNoBarriers Sample.straight Sample.executable).map
        (fun s => s.calls) =
      .ok [(0, 4096, 0), (1, 4104, 0), (2, 4112, 0), (3, 4120, 0), (4, 4128, 0),
        (5, 4136, 0)] ∧
    (∃ t : executive.Dim3,
      t.x < Sample.executable._context.ntid.x ∧ t.y < Sample.executable._context.ntid.y ∧
      t.z < Sample.executable._context.ntid.z ∧
      Machine.threadId { Sample.executable._context with tid := t } = 5) ∧
    ∃ s, Machine.launchNoBarriers Sample.straight Sample.executable = .ok s ∧
      s.calls.map (fun call => (call.1, call.2.1)) =
        (List.range (Machine.threads Sample.executable._context)).map
          (fun id => (id, (Sample.executable._context.local_ +
            Sample.executable._context.localSize * id) % 2 ^ 64)) :=
  have h := threadId_bijection_and_launch_in_id_order Sample.straight Sample.executable
    (by decide) (by decide)
  ⟨by decide, by decide, rfl, h.2.2.2.1 5 (by decide), h.2.2.2.2⟩

end LLVMExecutableKernel

/-! ## The launch with barriers (C29) -/

namespace LLVMExecutableKernel

end LLVMExecutableKernel
